import Mathlib

/-!
# Pintos (project 3): process lifecycle, ELF loading and memory-mapped files

A shallow embedding of `userprog/process.c` and `vm/file.c`, followed by the
properties proved about it.  Pointers are natural numbers below `2 ^ 64`,
`NULL` is `0` (or `none` where the pointee is modelled), and machine
arithmetic is written with explicit `% 2 ^ w`.
-/

namespace Pintos

/-! ## Machine constants -/

/-- Modelled from the spec: the page size of `threads/vaddr.h` (4096-byte pages). -/
def PGSIZE : Nat := 4096

/-- Number of values of a `uint64_t`. -/
def U64 : Nat := 2 ^ 64

/-- Number of values of a `uint32_t`. -/
def U32 : Nat := 2 ^ 32

/-- Conversion of an unsigned value to `int` (32-bit two's complement). -/
def to_int32 (x : Nat) : Int :=
  if x % U32 < 2 ^ 31 then ((x % U32 : Nat) : Int) else ((x % U32 : Nat) : Int) - (U32 : Int)

/-- Conversion to `off_t` (`int32_t`, two's complement).  Sums of `off_t` values
are converted with it: an overflowing sum wraps, as it does on the target. -/
def to_off_t (x : Int) : Int := (x + 2 ^ 31) % 2 ^ 32 - 2 ^ 31

/-- Subtraction on `uint64_t`. -/
def wsub (a b : Nat) : Nat := (a + U64 - b % U64) % U64

/-- Modelled from the spec: `pg_round_up` of `threads/vaddr.h`, the next page
boundary at or above `va`, computed on `uint64_t`. -/
def pg_round_up (va : Nat) : Nat := (va + PGSIZE - 1) % U64 / PGSIZE * PGSIZE

/-! ## ELF program headers (`validate_segment`) -/

/-- The record `struct ELF64_PHDR`; every field is an unsigned machine integer. -/
structure Phdr where
  p_type : Nat
  p_flags : Nat
  p_offset : Nat
  p_vaddr : Nat
  p_paddr : Nat
  p_filesz : Nat
  p_memsz : Nat
  p_align : Nat
deriving DecidableEq

/-- Modelled from the spec: `is_user_vaddr` of `threads/vaddr.h`; user space is
the addresses below the kernel base, which is taken as a parameter. -/
def is_user_vaddr (KERN_BASE : Nat) (va : Nat) : Bool := decide (va < KERN_BASE)

/-- The function `validate_segment` of process.c.  `file_length` is the value
of `file_length (file)`; `x & PGMASK` is `x % PGSIZE`; the sum
`p_vaddr + p_memsz` is computed on `uint64_t`. -/
def validate_segment (KERN_BASE : Nat) (phdr : Phdr) (file_length : Nat) : Bool :=
  if phdr.p_offset % PGSIZE ≠ phdr.p_vaddr % PGSIZE then false
  else if phdr.p_offset > file_length then false
  else if phdr.p_memsz < phdr.p_filesz then false
  else if phdr.p_memsz = 0 then false
  else if !is_user_vaddr KERN_BASE phdr.p_vaddr then false
  else if !is_user_vaddr KERN_BASE ((phdr.p_vaddr + phdr.p_memsz) % U64) then false
  else if (phdr.p_vaddr + phdr.p_memsz) % U64 < phdr.p_vaddr then false
  else if phdr.p_vaddr < PGSIZE then false
  else true

/-! ## Parent/child synchronisation (`process_wait`, `process_exit`) -/

/-- The error sentinel `TID_ERROR`. -/
def TID_ERROR : Int := -1

/-- The fields of `struct thread` used by wait and exit.  A semaphore is its
counter. -/
structure Thread where
  tid : Int
  p_tid : Int
  exit_status : Int
  wait_sema : Nat
  reap_sema : Nat
  is_user : Bool
deriving DecidableEq

/-- Modelled from the spec: `thread_get_by_id` of threads/thread.c, the thread
with the given id, or `none` (NULL) when no thread has it. -/
def thread_get_by_id (threads : List Thread) (tid : Int) : Option Thread :=
  threads.find? (fun t => t.tid == tid)

/-- Write through a `struct thread *` obtained for `tid`. -/
def update_thread (threads : List Thread) (tid : Int) (f : Thread → Thread) : List Thread :=
  threads.map (fun t => if t.tid == tid then f t else t)

/-- Observable actions of the two functions, in program order. -/
inductive Event where
  | clear_parent_link (tid : Int)
  | sema_down_wait (tid : Int)
  | read_exit_status (tid : Int) (status : Int)
  | sema_up_reap (tid : Int)
  | print_exit (tid : Int) (status : Int)
  | clear_fd_list (tid : Int)
  | cleanup (tid : Int)
  | sema_up_wait (tid : Int)
  | sema_down_reap (tid : Int)
deriving DecidableEq

/-- Program points of `process_wait (tid)`. -/
inductive WaitPc where
  | entry
  | clear
  | down
  | read
  | up (child_exit : Int)
  | returned (value : Int)
  | dangling
deriving DecidableEq

/-- Program points of an exiting child: it produces its exit status (the exit
system call or the fault handler, outside these files), then runs
`process_exit` line by line, then is destroyed. -/
inductive ExitPc where
  | running
  | print
  | clear_fd
  | cleanup
  | notify
  | reap
  | gone
deriving DecidableEq

/-- A configuration: the thread table, where the waiting parent and the
exiting child stand, and what has happened so far. -/
structure Cfg where
  threads : List Thread
  ppc : WaitPc
  cpc : ExitPc
  log : List Event
deriving DecidableEq

/-- One statement of `process_wait (tid)` run by the thread `cur`; `none` when
the caller is blocked in `sema_down` or has returned. -/
def process_wait_step (cur tid : Int) (c : Cfg) : Option Cfg :=
  match c.ppc with
  | .entry =>
    match thread_get_by_id c.threads tid with
    | none => some { c with ppc := .returned (-1) }
    | some t =>
      if t.p_tid ≠ cur then some { c with ppc := .returned (-1) }
      else some { c with ppc := .clear }
  | .clear =>
    match thread_get_by_id c.threads tid with
    | none => some { c with ppc := .dangling }
    | some _ =>
      some { c with
        threads := update_thread c.threads tid (fun t => { t with p_tid := TID_ERROR }),
        ppc := .down, log := c.log ++ [.clear_parent_link tid] }
  | .down =>
    match thread_get_by_id c.threads tid with
    | none => some { c with ppc := .dangling }
    | some t =>
      if t.wait_sema = 0 then none
      else some { c with
        threads := update_thread c.threads tid (fun t => { t with wait_sema := t.wait_sema - 1 }),
        ppc := .read, log := c.log ++ [.sema_down_wait tid] }
  | .read =>
    match thread_get_by_id c.threads tid with
    | none => some { c with ppc := .dangling }
    | some t =>
      some { c with ppc := .up t.exit_status,
                    log := c.log ++ [.read_exit_status tid t.exit_status] }
  | .up child_exit =>
    match thread_get_by_id c.threads tid with
    | none => some { c with ppc := .dangling }
    | some _ =>
      some { c with
        threads := update_thread c.threads tid (fun t => { t with reap_sema := t.reap_sema + 1 }),
        ppc := .returned child_exit, log := c.log ++ [.sema_up_reap tid] }
  | .returned _ => none
  | .dangling => none

/-- Outcome of a call of `process_wait` run without interruption. -/
inductive WaitOutcome where
  | returned (value : Int) (c : Cfg)
  | blocked (c : Cfg)
  | crashed (c : Cfg)
deriving DecidableEq

/-- Run the statements of `process_wait` until it returns or blocks. -/
def process_wait_run (cur tid : Int) : Nat → Cfg → WaitOutcome
  | 0, c => .blocked c
  | n + 1, c =>
    match c.ppc with
    | .returned v => .returned v c
    | .dangling => .crashed c
    | _ =>
      match process_wait_step cur tid c with
      | none => .blocked c
      | some c1 => process_wait_run cur tid n c1

/-- A call `process_wait (tid)` by thread `cur` that no other thread interleaves
with: at most five statements run. -/
def process_wait (cur tid : Int) (c : Cfg) : WaitOutcome :=
  process_wait_run cur tid 6 { c with ppc := .entry }

/-- One statement of the exiting thread `tid`: it records the status it exits
with and then runs `process_exit`; `none` when it is blocked in `sema_down` or
is gone. -/
def process_exit_step (tid : Int) (status : Int) (c : Cfg) : Option Cfg :=
  match c.cpc with
  | .running =>
    some { c with
      threads := update_thread c.threads tid (fun t => { t with exit_status := status }),
      cpc := .print }
  | .print =>
    match thread_get_by_id c.threads tid with
    | none => none
    | some t =>
      if t.is_user then
        some { c with cpc := .clear_fd, log := c.log ++ [.print_exit tid t.exit_status] }
      else some { c with cpc := .clear_fd }
  | .clear_fd => some { c with cpc := .cleanup, log := c.log ++ [.clear_fd_list tid] }
  | .cleanup => some { c with cpc := .notify, log := c.log ++ [.cleanup tid] }
  | .notify =>
    some { c with
      threads := update_thread c.threads tid (fun t => { t with wait_sema := t.wait_sema + 1 }),
      cpc := .reap, log := c.log ++ [.sema_up_wait tid] }
  | .reap =>
    match thread_get_by_id c.threads tid with
    | none => none
    | some t =>
      if t.reap_sema = 0 then none
      else some { c with
        threads := c.threads.filter (fun t => t.tid != tid),
        cpc := .gone, log := c.log ++ [.sema_down_reap tid] }
  | .gone => none

/-- One step of the system: the parent `cur` waiting for `tid`, or the child
`tid` exiting with `status`, whichever the scheduler picks. -/
inductive Step (cur tid status : Int) : Cfg → Cfg → Prop where
  | parent {c c1 : Cfg} : process_wait_step cur tid c = some c1 → Step cur tid status c c1
  | child {c c1 : Cfg} : process_exit_step tid status c = some c1 → Step cur tid status c c1

/-- Configurations reachable from `c0` under every interleaving. -/
inductive Reachable (cur tid status : Int) (c0 : Cfg) : Cfg → Prop where
  | start : Reachable cur tid status c0 c0
  | next {c c1 : Cfg} : Reachable cur tid status c0 c → Step cur tid status c c1 →
      Reachable cur tid status c0 c1

/-- What the parent has done so far. -/
def parent_events (log : List Event) : List Event :=
  log.filter (fun e => match e with
    | .clear_parent_link _ => true
    | .sema_down_wait _ => true
    | .read_exit_status _ _ => true
    | .sema_up_reap _ => true
    | _ => false)

/-- An open file handle (`struct file *`): the inode it names and the value of
`file_length`. -/
structure File where
  inode : Nat
  length : Nat
deriving DecidableEq

/-- The record `struct uninit_page_args` as `do_mmap` fills it. -/
structure UninitPageArgs where
  addr : Nat
  ofs : Int
  page_read_bytes : Nat
  page_zero_bytes : Nat
deriving DecidableEq

/-- The record `struct file_page`. -/
structure FilePage where
  addr : Nat
  ofs : Int
  page_read_bytes : Nat
  page_zero_bytes : Nat
deriving DecidableEq

/-- A frame: the bytes at `kva` and the dirty bit of the retained kernel
entry, `(*frame->kpte) & PTE_D`. -/
structure Frame where
  kva : List Nat
  kpte_dirty : Bool
deriving DecidableEq

/-- The tag `enum vm_type` of a page. -/
inductive VmType where
  | VM_UNINIT
  | VM_ANON
  | VM_FILE
deriving DecidableEq

/-- The fields of `struct page` used by vm/file.c: `type` is the type the page
was registered with, `aux` is `page->uninit.aux`, `file` is `page->file`,
`frame` is `page->frame` (`none` for NULL). -/
structure Page where
  va : Nat
  writable : Bool
  type : VmType
  aux : Option UninitPageArgs
  file : FilePage
  frame : Option Frame
deriving DecidableEq

/-- The Mapping Record `struct mmap_elem`; `pg_cnt` is an `int`. -/
structure MmapElem where
  addr : Nat
  pg_cnt : Int
  file : File
deriving DecidableEq

/-- A request `file_seek (file, ofs); file_write (file, kva, n)`: the handle,
the offset and the `n` bytes handed over. -/
structure FileWrite where
  file : File
  ofs : Int
  bytes : List Nat
deriving DecidableEq

/-- The state vm/file.c works on: the supplemental page table and the mapping
table of the current thread, the handles obtained from `file_reopen` and not
yet closed, and the writes issued so far. -/
structure Vm where
  spt : List Page
  mmap_hash : List MmapElem
  reopened : List File
  written : List FileWrite
deriving DecidableEq

/-- Outcomes of the allocations `do_mmap` makes: `malloc` of the record, and
per registered page `malloc` of its arguments and the allocation inside
`vm_alloc_page_with_initializer`. -/
structure Alloc where
  me : Bool
  upargs : Nat → Bool
  page : Nat → Bool

/-- Result of `do_mmap`: it returns an address or NULL, or the kernel faults on
a NULL dereference; `diverge` stands for a loop that has not ended when the
fuel has. -/
inductive MmapResult where
  | ret (addr : Option Nat) (vm : Vm)
  | fault (vm : Vm)
  | diverge
deriving DecidableEq

/-- Result of `do_munmap`: it returns, or panics, or the kernel faults on a NULL
dereference. -/
inductive MunmapResult where
  | done (vm : Vm)
  | panic (vm : Vm)
  | fault
deriving DecidableEq

/-- Modelled from the spec: `spt_find_page` of vm/vm.c, the page registered at
`va`, or `none`. -/
def spt_find_page (vm : Vm) (va : Nat) : Option Page :=
  vm.spt.find? (fun p => p.va == va)

/-- Modelled from the spec: `spt_remove_page` of vm/vm.c, dropping the page
from the table. -/
def spt_remove_page (vm : Vm) (page : Page) : Vm :=
  { vm with spt := vm.spt.filter (fun p => p.va != page.va) }

/-- Modelled from the spec: `vm_alloc_page_with_initializer` of vm/vm.c.  It
fails when a page is already registered at `upage` (one page per address) or
when its allocation fails (`ok = false`); otherwise it registers a page that
is not yet resolved and carries `aux`. -/
def vm_alloc_page_with_initializer (vm : Vm) (ok : Bool) (type : VmType) (upage : Nat)
    (writable : Bool) (aux : UninitPageArgs) : Option Vm :=
  if (spt_find_page vm upage).isSome then none
  else if !ok then none
  else some { vm with spt :=
    { va := upage, writable := writable, type := type, aux := some aux,
      file := ⟨0, 0, 0, 0⟩, frame := none } :: vm.spt }

/-- Modelled from the spec: `hash_find` on the mapping table, keyed by start
address. -/
def hash_find (h : List MmapElem) (addr : Nat) : Option MmapElem :=
  h.find? (fun e => e.addr == addr)

/-- Modelled from the spec: `hash_insert`; a record whose key is already in the
table is not inserted. -/
def hash_insert (h : List MmapElem) (e : MmapElem) : List MmapElem :=
  if (hash_find h e.addr).isSome then h else e :: h

/-- Modelled from the spec: `hash_delete` of the record keyed by `addr`. -/
def hash_delete (h : List MmapElem) (addr : Nat) : List MmapElem :=
  h.filter (fun e => e.addr != addr)

/-- Modelled from the spec: `file_reopen`, a new handle for the same inode (its
own allocation failure is left out). -/
def file_reopen (f : File) : File := f

/-- The function `file_backed_initializer`: copy the registered arguments from
`page->uninit.aux` into `page->file`.  `none` is the NULL dereference of an
absent `aux`. -/
def file_backed_initializer (page : Page) : Option Page :=
  match page.aux with
  | none => none
  | some upargs =>
    some { page with
      type := .VM_FILE,
      file := { addr := upargs.addr, ofs := upargs.ofs,
                page_read_bytes := upargs.page_read_bytes,
                page_zero_bytes := upargs.page_zero_bytes } }

/-- The function `file_backed_write_back`.  `pml4_is_dirty` is the dirty bit of
the current thread's hardware table; `none` is a NULL dereference
(`page->frame` or `file`). -/
def file_backed_write_back (vm : Vm) (pml4_is_dirty : Nat → Bool) (page : Page)
    (file : Option File) : Option Vm :=
  match page.frame with
  | none => none
  | some frame =>
    let u_dirty := pml4_is_dirty page.va
    let k_dirty := frame.kpte_dirty
    if u_dirty || k_dirty then
      match file with
      | none => none
      | some f =>
        some { vm with written := vm.written ++
          [{ file := f, ofs := page.file.ofs,
             bytes := frame.kva.take page.file.page_read_bytes }] }
    else some vm

/-- The function `get_file_from_hash`. -/
def get_file_from_hash (h : List MmapElem) (addr : Nat) : Option File :=
  (hash_find h addr).map (fun e => e.file)

/-- The function `file_backed_swap_out`; it returns `true` whenever it returns. -/
def file_backed_swap_out (vm : Vm) (pml4_is_dirty : Nat → Bool) (page : Page) : Option Vm :=
  file_backed_write_back vm pml4_is_dirty page (get_file_from_hash vm.mmap_hash page.file.addr)

/-- The overlap loop of `do_mmap`, `for (int i = 0; i < pg_cnt; i++)`, with
`n = pg_cnt - i` iterations left. -/
def mmap_overlap (vm : Vm) (addr : Nat) : Nat → Nat → Bool
  | 0, _ => false
  | n + 1, i =>
    if (spt_find_page vm ((addr + PGSIZE * i) % U64)).isSome then true
    else mmap_overlap vm addr n (i + 1)

/-- The registration loop of `do_mmap`, `while (read_bytes > 0 || zero_bytes > 0)`,
on `uint32_t` counters and an `off_t` offset; `k` counts the pages registered
so far. -/
def mmap_pages (alloc : Alloc) (addr : Nat) (writable : Bool) :
    Nat → Nat → Vm → Nat → Int → Nat → Nat → MmapResult
  | 0, _, vm, _, _, read_bytes, zero_bytes =>
    if read_bytes > 0 ∨ zero_bytes > 0 then .diverge else .ret (some addr) vm
  | fuel + 1, k, vm, cur_pg, offset, read_bytes, zero_bytes =>
    if read_bytes > 0 ∨ zero_bytes > 0 then
      let page_read_bytes := if read_bytes < PGSIZE then read_bytes else PGSIZE
      let page_zero_bytes := PGSIZE - page_read_bytes
      if !alloc.upargs k then .fault vm
      else
        let upargs : UninitPageArgs :=
          { addr := addr, ofs := offset, page_read_bytes := page_read_bytes,
            page_zero_bytes := page_zero_bytes }
        match vm_alloc_page_with_initializer vm (alloc.page k) .VM_FILE cur_pg writable
            upargs with
        | none => .ret none vm
        | some vm1 =>
          mmap_pages alloc addr writable fuel (k + 1) vm1 ((cur_pg + PGSIZE) % U64)
            (to_off_t (offset + PGSIZE)) ((read_bytes + U32 - page_read_bytes) % U32)
            ((zero_bytes + U32 - page_zero_bytes) % U32)
    else .ret (some addr) vm

/-- The function `do_mmap`.  `addr` and `length` are 64-bit, `offset` is an
`off_t`, `pg_cnt` an `int`, `read_bytes` and `zero_bytes` are `uint32_t`. -/
def do_mmap (vm : Vm) (alloc : Alloc) (addr : Nat) (length : Nat) (writable : Bool)
    (file : Option File) (offset : Int) : MmapResult :=
  match file with
  | none => .ret none vm
  | some f =>
    if addr = 0 ∨ addr % PGSIZE ≠ 0 ∨ offset % (PGSIZE : Int) ≠ 0 ∨ length = 0
        ∨ offset > (f.length : Int) then .ret none vm
    else
      let pg_cnt : Int := to_int32 ((length - 1) / PGSIZE + 1)
      if mmap_overlap vm addr pg_cnt.toNat 0 then .ret none vm
      else if !alloc.me then .ret none vm
      else
        let me : MmapElem := { addr := addr, pg_cnt := pg_cnt, file := file_reopen f }
        let vm1 : Vm := { vm with reopened := me.file :: vm.reopened,
                                  mmap_hash := hash_insert vm.mmap_hash me }
        let avail : Nat := (((f.length : Int) - offset) % (U64 : Int)).toNat
        let read_bytes : Nat := (if length < avail then length else avail) % U32
        let zero_bytes : Nat := (pg_round_up length + U64 - read_bytes) % U64 % U32
        mmap_pages alloc addr writable ((read_bytes + zero_bytes) / PGSIZE + 1) 0 vm1 addr
          offset read_bytes zero_bytes

/-- The page loop of `do_munmap`, `for (int i = 0; i < me->pg_cnt; i++)`, with
`n = pg_cnt - i` iterations left; `none` is the NULL dereference `page->frame`
of a page that `spt_find_page` did not find. -/
def munmap_pages (pml4_is_dirty : Nat → Bool) (me : MmapElem) (addr : Nat) :
    Nat → Nat → Vm → Option Vm
  | 0, _, vm => some vm
  | n + 1, i, vm =>
    match spt_find_page vm ((addr + PGSIZE * i) % U64) with
    | none => none
    | some page =>
      match (if page.frame.isSome then
               file_backed_write_back vm pml4_is_dirty page (some me.file)
             else some vm) with
      | none => none
      | some vm1 => munmap_pages pml4_is_dirty me addr n (i + 1) (spt_remove_page vm1 page)

/-- The function `do_munmap`. -/
def do_munmap (vm : Vm) (pml4_is_dirty : Nat → Bool) (addr : Nat) : MunmapResult :=
  match hash_find vm.mmap_hash addr with
  | none => .panic vm
  | some me =>
    match munmap_pages pml4_is_dirty me addr me.pg_cnt.toNat 0 vm with
    | none => .fault
    | some vm1 =>
      .done { vm1 with reopened := vm1.reopened.erase me.file,
                       mmap_hash := hash_delete vm1.mmap_hash addr }

/-! ## Argument passing (`load`) -/

/-- User memory as a flat store: the byte at each address.  Which pages are
mapped is the business of the page tables and is not modelled. -/
abbrev Mem := Nat → Nat

/-- The space character. -/
def SPACE : Nat := 32

/-- The registers of `struct intr_frame` that `load` sets. -/
structure IntrFrame where
  rip : Nat
  rsp : Nat
  rdi : Nat
  rsi : Nat
deriving DecidableEq

/-- The bytes of the C string stored in a buffer: those before the first NUL. -/
def c_string (buf : List Nat) : List Nat := buf.takeWhile (fun c => c != 0)

/-- Modelled from the spec: `strlen` of lib/string.c. -/
def strlen (s : List Nat) : Nat := (c_string s).length

/-- Modelled from the spec: `strlcpy (dst, src, size)` of lib/string.c: copy at
most `size - 1` bytes of the string `src` to `dst` and terminate with NUL. -/
def strlcpy (m : Mem) (dst : Nat) (src : List Nat) (size : Nat) : Mem :=
  if size = 0 then m
  else
    let dst_len := if strlen src < size - 1 then strlen src else size - 1
    fun a =>
      if dst ≤ a ∧ a < dst + dst_len then src.getD (a - dst) 0
      else if a = dst + dst_len then 0
      else m a

/-- Store of a 64-bit little-endian value, `*(char **) a = v`. -/
def store64 (m : Mem) (a v : Nat) : Mem :=
  fun x => if a ≤ x ∧ x < a + 8 then v / 256 ^ (x - a) % 256 else m x

/-- Load of a 64-bit little-endian value. -/
def load64 (m : Mem) (a : Nat) : Nat :=
  m a + 256 * (m (a + 1) + 256 * (m (a + 2) + 256 * (m (a + 3) + 256 * (m (a + 4) +
    256 * (m (a + 5) + 256 * (m (a + 6) + 256 * m (a + 7)))))))

/-- The NUL-terminated string stored at `a`, read up to `fuel` bytes. -/
def read_c_string (m : Mem) : Nat → Nat → Option (List Nat)
  | 0, _ => none
  | fuel + 1, a => if m a = 0 then some [] else (read_c_string m fuel (a + 1)).map (m a :: ·)

/-- The loop `while (*p == ' ') p -= 1;` on the command line `s`.  The cursor is
`k = p - start_p + 1`; with `k = 0` the read `*p` is outside the buffer, and
the result is `none`. -/
def skip_spaces (s : List Nat) : Nat → Option Nat
  | 0 => none
  | k + 1 => if s.getD k 0 = SPACE then skip_spaces s k else some (k + 1)

/-- The loop `for (; p >= start_p && *p != ' '; p -= 1) len += 1;`, returning
the cursor and `len`. -/
def scan_word (s : List Nat) : Nat → Nat → Nat × Nat
  | 0, len => (0, len)
  | k + 1, len => if s.getD k 0 ≠ SPACE then scan_word s k (len + 1) else (k + 1, len)

/-- The first loop of the stack construction: push the argument strings. -/
def push_strings (s : List Nat) : Nat → Nat → Nat → Mem → Option (Nat × Mem)
  | _, 0, rsp, m => some (rsp, m)
  | 0, _ + 1, _, _ => none
  | fuel + 1, k + 1, rsp, m =>
    match skip_spaces s (k + 1) with
    | none => none
    | some k1 =>
      let w := scan_word s k1 0
      let rsp1 := wsub rsp (w.2 + 1)
      push_strings s fuel w.1 rsp1 (strlcpy m rsp1 (s.drop w.1) (w.2 + 1))

/-- The second loop: push the argument pointers; returns `rsp`, the memory,
`argc` and `argv`. -/
def push_pointers (s : List Nat) (rsp_start : Nat) :
    Nat → Nat → Nat → Nat → Mem → Nat → Nat → Option (Nat × Mem × Nat × Nat)
  | _, 0, _, rsp, m, argc, argv => some (rsp, m, argc, argv)
  | 0, _ + 1, _, _, _, _, _ => none
  | fuel + 1, k + 1, len, rsp, m, argc, _ =>
    match skip_spaces s (k + 1) with
    | none => none
    | some k1 =>
      let w := scan_word s k1 len
      let len1 := w.2 + 1
      let rsp1 := wsub rsp 8
      push_pointers s rsp_start fuel w.1 len1 rsp1 (store64 m rsp1 (wsub rsp_start len1))
        (argc + 1) rsp1

/-- Lines 523 to 589 of `load`: build the initial user stack for the command
line `s`, starting from the stack pointer `rsp` that `setup_stack` left. -/
def build_stack (s : List Nat) (rip rsp : Nat) (m : Mem) : Option (IntrFrame × Mem) :=
  let rsp_start := rsp
  let n := s.length
  match push_strings s n n rsp m with
  | none => none
  | some (rsp1, m1) =>
    let rsp2 := wsub rsp1 (rsp1 % 8)
    let rsp3 := wsub rsp2 8
    let m3 := store64 m1 rsp3 0
    match push_pointers s rsp_start n n 0 rsp3 m3 0 0 with
    | none => none
    | some (rsp4, m4, argc, argv) =>
      let rsp5 := wsub rsp4 8
      let m5 := store64 m4 rsp5 0
      some ({ rip := rip, rsp := rsp5, rdi := argc, rsi := argv }, m5)

/-- What `load` needs from outside its stack construction: whether
`pml4_create` succeeds, which names `filesys_open` opens, the outcome of lines
448 to 518 (header checks, program headers, `setup_stack`; the entry point
`e_entry` on success), and the address `USER_STACK` that `setup_stack` puts in
`rsp`. -/
structure LoadEnv where
  pml4_create : Bool
  filesys_open : List Nat → Option File
  load_image : File → Option Nat
  USER_STACK : Nat

/-- The function `load`: `none` is `false`, otherwise the registers and the
user memory it leaves. -/
def load (env : LoadEnv) (file_name : List Nat) (m : Mem) : Option (IntrFrame × Mem) :=
  if !env.pml4_create then none
  else
    let s := c_string file_name
    match env.filesys_open (s.takeWhile (fun c => c != SPACE)) with
    | none => none
    | some file =>
      match env.load_image file with
      | none => none
      | some e_entry => build_stack s e_entry env.USER_STACK m

/-- The space-separated tokens of a command line. -/
def tokens (s : List Nat) : List (List Nat) :=
  (s.splitOn SPACE).filter (fun t => !t.isEmpty)

/-! ## ELF loading (`load`, `load_segment`, `setup_stack`) -/

/-- The record `struct ELF64_hdr`; `e_ident` is an array of 16 bytes, the other
fields are unsigned machine integers. -/
structure ELF64_hdr where
  e_ident : List Nat
  e_type : Nat
  e_machine : Nat
  e_version : Nat
  e_entry : Nat
  e_phoff : Nat
  e_shoff : Nat
  e_flags : Nat
  e_ehsize : Nat
  e_phentsize : Nat
  e_phnum : Nat
  e_shentsize : Nat
  e_shnum : Nat
  e_shstrndx : Nat
deriving DecidableEq

/-- The value of `sizeof (struct ELF64_hdr)`. -/
def SIZEOF_EHDR : Nat := 64

/-- The value of `sizeof (struct ELF64_PHDR)`. -/
def SIZEOF_PHDR : Nat := 56

/-- The unsigned little-endian integer held by the `w` bytes at `off` in `buf`. -/
def le_bytes (buf : List Nat) : Nat → Nat → Nat
  | _, 0 => 0
  | off, w + 1 => buf.getD off 0 % 256 + 256 * le_bytes buf (off + 1) w

/-- The header `struct ELF64_hdr` as it lies in the 64 bytes `file_read` put at
`&ehdr`. -/
def decode_ehdr (buf : List Nat) : ELF64_hdr :=
  { e_ident := buf.take 16,
    e_type := le_bytes buf 16 2,
    e_machine := le_bytes buf 18 2,
    e_version := le_bytes buf 20 4,
    e_entry := le_bytes buf 24 8,
    e_phoff := le_bytes buf 32 8,
    e_shoff := le_bytes buf 40 8,
    e_flags := le_bytes buf 48 4,
    e_ehsize := le_bytes buf 52 2,
    e_phentsize := le_bytes buf 54 2,
    e_phnum := le_bytes buf 56 2,
    e_shentsize := le_bytes buf 58 2,
    e_shnum := le_bytes buf 60 2,
    e_shstrndx := le_bytes buf 62 2 }

/-- The program header `struct ELF64_PHDR` as it lies in the 56 bytes
`file_read` put at `&phdr`. -/
def decode_phdr (buf : List Nat) : Phdr :=
  { p_type := le_bytes buf 0 4,
    p_flags := le_bytes buf 4 4,
    p_offset := le_bytes buf 8 8,
    p_vaddr := le_bytes buf 16 8,
    p_paddr := le_bytes buf 24 8,
    p_filesz := le_bytes buf 32 8,
    p_memsz := le_bytes buf 40 8,
    p_align := le_bytes buf 48 8 }

/-- Modelled from the spec: `file_read` of filesys/file.c on a file whose bytes
are `data`: the bytes transferred by a read of `size` bytes at position `pos`,
fewer than `size` at the end of the file. -/
def file_read (data : List Nat) (pos size : Nat) : List Nat := (data.drop pos).take size

/-- The string `"\177ELF\2\1\1"` that `load` compares `e_ident` with. -/
def ELF_MAGIC : List Nat := [0x7F, 0x45, 0x4C, 0x46, 2, 1, 1]

/-- The condition of the `if` at lines 449 to 455 of `load`: `buf` is what the
read of the header transferred. -/
def ehdr_rejected (buf : List Nat) : Bool :=
  let ehdr := decode_ehdr buf
  buf.length != SIZEOF_EHDR
    || ehdr.e_ident.take 7 != ELF_MAGIC
    || ehdr.e_type != 2
    || ehdr.e_machine != 0x3E
    || ehdr.e_version != 1
    || ehdr.e_phentsize != SIZEOF_PHDR
    || decide (ehdr.e_phnum > 1024)

/-- Modelled from the spec: the macro `ROUND_UP` of lib/round.h, `x` rounded up
to a multiple of `step`, computed on `uint64_t`. -/
def ROUND_UP (x step : Nat) : Nat := (x + step - 1) % U64 / step * step

/-- Lines 489 to 502 of `load`: the `uint32_t` values `read_bytes` and
`zero_bytes` for a segment; the right-hand sides are computed on `uint64_t`. -/
def load_split (phdr : Phdr) : Nat × Nat :=
  let page_offset := phdr.p_vaddr % PGSIZE
  if phdr.p_filesz > 0 then
    let read_bytes := (page_offset + phdr.p_filesz) % U64 % U32
    let zero_bytes :=
      (ROUND_UP ((page_offset + phdr.p_memsz) % U64) PGSIZE + U64 - read_bytes) % U64 % U32
    (read_bytes, zero_bytes)
  else
    (0, ROUND_UP ((page_offset + phdr.p_memsz) % U64) PGSIZE % U32)

/-- The record `struct uninit_page_args` as `load_segment` fills it. -/
structure SegmentPageArgs where
  file : File
  ofs : Int
  page_read_bytes : Nat
  page_zero_bytes : Nat
  is_stack : Bool
deriving DecidableEq

/-- A page registered for an executable: a call
`vm_alloc_page_with_initializer (VM_ANON, upage, writable, lazy_load_segment, upargs)`
that returned `true`. -/
structure SegmentPage where
  upage : Nat
  writable : Bool
  aux : SegmentPageArgs
deriving DecidableEq

/-- Outcomes of what `load` asks of the allocators: for the page registered
when `k` pages are registered already, `malloc` of its arguments and
`vm_alloc_page_with_initializer`; for the stack, `malloc`,
`vm_alloc_page_with_initializer` and `vm_claim_page`. -/
structure LoadAlloc where
  upargs : Nat → Bool
  page : Nat → Bool
  stack_upargs : Bool
  stack_page : Bool
  stack_claim : Bool

/-- Result of `load_segment`: it returns `true` or `false`, or an `ASSERT`
fails, or the kernel faults on a NULL dereference; in each case with the pages
registered so far.  `diverge` stands for a loop that has not ended when the
fuel has. -/
inductive SegmentResult where
  | ret (success : Bool) (pages : List SegmentPage)
  | panic (pages : List SegmentPage)
  | fault (pages : List SegmentPage)
  | diverge
deriving DecidableEq

/-- The loop of `load_segment` (lines 809 to 837), on `uint32_t` counters, an
`off_t` offset and a 64-bit address; `pages` are the pages registered so far. -/
def load_segment_loop (alloc : LoadAlloc) (file : File) (writable : Bool) :
    Nat → List SegmentPage → Int → Nat → Nat → Nat → SegmentResult
  | 0, pages, _, _, read_bytes, zero_bytes =>
    if read_bytes > 0 ∨ zero_bytes > 0 then .diverge else .ret true pages
  | fuel + 1, pages, ofs, upage, read_bytes, zero_bytes =>
    if read_bytes > 0 ∨ zero_bytes > 0 then
      let page_read_bytes := if read_bytes < PGSIZE then read_bytes else PGSIZE
      let page_zero_bytes := PGSIZE - page_read_bytes
      if !alloc.upargs pages.length then .fault pages
      else
        let upargs : SegmentPageArgs :=
          { file := file, ofs := ofs, page_read_bytes := page_read_bytes,
            page_zero_bytes := page_zero_bytes, is_stack := false }
        if !alloc.page pages.length then .ret false pages
        else
          load_segment_loop alloc file writable fuel
            (pages ++ [{ upage := upage, writable := writable, aux := upargs }])
            (to_off_t (ofs + PGSIZE)) ((upage + PGSIZE) % U64)
            ((read_bytes + U32 - page_read_bytes) % U32)
            ((zero_bytes + U32 - page_zero_bytes) % U32)
    else .ret true pages

/-- The function `load_segment` of the build with virtual memory (lines 800 to
839).  The three `ASSERT`s come first; the sum in the first is a `uint32_t`. -/
def load_segment (alloc : LoadAlloc) (file : File) (ofs : Int) (upage : Nat)
    (read_bytes zero_bytes : Nat) (writable : Bool) (pages : List SegmentPage) :
    SegmentResult :=
  if (read_bytes + zero_bytes) % U32 % PGSIZE ≠ 0 then .panic pages
  else if upage % PGSIZE ≠ 0 then .panic pages
  else if ofs % (PGSIZE : Int) ≠ 0 then .panic pages
  else
    load_segment_loop alloc file writable ((read_bytes + zero_bytes) / PGSIZE + 1) pages ofs
      upage read_bytes zero_bytes

/-- Result of `lazy_load_segment`: the contents it gives the frame, or `false`
after a short read, or a failed `ASSERT`. -/
inductive LazyResult where
  | loaded (kpage : List Nat)
  | failed
  | panic
deriving DecidableEq

/-- The function `lazy_load_segment`, run at the first fault on a page that
`load_segment` registered with `upargs`: read `page_read_bytes` bytes of the
file (its bytes are `data`) at `ofs` into the frame and zero the next
`page_zero_bytes`.  The sum in the first `ASSERT` is a `uint32_t`. -/
def lazy_load_segment (data : List Nat) (upargs : SegmentPageArgs) : LazyResult :=
  if (upargs.page_read_bytes + upargs.page_zero_bytes) % U32 ≠ PGSIZE then .panic
  else if upargs.ofs % (PGSIZE : Int) ≠ 0 then .panic
  else
    let got := file_read data upargs.ofs.toNat upargs.page_read_bytes
    if got.length ≠ upargs.page_read_bytes then .failed
    else .loaded (got ++ List.replicate upargs.page_zero_bytes 0)

/-- A page installed by the `load_segment` of the build without virtual memory:
its address and permission, how many bytes were read and zeroed, and the
contents of its frame. -/
structure InstalledPage where
  upage : Nat
  writable : Bool
  page_read_bytes : Nat
  page_zero_bytes : Nat
  kpage : List Nat
deriving DecidableEq

/-- Outcomes of `palloc_get_page (PAL_USER)` and of `install_page` for the page
handled when `k` pages are installed already. -/
structure EagerAlloc where
  palloc : Nat → Bool
  install : Nat → Bool

/-- Result of the `load_segment` of the build without virtual memory. -/
inductive EagerResult where
  | ret (success : Bool) (pages : List InstalledPage)
  | panic (pages : List InstalledPage)
  | diverge
deriving DecidableEq

/-- The loop of the `load_segment` under `#ifndef VM` (lines 677 to 707): `pos` is
the position of `file`, whose bytes are `data`. -/
def load_segment_novm_loop (alloc : EagerAlloc) (data : List Nat) (writable : Bool) :
    Nat → List InstalledPage → Nat → Nat → Nat → Nat → EagerResult
  | 0, pages, _, _, read_bytes, zero_bytes =>
    if read_bytes > 0 ∨ zero_bytes > 0 then .diverge else .ret true pages
  | fuel + 1, pages, pos, upage, read_bytes, zero_bytes =>
    if read_bytes > 0 ∨ zero_bytes > 0 then
      let page_read_bytes := if read_bytes < PGSIZE then read_bytes else PGSIZE
      let page_zero_bytes := PGSIZE - page_read_bytes
      if !alloc.palloc pages.length then .ret false pages
      else
        let got := file_read data pos page_read_bytes
        if got.length ≠ page_read_bytes then .ret false pages
        else
          let kpage := got ++ List.replicate page_zero_bytes 0
          if !alloc.install pages.length then .ret false pages
          else
            load_segment_novm_loop alloc data writable fuel
              (pages ++ [{ upage := upage, writable := writable,
                           page_read_bytes := page_read_bytes,
                           page_zero_bytes := page_zero_bytes, kpage := kpage }])
              (pos + got.length) ((upage + PGSIZE) % U64)
              ((read_bytes + U32 - page_read_bytes) % U32)
              ((zero_bytes + U32 - page_zero_bytes) % U32)
    else .ret true pages

/-- The function `load_segment` of the build without virtual memory (lines 669
to 709, under `#ifndef VM`): each page is read and installed at once. -/
def load_segment_novm (alloc : EagerAlloc) (data : List Nat) (ofs : Int) (upage : Nat)
    (read_bytes zero_bytes : Nat) (writable : Bool) (pages : List InstalledPage) :
    EagerResult :=
  if (read_bytes + zero_bytes) % U32 % PGSIZE ≠ 0 then .panic pages
  else if upage % PGSIZE ≠ 0 then .panic pages
  else if ofs % (PGSIZE : Int) ≠ 0 then .panic pages
  else
    load_segment_novm_loop alloc data writable ((read_bytes + zero_bytes) / PGSIZE + 1) pages
      ofs.toNat upage read_bytes zero_bytes

/-- What `load` has done between opening the file and the stack construction:
the reads of the file, as position and size in call order, the pages
registered for segments, and whether `setup_stack` has set `rsp`. -/
structure LoadState where
  reads : List (Int × Nat)
  pages : List SegmentPage
  stack : Bool
deriving DecidableEq

/-- Result of lines 448 to 518 of `load`: control reaches line 518 with the
entry point, or goes to `done` with `success = false`, or the kernel stops (a
failed `ASSERT` or a NULL dereference). -/
inductive ImageResult where
  | loaded (e_entry : Nat) (st : LoadState)
  | failed (st : LoadState)
  | crashed (st : LoadState)
deriving DecidableEq

/-- The function `setup_stack` of the build with virtual memory; `none` is the
NULL dereference `upargs->is_stack` after a failed `malloc`. -/
def setup_stack (alloc : LoadAlloc) : Option Bool :=
  if !alloc.stack_upargs then none
  else if !alloc.stack_page then some false
  else if !alloc.stack_claim then some false
  else some true

/-- The loop over the program headers (lines 462 to 511), with `n = e_phnum - i`
headers left; on leaving the loop, `setup_stack` and the entry point (lines
514 to 518).  `file_ofs` is an `off_t`. -/
def load_phdrs (KERN_BASE : Nat) (alloc : LoadAlloc) (file : File) (data : List Nat)
    (e_entry : Nat) : Nat → Int → LoadState → ImageResult
  | 0, _, st =>
    match setup_stack alloc with
    | none => .crashed st
    | some false => .failed st
    | some true => .loaded e_entry { st with stack := true }
  | n + 1, file_ofs, st =>
    if file_ofs < 0 ∨ file_ofs > (file.length : Int) then .failed st
    else
      let buf := file_read data file_ofs.toNat SIZEOF_PHDR
      let st1 : LoadState := { st with reads := st.reads ++ [(file_ofs, SIZEOF_PHDR)] }
      if buf.length ≠ SIZEOF_PHDR then .failed st1
      else
        let phdr := decode_phdr buf
        let file_ofs1 := to_off_t (file_ofs + SIZEOF_PHDR)
        if phdr.p_type = 2 ∨ phdr.p_type = 3 ∨ phdr.p_type = 5 then .failed st1
        else if phdr.p_type = 1 then
          if validate_segment KERN_BASE phdr file.length then
            let writable := decide (phdr.p_flags / 2 % 2 ≠ 0)
            let file_page := phdr.p_offset - phdr.p_offset % PGSIZE
            let mem_page := phdr.p_vaddr - phdr.p_vaddr % PGSIZE
            let split := load_split phdr
            match load_segment alloc file (to_off_t file_page) mem_page split.1 split.2
                writable st1.pages with
            | .ret true pages =>
              load_phdrs KERN_BASE alloc file data e_entry n file_ofs1 { st1 with pages := pages }
            | .ret false pages => .failed { st1 with pages := pages }
            | .panic pages => .crashed { st1 with pages := pages }
            | .fault pages => .crashed { st1 with pages := pages }
            | .diverge => .crashed st1
          else .failed st1
        else load_phdrs KERN_BASE alloc file data e_entry n file_ofs1 st1

/-- Lines 448 to 518 of `load` on the opened `file`, whose bytes are `data`:
read and verify the executable header, then the program headers. -/
def load_elf (KERN_BASE : Nat) (alloc : LoadAlloc) (file : File) (data : List Nat) :
    ImageResult :=
  let buf := file_read data 0 SIZEOF_EHDR
  let st : LoadState := { reads := [(0, SIZEOF_EHDR)], pages := [], stack := false }
  if ehdr_rejected buf then .failed st
  else
    let ehdr := decode_ehdr buf
    load_phdrs KERN_BASE alloc file data ehdr.e_entry ehdr.e_phnum (to_off_t ehdr.e_phoff) st

/-- The environment of `load` in which lines 448 to 518 are `load_elf` on the
bytes `disk file` of the opened file. -/
def load_env (pml4_create : Bool) (filesys_open : List Nat → Option File)
    (disk : File → List Nat) (KERN_BASE : Nat) (alloc : LoadAlloc) (USER_STACK : Nat) :
    LoadEnv :=
  { pml4_create := pml4_create,
    filesys_open := filesys_open,
    load_image := fun file =>
      match load_elf KERN_BASE alloc file (disk file) with
      | .loaded e_entry _ => some e_entry
      | _ => none,
    USER_STACK := USER_STACK }

/-! ## Auxiliary definitions for the proofs about wait and exit -/

/-- Parent link of the child as a function of where the parent stands. -/
def link_at (cur : Int) : WaitPc → Int
  | .entry => cur
  | .clear => cur
  | _ => TID_ERROR

/-- Whether the parent has completed `sema_down (&t->wait_sema)`. -/
def downed : WaitPc → Nat
  | .read => 1
  | .up _ => 1
  | .returned _ => 1
  | _ => 0

/-- Whether the parent has signalled reap-permit. -/
def upped : WaitPc → Nat
  | .returned _ => 1
  | _ => 0

/-- Whether the child has signalled exit-notify. -/
def notified : ExitPc → Nat
  | .reap => 1
  | .gone => 1
  | _ => 0

/-- The child's record as determined by the two program points. -/
def child_at (cur tid status : Int) (t0 : Thread) (ppc : WaitPc) (cpc : ExitPc) :
    Option Thread :=
  match cpc with
  | .gone => none
  | _ =>
    some { tid := tid, p_tid := link_at cur ppc,
           exit_status := (match cpc with | .running => t0.exit_status | _ => status),
           wait_sema := notified cpc - downed ppc, reap_sema := upped ppc,
           is_user := t0.is_user }

/-- The parent's actions so far as determined by its program point. -/
def parent_trace (tid status : Int) : WaitPc → List Event
  | .entry => []
  | .clear => []
  | .down => [.clear_parent_link tid]
  | .read => [.clear_parent_link tid, .sema_down_wait tid]
  | .up _ => [.clear_parent_link tid, .sema_down_wait tid, .read_exit_status tid status]
  | .returned _ => [.clear_parent_link tid, .sema_down_wait tid, .read_exit_status tid status,
      .sema_up_reap tid]
  | .dangling => []

/-- The invariant of a first wait on a child that exits with `status`. -/
structure WaitInv (cur tid status : Int) (t0 : Thread) (c : Cfg) : Prop where
  child : thread_get_by_id c.threads tid = child_at cur tid status t0 c.ppc c.cpc
  alive : c.ppc ≠ .dangling
  value_up : ∀ v, c.ppc = .up v → v = status
  value_ret : ∀ v, c.ppc = .returned v → v = status
  order : downed c.ppc ≤ notified c.cpc
  reaped : c.cpc = .gone → upped c.ppc = 1
  trace : parent_events c.log = parent_trace tid status c.ppc
  notify_first : ∀ l1 l2, c.log = l1 ++ Event.sema_down_wait tid :: l2 →
    Event.sema_up_wait tid ∈ l1
  notify_logged : notified c.cpc = 1 → Event.sema_up_wait tid ∈ c.log

/-- Run a schedule: `true` lets the parent run one statement, `false` the child. -/
def run_schedule (cur tid status : Int) : List Bool → Cfg → Option Cfg
  | [], c => some c
  | true :: rest, c => (process_wait_step cur tid c).bind (run_schedule cur tid status rest)
  | false :: rest, c => (process_exit_step tid status c).bind (run_schedule cur tid status rest)

/-! ## Definitions used to state the properties -/

def phdr_text : Phdr :=
  { p_type := 1, p_flags := 5, p_offset := 4096, p_vaddr := 0x401000, p_paddr := 0,
    p_filesz := 100, p_memsz := 200, p_align := 4096 }

/-- The pages the eager loop installs when `n` pages remain and every step
succeeds, in order. -/
def eager_pages (data : List Nat) (writable : Bool) : Nat → Nat → Nat → Nat → List InstalledPage
  | 0, _, _, _ => []
  | n + 1, pos, upage, read_bytes =>
    { upage := upage, writable := writable, page_read_bytes := min read_bytes PGSIZE,
      page_zero_bytes := PGSIZE - min read_bytes PGSIZE,
      kpage := file_read data pos (min read_bytes PGSIZE) ++
        List.replicate (PGSIZE - min read_bytes PGSIZE) 0 } ::
      eager_pages data writable n (pos + min read_bytes PGSIZE) ((upage + PGSIZE) % U64)
        (read_bytes - min read_bytes PGSIZE)

/-- Page `k` of a segment loaded eagerly: at `upage + k * PGSIZE`, holding
`min (PGSIZE, max (0, read_bytes - k * PGSIZE))` bytes of the file from where
the earlier pages stopped, then zeros. -/
def installed_page (data : List Nat) (pos upage read_bytes : Nat) (writable : Bool) (k : Nat) :
    InstalledPage :=
  { upage := (upage + PGSIZE * k) % U64, writable := writable,
    page_read_bytes := min PGSIZE (read_bytes - PGSIZE * k),
    page_zero_bytes := PGSIZE - min PGSIZE (read_bytes - PGSIZE * k),
    kpage := file_read data (pos + min read_bytes (PGSIZE * k))
        (min PGSIZE (read_bytes - PGSIZE * k)) ++
      List.replicate (PGSIZE - min PGSIZE (read_bytes - PGSIZE * k)) 0 }

/-- The pages the loop of `load_segment` asks for when `n` pages remain, in
call order. -/
def seg_pages (file : File) (writable : Bool) : Nat → Int → Nat → Nat → List SegmentPage
  | 0, _, _, _ => []
  | n + 1, ofs, upage, read_bytes =>
    { upage := upage, writable := writable,
      aux := { file := file, ofs := ofs, page_read_bytes := min read_bytes PGSIZE,
               page_zero_bytes := PGSIZE - min read_bytes PGSIZE, is_stack := false } } ::
      seg_pages file writable n (to_off_t (ofs + PGSIZE)) ((upage + PGSIZE) % U64)
        (read_bytes - min read_bytes PGSIZE)

/-- Registering a list of pages one after the other, stopping at the first
allocation that fails. -/
def register_pages (alloc : LoadAlloc) : List SegmentPage → List SegmentPage → SegmentResult
  | [], pages => .ret true pages
  | p :: rest, pages =>
    if !alloc.upargs pages.length then .fault pages
    else if !alloc.page pages.length then .ret false pages
    else register_pages alloc rest (pages ++ [p])

/-- Page `k` of a segment: at `upage + k * PGSIZE`, reading
`min (PGSIZE, max (0, read_bytes - k * PGSIZE))` bytes at file offset
`ofs + k * PGSIZE` (as an `off_t`) and zeroing the rest of the page. -/
def segment_page (file : File) (ofs : Int) (upage read_bytes : Nat) (writable : Bool)
    (k : Nat) : SegmentPage :=
  { upage := (upage + PGSIZE * k) % U64, writable := writable,
    aux := { file := file, ofs := to_off_t (ofs + PGSIZE * k),
             page_read_bytes := min PGSIZE (read_bytes - PGSIZE * k),
             page_zero_bytes := PGSIZE - min PGSIZE (read_bytes - PGSIZE * k),
             is_stack := false } }

def alloc_load_ok : LoadAlloc :=
  { upargs := fun _ => true, page := fun _ => true, stack_upargs := true, stack_page := true,
    stack_claim := true }

def file_exe : File := { inode := 7, length := 8202 }

/-- A program header of a loadable, writable segment with no file bytes and a
memory size of 4 GiB. -/
def phdr_bss_4GiB : Phdr :=
  { p_type := 1, p_flags := 6, p_offset := 0, p_vaddr := 0x400000, p_paddr := 0,
    p_filesz := 0, p_memsz := 2 ^ 32, p_align := 4096 }

/-- The `w` bytes of the little-endian encoding of `v`. -/
def le_encode (v : Nat) : Nat → List Nat
  | 0 => []
  | w + 1 => v % 256 :: le_encode (v / 256) w

/-- The bytes of a program header. -/
def encode_phdr (phdr : Phdr) : List Nat :=
  le_encode phdr.p_type 4 ++ le_encode phdr.p_flags 4 ++ le_encode phdr.p_offset 8 ++
    le_encode phdr.p_vaddr 8 ++ le_encode phdr.p_paddr 8 ++ le_encode phdr.p_filesz 8 ++
    le_encode phdr.p_memsz 8 ++ le_encode phdr.p_align 8

/-- The bytes of an ELF64 executable for machine `e_machine` with entry point
`0x400000` and one program header, which follows the executable header. -/
def elf_image (e_machine : Nat) (phdr : Phdr) : List Nat :=
  ELF_MAGIC ++ List.replicate 9 0 ++ le_encode 2 2 ++ le_encode e_machine 2 ++ le_encode 1 4 ++
    le_encode 0x400000 8 ++ le_encode 64 8 ++ le_encode 0 8 ++ le_encode 0 4 ++
    le_encode 64 2 ++ le_encode 56 2 ++ le_encode 1 2 ++ le_encode 0 2 ++ le_encode 0 2 ++
    le_encode 0 2 ++ encode_phdr phdr

def file_120 : File := { inode := 9, length := 120 }

/-- Bytes the argument strings take on the stack, NUL terminators included. -/
def stack_bytes (T : List (List Nat)) : Nat := (T.map (fun w => w.length + 1)).sum

/-- The bytes of `w` followed by NUL are stored at `a`. -/
def holds_string (m : Mem) (a : Nat) (w : List Nat) : Prop :=
  (∀ j, j < w.length → m (a + j) = w.getD j 0) ∧ m (a + w.length) = 0

/-- The strings `R` (rightmost argument first) are stored back to back below
`top`. -/
def laid_out (m : Mem) : List (List Nat) → Nat → Prop
  | [], _ => True
  | w :: R, top => holds_string m (top - (w.length + 1)) w ∧ laid_out m R (top - (w.length + 1))

/-- The slots below `top` hold the addresses of the strings `R` (rightmost
argument first), `len` bytes having been counted before them. -/
def pointers_at (m : Mem) (rsp_start : Nat) : List (List Nat) → Nat → Nat → Prop
  | [], _, _ => True
  | w :: R, len, top =>
    load64 m (top - 8) = rsp_start - (len + (w.length + 1)) ∧
    pointers_at m rsp_start R (len + (w.length + 1)) (top - 8)

/-- Where the lowest argument string starts. -/
def strings_base (s : List Nat) (rsp : Nat) : Nat := rsp - stack_bytes (tokens s)

/-- Address of the slot `argv[argc]`. -/
def argv_end (s : List Nat) (rsp : Nat) : Nat :=
  strings_base s rsp - strings_base s rsp % 8 - 8

/-- Address of the slot `argv[0]`. -/
def argv_base (s : List Nat) (rsp : Nat) : Nat := argv_end s rsp - 8 * (tokens s).length

/-- The strings `argv[0] .. argv[argc - 1]` read back from user memory. -/
def argv_strings (m : Mem) (fr : IntrFrame) (fuel : Nat) : List (Option (List Nat)) :=
  (List.range fr.rdi).map (fun i => read_c_string m fuel (load64 m (fr.rsi + 8 * i)))

/-- Join arguments with single spaces. -/
def rejoin (args : List (List Nat)) : List Nat := [SPACE].intercalate args

def file_echo : File := { inode := 7, length := 8192 }

def env_echo : LoadEnv :=
  { pml4_create := true,
    filesys_open := fun name => if name = [101, 99, 104, 111] then some file_echo else none,
    load_image := fun _ => some 0x400000,
    USER_STACK := 0x47480000 }

def child_3 : Thread :=
  { tid := 3, p_tid := 1, exit_status := 0, wait_sema := 0, reap_sema := 0, is_user := true }

def cfg_start : Cfg :=
  { threads := [{ tid := 1, p_tid := 0, exit_status := 0, wait_sema := 0, reap_sema := 0,
                  is_user := true }, child_3],
    ppc := .entry, cpc := .running, log := [] }

def cfg_waited : Cfg :=
  { threads := [{ tid := 1, p_tid := 0, exit_status := 0, wait_sema := 0, reap_sema := 0,
                  is_user := true }],
    ppc := .returned 7, cpc := .gone,
    log := [.clear_parent_link 3, .print_exit 3 7, .clear_fd_list 3, .cleanup 3,
            .sema_up_wait 3, .sema_down_wait 3, .read_exit_status 3 7, .sema_up_reap 3,
            .sema_down_reap 3] }

def vm_busy : Vm :=
  { spt := [{ va := 0x10000000, writable := true, type := .VM_ANON, aux := none,
              file := ⟨0, 0, 0, 0⟩, frame := none }],
    mmap_hash := [], reopened := [], written := [] }

def file_4k : File := { inode := 1, length := 4096 }

def alloc_ok : Alloc := { me := true, upargs := fun _ => true, page := fun _ => true }

def vm_empty : Vm := { spt := [], mmap_hash := [], reopened := [], written := [] }

def alloc_second_page_fails : Alloc :=
  { me := true, upargs := fun _ => true, page := fun k => decide (k = 0) }

def vm_half_mapped : Vm :=
  { spt := [{ va := 0x10000000, writable := true, type := .VM_FILE,
              aux := some { addr := 0x10000000, ofs := 0, page_read_bytes := 4096,
                            page_zero_bytes := 0 },
              file := ⟨0, 0, 0, 0⟩, frame := none }],
    mmap_hash := [{ addr := 0x10000000, pg_cnt := 2, file := file_4k }],
    reopened := [file_4k],
    written := [] }

def page_fresh : Page :=
  { va := 0x10000000, writable := true, type := .VM_UNINIT,
    aux := some { addr := 0x10000000, ofs := 8192, page_read_bytes := 3, page_zero_bytes := 4093 },
    file := ⟨0, 0, 0, 0⟩, frame := none }

def page_resolved : Page :=
  { va := 0x10000000, writable := true, type := .VM_FILE,
    aux := some { addr := 0x10000000, ofs := 8192, page_read_bytes := 3, page_zero_bytes := 4093 },
    file := ⟨0x10000000, 8192, 3, 4093⟩,
    frame := some { kva := [7, 8, 9, 0, 0], kpte_dirty := true } }

def vm_one_mapping : Vm :=
  { spt := [page_resolved],
    mmap_hash := [{ addr := 0x10000000, pg_cnt := 1, file := file_4k }],
    reopened := [file_4k], written := [] }

/-- The page `do_mmap` registers at `cur_pg` for file offset `ofs` with
`page_read_bytes` bytes to read. -/
def mmap_page (addr : Nat) (writable : Bool) (cur_pg : Nat) (ofs : Int)
    (page_read_bytes : Nat) : Page :=
  { va := cur_pg, writable := writable, type := .VM_FILE,
    aux := some { addr := addr, ofs := ofs, page_read_bytes := page_read_bytes,
                  page_zero_bytes := PGSIZE - page_read_bytes },
    file := ⟨0, 0, 0, 0⟩, frame := none }

/-- The pages that registering `n` pages from `cur_pg` puts in front of the
supplemental page table, the last registered first. -/
def mmap_registered (addr : Nat) (writable : Bool) : Nat → Nat → Int → Nat → List Page
  | 0, _, _, _ => []
  | n + 1, cur_pg, ofs, read_bytes =>
    mmap_registered addr writable n ((cur_pg + PGSIZE) % U64) (to_off_t (ofs + PGSIZE))
        (read_bytes - min read_bytes PGSIZE) ++
      [mmap_page addr writable cur_pg ofs (min read_bytes PGSIZE)]

/-- The number of pages a mapping of `length` bytes covers. -/
def page_count (length : Nat) : Nat := (length - 1) / PGSIZE + 1

/-- The bytes of the file a mapping reads: `length`, or what is left of the file
after `offset`. -/
def mmap_read_bytes (length : Nat) (f : File) (offset : Int) : Nat :=
  min length (((f.length : Int) - offset) % (U64 : Int)).toNat

/-- The state a successful `do_mmap` leaves. -/
def mmap_done (vm : Vm) (addr length : Nat) (writable : Bool) (f : File) (offset : Int) : Vm :=
  { vm with
    spt := mmap_registered addr writable (page_count length) addr offset
      (mmap_read_bytes length f offset) ++ vm.spt,
    mmap_hash := hash_insert vm.mmap_hash
      { addr := addr, pg_cnt := (page_count length : Nat), file := file_reopen f },
    reopened := file_reopen f :: vm.reopened }

/-- What the page loop of `do_munmap` leaves of a supplemental page table. -/
def unmapped (addr : Nat) : Nat → Nat → List Page → List Page
  | 0, _, l => l
  | n + 1, i, l => unmapped addr n (i + 1) (l.filter (fun p => p.va != (addr + PGSIZE * i) % U64))

/-- Every Mapping Record belongs to a live mapping: the page at its base is
registered. -/
def records_live (vm : Vm) : Prop :=
  ∀ me ∈ vm.mmap_hash, (spt_find_page vm me.addr).isSome = true

/-- The state after `do_mmap (0x10000000, 8192, ...)` of a 4096-byte file in an
empty address space. -/
def vm_two_pages : Vm :=
  { spt := [{ va := 0x10001000, writable := true, type := .VM_FILE,
              aux := some { addr := 0x10000000, ofs := 4096, page_read_bytes := 0,
                            page_zero_bytes := 4096 },
              file := ⟨0, 0, 0, 0⟩, frame := none },
            { va := 0x10000000, writable := true, type := .VM_FILE,
              aux := some { addr := 0x10000000, ofs := 0, page_read_bytes := 4096,
                            page_zero_bytes := 0 },
              file := ⟨0, 0, 0, 0⟩, frame := none }],
    mmap_hash := [{ addr := 0x10000000, pg_cnt := 2, file := file_4k }],
    reopened := [file_4k],
    written := [] }

/-- The state after `do_mmap (0x10000000, 2^32 + 4096, ...)` of a 4096-byte
file in an empty address space. -/
def vm_one_of_many : Vm :=
  { spt := [{ va := 0x10000000, writable := true, type := .VM_FILE,
              aux := some { addr := 0x10000000, ofs := 0, page_read_bytes := 4096,
                            page_zero_bytes := 0 },
              file := ⟨0, 0, 0, 0⟩, frame := none }],
    mmap_hash := [{ addr := 0x10000000, pg_cnt := 1048577, file := file_4k }],
    reopened := [file_4k],
    written := [] }

/-- The write that the write-back step issues for a page, if any: none for a
page without a frame or a clean page, else the first `page_read_bytes` bytes
of the frame at the page's file offset. -/
def page_write (d : Nat → Bool) (file : File) (p : Page) : List FileWrite :=
  match p.frame with
  | none => []
  | some fr =>
    if d p.va || fr.kpte_dirty then
      [{ file := file, ofs := p.file.ofs, bytes := fr.kva.take p.file.page_read_bytes }]
    else []

/-- The writes of the page loop of `do_munmap` over the pages `i .. i + n - 1`
of a mapping at `addr`, in page order. -/
def munmap_writes (d : Nat → Bool) (file : File) (addr : Nat) (spt : List Page) :
    Nat → Nat → List FileWrite
  | 0, _ => []
  | n + 1, i =>
    (match spt.find? (fun p => p.va == (addr + PGSIZE * i) % U64) with
      | some p => page_write d file p
      | none => []) ++ munmap_writes d file addr spt n (i + 1)

/-- Allocation outcomes under which the record is allocated and no page can be
registered. -/
def alloc_none : Alloc :=
  { me := true, upargs := fun _ => true, page := fun _ => false }

/-- A file of 4099 bytes: one full page and three bytes of a second. -/
def file_4099 : File := { inode := 1, length := 4099 }

/-- Modelled from the spec: the first fault on a registered file-backed page
(vm/vm.c, vm/uninit.c): a frame is claimed and the deferred initializer
`file_backed_initializer` runs, after which the page owns `frame`. -/
def resolve_page (page : Page) (frame : Frame) : Option Page :=
  (file_backed_initializer page).map (fun p => { p with frame := some frame })

/-- The tables after `do_mmap (0x10000000, 4096, ...)` of `file_4099` has failed
on its one page: the record of the failed call is still keyed by 0x10000000. -/
def vm_stale_base : Vm :=
  { spt := [],
    mmap_hash := [{ addr := 0x10000000, pg_cnt := 1, file := file_4099 }],
    reopened := [file_4099],
    written := [] }

/-- The first page of the second, successful mapping, as registered. -/
def page_first : Page :=
  { va := 0x10000000, writable := true, type := .VM_FILE,
    aux := some { addr := 0x10000000, ofs := 0, page_read_bytes := 4096, page_zero_bytes := 0 },
    file := ⟨0, 0, 0, 0⟩, frame := none }

/-- The second page of the second, successful mapping, as registered. -/
def page_second : Page :=
  { va := 0x10001000, writable := true, type := .VM_FILE,
    aux := some { addr := 0x10000000, ofs := 4096, page_read_bytes := 3,
                  page_zero_bytes := 4093 },
    file := ⟨0, 0, 0, 0⟩, frame := none }

/-- The tables after the second call, `do_mmap (0x10000000, 8192, ...)`, has
succeeded: both pages are registered, and the record keyed by 0x10000000 is
still the one-page record of the failed call. -/
def vm_remapped : Vm :=
  { spt := [page_second, page_first],
    mmap_hash := [{ addr := 0x10000000, pg_cnt := 1, file := file_4099 }],
    reopened := [file_4099, file_4099],
    written := [] }

/-- The frame of the second page after the user has stored 7, 8, 9 at its
start. -/
def frame_second : Frame :=
  { kva := [7, 8, 9] ++ List.replicate 4093 0, kpte_dirty := false }

/-- The second page, resolved by its first fault. -/
def page_second_resolved : Page :=
  { va := 0x10001000, writable := true, type := .VM_FILE,
    aux := some { addr := 0x10000000, ofs := 4096, page_read_bytes := 3,
                  page_zero_bytes := 4093 },
    file := ⟨0x10000000, 4096, 3, 4093⟩, frame := some frame_second }

/-- The tables of `vm_remapped` once the second page has been faulted in. -/
def vm_second_resident : Vm :=
  { vm_remapped with spt := [page_second_resolved, page_first] }

/-- The hardware dirty bit after the store: set for the second page only. -/
def dirty_second (va : Nat) : Bool := va == 0x10001000

/-- The tables after `do_munmap (0x10000000)` on `vm_second_resident`: the
second page is still registered, no record is left. -/
def vm_second_orphaned : Vm :=
  { spt := [page_second_resolved], mmap_hash := [], reopened := [file_4099], written := [] }

/-- The tables after `do_mmap (0x10001000, 4096, ...)` of `file_4k` has failed
on its one page: the record of the failed call is still keyed by 0x10001000. -/
def vm_stale_inner : Vm :=
  { spt := [],
    mmap_hash := [{ addr := 0x10001000, pg_cnt := 1, file := file_4k }],
    reopened := [file_4k],
    written := [] }

/-- The tables after `do_mmap (0x10000000, 8192, ...)` on `vm_stale_inner` has
succeeded: a live two-page mapping at 0x10000000, and the record of the failed
call keyed by the address of its second page. -/
def vm_over_stale : Vm :=
  { spt := [{ va := 0x10001000, writable := true, type := .VM_FILE,
              aux := some { addr := 0x10000000, ofs := 4096, page_read_bytes := 0,
                            page_zero_bytes := 4096 },
              file := ⟨0, 0, 0, 0⟩, frame := none },
            { va := 0x10000000, writable := true, type := .VM_FILE,
              aux := some { addr := 0x10000000, ofs := 0, page_read_bytes := 4096,
                            page_zero_bytes := 0 },
              file := ⟨0, 0, 0, 0⟩, frame := none }],
    mmap_hash := [{ addr := 0x10000000, pg_cnt := 2, file := file_4k },
                  { addr := 0x10001000, pg_cnt := 1, file := file_4k }],
    reopened := [file_4k, file_4k],
    written := [] }

/-- The tables after `do_munmap (0x10001000)` on `vm_over_stale`: the second
page of the live mapping is gone, its record and first page remain. -/
def vm_inner_gone : Vm :=
  { spt := [{ va := 0x10000000, writable := true, type := .VM_FILE,
              aux := some { addr := 0x10000000, ofs := 0, page_read_bytes := 4096,
                            page_zero_bytes := 0 },
              file := ⟨0, 0, 0, 0⟩, frame := none }],
    mmap_hash := [{ addr := 0x10000000, pg_cnt := 2, file := file_4k }],
    reopened := [file_4k],
    written := [] }

/-! # Properties -/

/-! ## Program headers -/

/-- C10: `validate_segment` accepts a program header exactly when `p_offset` and
`p_vaddr` agree modulo the page size, `p_offset` is not past the file's
length, `p_memsz >= p_filesz`, `p_memsz != 0`, `p_vaddr` and `p_vaddr +
p_memsz` are user addresses, the sum does not wrap around `2^64`, and
`p_vaddr >= PGSIZE`; and for an accepted header every address of
`[p_vaddr, p_vaddr + p_memsz)` is a user address at or above `PGSIZE`.  The
fields are 64-bit. -/
theorem validate_segment_iff (KERN_BASE : Nat) (phdr : Phdr) (file_length : Nat)
    (hv : phdr.p_vaddr < U64) (hm : phdr.p_memsz < U64) :
    (validate_segment KERN_BASE phdr file_length = true ↔
      (phdr.p_offset % PGSIZE = phdr.p_vaddr % PGSIZE ∧
       phdr.p_offset ≤ file_length ∧
       phdr.p_filesz ≤ phdr.p_memsz ∧
       phdr.p_memsz ≠ 0 ∧
       is_user_vaddr KERN_BASE phdr.p_vaddr = true ∧
       is_user_vaddr KERN_BASE (phdr.p_vaddr + phdr.p_memsz) = true ∧
       phdr.p_vaddr + phdr.p_memsz < U64 ∧
       PGSIZE ≤ phdr.p_vaddr)) ∧
    (validate_segment KERN_BASE phdr file_length = true →
      ∀ va, phdr.p_vaddr ≤ va → va < phdr.p_vaddr + phdr.p_memsz →
        is_user_vaddr KERN_BASE va = true ∧ PGSIZE ≤ va) := by
  have key : validate_segment KERN_BASE phdr file_length = true ↔
      (phdr.p_offset % PGSIZE = phdr.p_vaddr % PGSIZE ∧
       phdr.p_offset ≤ file_length ∧
       phdr.p_filesz ≤ phdr.p_memsz ∧
       phdr.p_memsz ≠ 0 ∧
       is_user_vaddr KERN_BASE phdr.p_vaddr = true ∧
       is_user_vaddr KERN_BASE (phdr.p_vaddr + phdr.p_memsz) = true ∧
       phdr.p_vaddr + phdr.p_memsz < U64 ∧
       PGSIZE ≤ phdr.p_vaddr) := by
    unfold validate_segment is_user_vaddr
    unfold U64 at *
    by_cases hw : phdr.p_vaddr + phdr.p_memsz < 2 ^ 64
    · rw [Nat.mod_eq_of_lt hw]
      constructor
      · intro h
        split_ifs at h
        simp_all
      · rintro ⟨h1, h2, h3, h4, h5, h6, h7, h8⟩
        simp at h5 h6
        split_ifs <;> simp_all
        all_goals omega
    · constructor
      · intro h
        split_ifs at h
        simp_all
        omega
      · rintro ⟨h1, h2, h3, h4, h5, h6, h7, h8⟩
        omega
  refine ⟨key, ?_⟩
  intro h va h1 h2
  obtain ⟨-, -, -, -, -, h6, -, h8⟩ := key.mp h
  unfold is_user_vaddr at *
  simp at h6 ⊢
  omega

/-- Instance of C10's theorem: a 200-byte segment at `0x401000` is accepted and
its last byte is a user address above page zero. -/
theorem validate_segment_iff_witness :
    validate_segment 0x8004000000 phdr_text 8192 = true ∧
    (is_user_vaddr 0x8004000000 0x4010c7 = true ∧ PGSIZE ≤ 0x4010c7) :=
  ⟨(validate_segment_iff 0x8004000000 phdr_text 8192 (by decide) (by decide)).1.mpr (by decide),
   (validate_segment_iff 0x8004000000 phdr_text 8192 (by decide) (by decide)).2 (by decide)
     0x4010c7 (by decide) (by decide)⟩

/-! ## Segments and the executable header -/

theorem file_read_length (data : List Nat) (pos size : Nat) (h : pos + size ≤ data.length) :
    (file_read data pos size).length = size := by
  unfold file_read
  simp
  omega

theorem load_segment_novm_loop_all (alloc : EagerAlloc) (data : List Nat) (writable : Bool) :
    ∀ (n fuel : Nat) (pages : List InstalledPage) (pos upage r z : Nat),
      n ≤ fuel → r + z = PGSIZE * n → r < U32 → z < U32 → pos + r ≤ data.length →
      (∀ k, k < n → alloc.palloc (pages.length + k) = true ∧
        alloc.install (pages.length + k) = true) →
      load_segment_novm_loop alloc data writable fuel pages pos upage r z =
        .ret true (pages ++ eager_pages data writable n pos upage r) := by
  intro n
  induction n with
  | zero =>
    intro fuel pages pos upage r z _ hsum _ _ _ _
    have hr : ¬ (r > 0 ∨ z > 0) := by omega
    cases fuel <;> simp [load_segment_novm_loop, hr, eager_pages]
  | succ n ih =>
    intro fuel pages pos upage r z hfuel hsum hr hz hlen hall
    obtain ⟨fuel, rfl⟩ : ∃ f, fuel = f + 1 := ⟨fuel - 1, by omega⟩
    have hpos : r > 0 ∨ z > 0 := by unfold PGSIZE at hsum; omega
    have hprb : (if r < PGSIZE then r else PGSIZE) = min r PGSIZE := by
      unfold PGSIZE; split <;> omega
    have hr1 : (r + U32 - min r PGSIZE) % U32 = r - min r PGSIZE := by
      unfold U32 PGSIZE at *; omega
    have hz1 : (z + U32 - (PGSIZE - min r PGSIZE)) % U32 = z - (PGSIZE - min r PGSIZE) := by
      unfold U32 PGSIZE at *; omega
    have hgot : (file_read data pos (min r PGSIZE)).length = min r PGSIZE :=
      file_read_length data pos _ (by omega)
    have h0 := hall 0 (by omega)
    rw [Nat.add_zero] at h0
    rw [load_segment_novm_loop, if_pos hpos]
    simp only [hprb, hr1, hz1, h0.1, h0.2, hgot, Bool.not_true, Bool.false_eq_true, if_false,
      ne_eq, not_true_eq_false]
    rw [ih fuel _ _ _ _ _ (by omega) (by unfold PGSIZE at *; omega) (by omega) (by omega)
      (by omega)]
    · simp [eager_pages]
    · intro k hk
      have := hall (k + 1) (by omega)
      simpa [Nat.add_assoc, Nat.add_comm 1 k] using this

theorem load_segment_novm_loop_ends (alloc : EagerAlloc) (data : List Nat) (writable : Bool) :
    ∀ (n fuel : Nat) (pages : List InstalledPage) (pos upage r z : Nat),
      n ≤ fuel → r + z = PGSIZE * n → r < U32 → z < U32 →
      load_segment_novm_loop alloc data writable fuel pages pos upage r z ≠ .diverge := by
  intro n
  induction n with
  | zero =>
    intro fuel pages pos upage r z _ hsum _ _
    have hr : ¬ (r > 0 ∨ z > 0) := by omega
    cases fuel <;> simp [load_segment_novm_loop, hr]
  | succ n ih =>
    intro fuel pages pos upage r z hfuel hsum hr hz
    obtain ⟨fuel, rfl⟩ : ∃ f, fuel = f + 1 := ⟨fuel - 1, by omega⟩
    have hpos : r > 0 ∨ z > 0 := by unfold PGSIZE at hsum; omega
    have hprb : (if r < PGSIZE then r else PGSIZE) = min r PGSIZE := by
      unfold PGSIZE; split <;> omega
    have hr1 : (r + U32 - min r PGSIZE) % U32 = r - min r PGSIZE := by
      unfold U32 PGSIZE at *; omega
    have hz1 : (z + U32 - (PGSIZE - min r PGSIZE)) % U32 = z - (PGSIZE - min r PGSIZE) := by
      unfold U32 PGSIZE at *; omega
    rw [load_segment_novm_loop, if_pos hpos]
    simp only [hprb, hr1, hz1]
    split
    · simp
    · split
      · simp
      · split
        · simp
        · exact ih fuel _ _ _ _ _ (by omega) (by unfold PGSIZE at *; omega) (by omega) (by omega)

theorem eager_pages_eq_map (data : List Nat) (writable : Bool) :
    ∀ (n pos upage r : Nat), upage < U64 →
      eager_pages data writable n pos upage r =
        (List.range n).map (installed_page data pos upage r writable) := by
  intro n
  induction n with
  | zero => intro pos upage r _; simp [eager_pages]
  | succ n ih =>
    intro pos upage r hu
    have hi := ih (pos + min r PGSIZE) ((upage + PGSIZE) % U64) (r - min r PGSIZE)
      (Nat.mod_lt _ (by unfold U64; positivity))
    rw [eager_pages, hi, List.range_succ_eq_map, List.map_cons, List.map_map]
    refine congrArg₂ List.cons ?_ ?_
    · simp [installed_page, Nat.mod_eq_of_lt hu, Nat.min_comm]
    · apply List.map_congr_left
      intro k _
      simp only [Function.comp, installed_page]
      have e1 : ((upage + PGSIZE) % U64 + PGSIZE * k) % U64 = (upage + PGSIZE * (k + 1)) % U64 := by
        rw [Nat.mod_add_mod]
        congr 1
        ring
      have e2 : pos + min r PGSIZE + min (r - min r PGSIZE) (PGSIZE * k) =
          pos + min r (PGSIZE * (k + 1)) := by
        unfold PGSIZE; omega
      have e3 : r - min r PGSIZE - PGSIZE * k = r - PGSIZE * (k + 1) := by
        unfold PGSIZE; omega
      rw [e1, e2, e3]

theorem load_segment_loop_eq (alloc : LoadAlloc) (file : File) (writable : Bool) :
    ∀ (n fuel : Nat) (pages : List SegmentPage) (ofs : Int) (upage r z : Nat),
      n ≤ fuel → r + z = PGSIZE * n → r < U32 → z < U32 →
      load_segment_loop alloc file writable fuel pages ofs upage r z =
        register_pages alloc (seg_pages file writable n ofs upage r) pages := by
  intro n
  induction n with
  | zero =>
    intro fuel pages ofs upage r z _ hsum _ _
    have hr : ¬ (r > 0 ∨ z > 0) := by omega
    cases fuel <;> simp [load_segment_loop, hr, seg_pages, register_pages]
  | succ n ih =>
    intro fuel pages ofs upage r z hfuel hsum hr hz
    obtain ⟨fuel, rfl⟩ : ∃ f, fuel = f + 1 := ⟨fuel - 1, by omega⟩
    have hpos : r > 0 ∨ z > 0 := by unfold PGSIZE at hsum; omega
    have hprb : (if r < PGSIZE then r else PGSIZE) = min r PGSIZE := by
      unfold PGSIZE; split <;> omega
    have hr1 : (r + U32 - min r PGSIZE) % U32 = r - min r PGSIZE := by
      unfold U32 PGSIZE at *; omega
    have hz1 : (z + U32 - (PGSIZE - min r PGSIZE)) % U32 = z - (PGSIZE - min r PGSIZE) := by
      unfold U32 PGSIZE at *; omega
    rw [load_segment_loop, if_pos hpos]
    simp only [hprb, hr1, hz1]
    rw [seg_pages, register_pages]
    by_cases h1 : alloc.upargs pages.length = true
    · by_cases h2 : alloc.page pages.length = true
      · simp only [h1, h2, Bool.not_true, Bool.false_eq_true, if_false]
        exact ih fuel _ _ _ _ _ (by omega) (by unfold PGSIZE at *; omega) (by omega) (by omega)
      · simp [h1, h2]
    · simp [h1]

theorem to_off_t_idem (a : Int) : to_off_t (to_off_t a) = to_off_t a := by
  unfold to_off_t
  omega

theorem seg_pages_eq_map (file : File) (writable : Bool) :
    ∀ (n : Nat) (ofs : Int) (upage r : Nat), upage < U64 → to_off_t ofs = ofs →
      seg_pages file writable n ofs upage r =
        (List.range n).map (segment_page file ofs upage r writable) := by
  intro n
  induction n with
  | zero => intro ofs upage r _ _; simp [seg_pages]
  | succ n ih =>
    intro ofs upage r hu ho
    have hi := ih (to_off_t (ofs + PGSIZE)) ((upage + PGSIZE) % U64) (r - min r PGSIZE)
      (Nat.mod_lt _ (by unfold U64; positivity)) (to_off_t_idem _)
    rw [seg_pages, hi, List.range_succ_eq_map, List.map_cons, List.map_map]
    refine congrArg₂ List.cons ?_ ?_
    · simp [segment_page, Nat.mod_eq_of_lt hu, ho, Nat.min_comm]
    · apply List.map_congr_left
      intro k _
      simp only [Function.comp, segment_page]
      have e1 : ((upage + PGSIZE) % U64 + PGSIZE * k) % U64 = (upage + PGSIZE * (k + 1)) % U64 := by
        rw [Nat.mod_add_mod]
        congr 1
        ring
      have e2 : to_off_t (to_off_t (ofs + (PGSIZE : Int)) + (PGSIZE : Int) * (k : Int)) =
          to_off_t (ofs + (PGSIZE : Int) * ((k + 1 : Nat) : Int)) := by
        unfold to_off_t
        push_cast
        unfold PGSIZE
        omega
      have e3 : r - min r PGSIZE - PGSIZE * k = r - PGSIZE * (k + 1) := by
        unfold PGSIZE; omega
      rw [e1, e2, e3]

theorem seg_pages_length (file : File) (writable : Bool) :
    ∀ (n : Nat) (ofs : Int) (upage r : Nat), (seg_pages file writable n ofs upage r).length = n := by
  intro n
  induction n with
  | zero => intro _ _ _; rfl
  | succ n ih => intro ofs upage r; simp [seg_pages, ih]

theorem seg_pages_sums (file : File) (writable : Bool) :
    ∀ (n : Nat) (ofs : Int) (upage r : Nat), r ≤ PGSIZE * n →
      ((seg_pages file writable n ofs upage r).map (fun p => p.aux.page_read_bytes)).sum = r ∧
      ((seg_pages file writable n ofs upage r).map (fun p => p.aux.page_zero_bytes)).sum =
        PGSIZE * n - r := by
  intro n
  induction n with
  | zero => intro ofs upage r h; simp [seg_pages]; omega
  | succ n ih =>
    intro ofs upage r h
    obtain ⟨h1, h2⟩ := ih (to_off_t (ofs + PGSIZE)) ((upage + PGSIZE) % U64) (r - min r PGSIZE)
      (by unfold PGSIZE at *; omega)
    simp only [seg_pages, List.map_cons, List.sum_cons, h1, h2]
    unfold PGSIZE at *
    omega

theorem register_pages_all (alloc : LoadAlloc) :
    ∀ (l pages : List SegmentPage),
      (∀ k, k < l.length → alloc.upargs (pages.length + k) = true ∧
        alloc.page (pages.length + k) = true) →
      register_pages alloc l pages = .ret true (pages ++ l) := by
  intro l
  induction l with
  | nil => intro pages _; simp [register_pages]
  | cons p rest ih =>
    intro pages h
    have h0 := h 0 (by simp)
    rw [Nat.add_zero] at h0
    rw [register_pages]
    simp only [h0.1, h0.2, Bool.not_true, Bool.false_eq_true, if_false]
    rw [ih (pages ++ [p])]
    · simp
    · intro k hk
      have := h (k + 1) (by simp; omega)
      simpa [Nat.add_assoc, Nat.add_comm 1 k] using this

theorem register_pages_ends (alloc : LoadAlloc) :
    ∀ (l pages : List SegmentPage), register_pages alloc l pages ≠ .diverge := by
  intro l
  induction l with
  | nil => intro pages; simp [register_pages]
  | cons p rest ih =>
    intro pages
    rw [register_pages]
    split
    · simp
    · split
      · simp
      · exact ih _

/-- C12: `read_bytes` and `zero_bytes` are `uint32_t` values whose sum is a
multiple of `PGSIZE`, `upage` is a page address and `ofs` a page-aligned
`off_t` (the three assertions).  `load_segment` always ends, and what it does
is register the pages `segment_page 0 .. N - 1`, `N = (read_bytes +
zero_bytes) / PGSIZE`, one after the other until an allocation fails; when
none fails it returns `true` having registered exactly these `N` pages after
those already there.  Page `k` is at `upage + k * PGSIZE`, reads
`min (PGSIZE, max (0, read_bytes - k * PGSIZE))` bytes at file offset
`ofs + k * PGSIZE` and zeroes the rest of the page; the read lengths add up to
`read_bytes` and the zero lengths to `zero_bytes`.  At the first fault
`lazy_load_segment` passes its assertions on every such page and fills the
frame with the bytes read followed by `page_zero_bytes` zeros.  The
`load_segment` of the build without virtual memory ends as well and, when the
file has the bytes and nothing fails, installs `N` pages with the same
addresses and the same read and zero lengths. -/
theorem load_segment_registers (alloc : LoadAlloc) (file : File) (ofs : Int)
    (upage read_bytes zero_bytes : Nat) (writable : Bool) (pages : List SegmentPage)
    (hr : read_bytes < U32) (hz : zero_bytes < U32) (hu : upage < U64)
    (ho : -2 ^ 31 ≤ ofs ∧ ofs < 2 ^ 31)
    (hsum : (read_bytes + zero_bytes) % PGSIZE = 0)
    (hupage : upage % PGSIZE = 0) (hofs : ofs % (PGSIZE : Int) = 0) :
    load_segment alloc file ofs upage read_bytes zero_bytes writable pages =
      register_pages alloc
        ((List.range ((read_bytes + zero_bytes) / PGSIZE)).map
          (segment_page file ofs upage read_bytes writable)) pages ∧
    load_segment alloc file ofs upage read_bytes zero_bytes writable pages ≠ .diverge ∧
    ((∀ k, k < (read_bytes + zero_bytes) / PGSIZE →
        alloc.upargs (pages.length + k) = true ∧ alloc.page (pages.length + k) = true) →
      load_segment alloc file ofs upage read_bytes zero_bytes writable pages =
        .ret true (pages ++ (List.range ((read_bytes + zero_bytes) / PGSIZE)).map
          (segment_page file ofs upage read_bytes writable))) ∧
    ((List.range ((read_bytes + zero_bytes) / PGSIZE)).map
      (segment_page file ofs upage read_bytes writable)).length =
        (read_bytes + zero_bytes) / PGSIZE ∧
    ((List.range ((read_bytes + zero_bytes) / PGSIZE)).map
      (fun k => (segment_page file ofs upage read_bytes writable k).aux.page_read_bytes)).sum =
        read_bytes ∧
    ((List.range ((read_bytes + zero_bytes) / PGSIZE)).map
      (fun k => (segment_page file ofs upage read_bytes writable k).aux.page_zero_bytes)).sum =
        zero_bytes ∧
    (∀ k : Nat, 0 ≤ ofs → ofs + (PGSIZE : Int) * (k : Int) < 2 ^ 31 →
      (segment_page file ofs upage read_bytes writable k).aux.ofs =
        ofs + (PGSIZE : Int) * (k : Int)) ∧
    (∀ k, upage + PGSIZE * k < U64 →
      (segment_page file ofs upage read_bytes writable k).upage = upage + PGSIZE * k) ∧
    (∀ (k : Nat) (data : List Nat),
      lazy_load_segment data (segment_page file ofs upage read_bytes writable k).aux ≠ .panic ∧
      ((segment_page file ofs upage read_bytes writable k).aux.ofs.toNat +
          (segment_page file ofs upage read_bytes writable k).aux.page_read_bytes ≤
            data.length →
        lazy_load_segment data (segment_page file ofs upage read_bytes writable k).aux =
          .loaded (file_read data (segment_page file ofs upage read_bytes writable k).aux.ofs.toNat
              (min PGSIZE (read_bytes - PGSIZE * k)) ++
            List.replicate (PGSIZE - min PGSIZE (read_bytes - PGSIZE * k)) 0))) ∧
    (∀ (ealloc : EagerAlloc) (data : List Nat) (installed : List InstalledPage),
      load_segment_novm ealloc data ofs upage read_bytes zero_bytes writable installed ≠
        .diverge ∧
      (ofs.toNat + read_bytes ≤ data.length →
        (∀ k, k < (read_bytes + zero_bytes) / PGSIZE →
          ealloc.palloc (installed.length + k) = true ∧
          ealloc.install (installed.length + k) = true) →
        load_segment_novm ealloc data ofs upage read_bytes zero_bytes writable installed =
          .ret true (installed ++ (List.range ((read_bytes + zero_bytes) / PGSIZE)).map
            (installed_page data ofs.toNat upage read_bytes writable)))) := by
  have hN : read_bytes + zero_bytes = PGSIZE * ((read_bytes + zero_bytes) / PGSIZE) := by
    have := Nat.div_add_mod (read_bytes + zero_bytes) PGSIZE
    omega
  have hoff : to_off_t ofs = ofs := by
    unfold to_off_t
    omega
  have hmap := seg_pages_eq_map file writable ((read_bytes + zero_bytes) / PGSIZE) ofs upage
    read_bytes hu hoff
  have hrun : load_segment alloc file ofs upage read_bytes zero_bytes writable pages =
      register_pages alloc
        ((List.range ((read_bytes + zero_bytes) / PGSIZE)).map
          (segment_page file ofs upage read_bytes writable)) pages := by
    have h1 : (read_bytes + zero_bytes) % U32 % PGSIZE = 0 := by
      unfold U32 PGSIZE at *; omega
    unfold load_segment
    rw [if_neg (by simpa using h1), if_neg (by simpa using hupage), if_neg (by simpa using hofs)]
    rw [load_segment_loop_eq alloc file writable ((read_bytes + zero_bytes) / PGSIZE) _ pages ofs
      upage read_bytes zero_bytes (by omega) hN hr hz, hmap]
  have hsums := seg_pages_sums file writable ((read_bytes + zero_bytes) / PGSIZE) ofs upage
    read_bytes (by omega)
  rw [hmap, List.map_map, List.map_map] at hsums
  have hassert : (read_bytes + zero_bytes) % U32 % PGSIZE = 0 := by
    unfold U32 PGSIZE at *; omega
  refine ⟨hrun, ?_, ?_, by simp, hsums.1, ?_, ?_, ?_, ?_, ?_⟩
  · rw [hrun]
    exact register_pages_ends alloc _ _
  · intro hall
    rw [hrun]
    exact register_pages_all alloc _ pages (by simpa using hall)
  · have h2 := hsums.2
    have e : PGSIZE * ((read_bytes + zero_bytes) / PGSIZE) - read_bytes = zero_bytes := by omega
    rw [e] at h2
    exact h2
  · intro k h0 hk
    show to_off_t (ofs + (PGSIZE : Int) * (k : Int)) = _
    unfold to_off_t
    have : (0 : Int) ≤ (PGSIZE : Int) * (k : Int) := by positivity
    omega
  · intro k hk
    show (upage + PGSIZE * k) % U64 = _
    exact Nat.mod_eq_of_lt hk
  · intro k data
    have h1 : ¬ (min PGSIZE (read_bytes - PGSIZE * k) +
        (PGSIZE - min PGSIZE (read_bytes - PGSIZE * k))) % U32 ≠ PGSIZE := by
      unfold U32 PGSIZE; omega
    have h2 : ¬ to_off_t (ofs + (PGSIZE : Int) * (k : Int)) % (PGSIZE : Int) ≠ 0 := by
      unfold to_off_t PGSIZE at *
      omega
    unfold lazy_load_segment
    simp only [segment_page]
    rw [if_neg h1, if_neg h2]
    refine ⟨?_, ?_⟩
    · split <;> simp
    · intro hlen
      have hl := file_read_length data _ _ hlen
      simp only [segment_page] at hl
      simp only [hl, ne_eq, not_true_eq_false, if_false]
  · intro ealloc data installed
    have hunf : load_segment_novm ealloc data ofs upage read_bytes zero_bytes writable installed =
        load_segment_novm_loop ealloc data writable ((read_bytes + zero_bytes) / PGSIZE + 1)
          installed ofs.toNat upage read_bytes zero_bytes := by
      unfold load_segment_novm
      rw [if_neg (by simpa using hassert), if_neg (by simpa using hupage),
        if_neg (by simpa using hofs)]
    rw [hunf]
    refine ⟨load_segment_novm_loop_ends ealloc data writable _ _ installed _ upage read_bytes
      zero_bytes (by omega) hN hr hz, ?_⟩
    intro hlen hall
    rw [load_segment_novm_loop_all ealloc data writable _ _ installed _ upage read_bytes
      zero_bytes (by omega) hN hr hz hlen hall, eager_pages_eq_map _ _ _ _ _ _ hu]

/-- Instance of C12's theorem, the scenario of the spec: `read_bytes = 4106` and
`zero_bytes = 4086` give the pages `(4096, 0)` and `(10, 4086)`. -/
theorem load_segment_registers_witness :
    load_segment alloc_load_ok file_exe 0 0x400000 4106 4086 true [] =
      .ret true
        [{ upage := 0x400000, writable := true,
           aux := { file := file_exe, ofs := 0, page_read_bytes := 4096, page_zero_bytes := 0,
                    is_stack := false } },
         { upage := 0x401000, writable := true,
           aux := { file := file_exe, ofs := 4096, page_read_bytes := 10,
                    page_zero_bytes := 4086, is_stack := false } }] :=
  (load_segment_registers alloc_load_ok file_exe 0 0x400000 4106 4086 true [] (by decide)
    (by decide) (by decide) (by decide) (by decide) (by decide) (by decide)).2.2.1
    (fun _ _ => ⟨rfl, rfl⟩)

/-- For a segment that `validate_segment` accepts and whose rounded size is
below `2^32`, the split of `load` is the one the loader intends: the two counts
add up to the rounded size, nothing underflows, and the pages cover the
segment. -/
theorem load_split_spec (KERN_BASE : Nat) (phdr : Phdr) (file_length : Nat)
    (hf : phdr.p_filesz < U64)
    (hacc : validate_segment KERN_BASE phdr file_length = true)
    (hsmall : phdr.p_vaddr % PGSIZE + phdr.p_memsz ≤ U32 - PGSIZE) :
    (load_split phdr).1 + (load_split phdr).2 =
      ROUND_UP (phdr.p_vaddr % PGSIZE + phdr.p_memsz) PGSIZE ∧
    (load_split phdr).1 =
      (if phdr.p_filesz > 0 then phdr.p_vaddr % PGSIZE + phdr.p_filesz else 0) ∧
    (load_split phdr).1 ≤ ROUND_UP (phdr.p_vaddr % PGSIZE + phdr.p_memsz) PGSIZE ∧
    ((load_split phdr).1 + (load_split phdr).2) % PGSIZE = 0 ∧
    phdr.p_vaddr % PGSIZE + phdr.p_memsz ≤ (load_split phdr).1 + (load_split phdr).2 := by
  have hms : phdr.p_filesz ≤ phdr.p_memsz := by
    unfold validate_segment at hacc
    split_ifs at hacc
    omega
  unfold load_split ROUND_UP
  by_cases hfz : phdr.p_filesz > 0
  · simp only [hfz, if_true]
    unfold U64 U32 PGSIZE at *
    refine ⟨?_, ?_, ?_, ?_, ?_⟩ <;> omega
  · simp only [hfz, if_false]
    unfold U64 U32 PGSIZE at *
    refine ⟨?_, ?_, ?_, ?_, ?_⟩
    · omega
    · trivial
    · omega
    · omega
    · omega

/-- For every program header, the three assertions at the entry of
`load_segment` hold of the arguments `load` passes. -/
theorem load_split_asserts (phdr : Phdr) :
    ((load_split phdr).1 + (load_split phdr).2) % U32 % PGSIZE = 0 ∧
    (phdr.p_vaddr - phdr.p_vaddr % PGSIZE) % PGSIZE = 0 ∧
    to_off_t ((phdr.p_offset - phdr.p_offset % PGSIZE : Nat) : Int) % (PGSIZE : Int) = 0 := by
  refine ⟨?_, ?_, ?_⟩
  · unfold load_split ROUND_UP
    by_cases hfz : phdr.p_filesz > 0
    · simp only [hfz, if_true]
      unfold U64 U32 PGSIZE at *
      omega
    · simp only [hfz, if_false]
      unfold U64 U32 PGSIZE at *
      omega
  · unfold PGSIZE; omega
  · unfold to_off_t PGSIZE
    omega

/-- C11, the code at the failing input: a loadable segment at `0x400000` with no
file bytes and a memory size of `2^32` is accepted by `validate_segment`; the
rounded size is `2^32`, and `load` keeps it in a `uint32_t`: `read_bytes` and
`zero_bytes` are both 0.  `load_segment` then registers no page and returns
`true`, and `load` of an executable with this one segment gets to its end with
no page registered for the segment. -/
theorem load_split_truncates_4GiB :
    validate_segment 0x8004000000 phdr_bss_4GiB 8202 = true ∧
    load_split phdr_bss_4GiB = (0, 0) ∧
    ROUND_UP (phdr_bss_4GiB.p_vaddr % PGSIZE + phdr_bss_4GiB.p_memsz) PGSIZE = 2 ^ 32 ∧
    (load_split phdr_bss_4GiB).1 + (load_split phdr_bss_4GiB).2 ≠
      ROUND_UP (phdr_bss_4GiB.p_vaddr % PGSIZE + phdr_bss_4GiB.p_memsz) PGSIZE ∧
    load_segment alloc_load_ok file_exe 0 0x400000 (load_split phdr_bss_4GiB).1
      (load_split phdr_bss_4GiB).2 true [] = .ret true [] ∧
    load_elf 0x8004000000 alloc_load_ok file_120 (elf_image 0x3E phdr_bss_4GiB) =
      .loaded 0x400000 { reads := [(0, 64), (64, 56)], pages := [], stack := true } := by
  decide

/-- C13: when the read of the executable header is short, or the first seven
bytes are not `0x7F 'E' 'L' 'F' 2 1 1`, or `e_type` is not 2, or `e_machine` is
not `0x3E`, or `e_version` is not 1, or `e_phentsize` is not 56, or `e_phnum`
exceeds 1024, lines 448 to 518 of `load` go to `done` with the header read as
the only read of the file, no page registered and no stack set up, and `load`
returns `false`. -/
theorem load_rejects_bad_header (KERN_BASE : Nat) (alloc : LoadAlloc) (file : File)
    (data : List Nat)
    (hbad : (file_read data 0 64).length ≠ 64 ∨
      (file_read data 0 64).take 7 ≠ [0x7F, 0x45, 0x4C, 0x46, 2, 1, 1] ∨
      (decode_ehdr (file_read data 0 64)).e_type ≠ 2 ∨
      (decode_ehdr (file_read data 0 64)).e_machine ≠ 0x3E ∨
      (decode_ehdr (file_read data 0 64)).e_version ≠ 1 ∨
      (decode_ehdr (file_read data 0 64)).e_phentsize ≠ 56 ∨
      (decode_ehdr (file_read data 0 64)).e_phnum > 1024) :
    load_elf KERN_BASE alloc file data =
      .failed { reads := [(0, 64)], pages := [], stack := false } ∧
    ∀ (pml4_create : Bool) (filesys_open : List Nat → Option File) (disk : File → List Nat)
      (USER_STACK : Nat) (file_name : List Nat) (m : Mem),
      filesys_open ((c_string file_name).takeWhile (fun c => c != SPACE)) = some file →
      disk file = data →
      load (load_env pml4_create filesys_open disk KERN_BASE alloc USER_STACK) file_name m =
        none := by
  have hrej : ehdr_rejected (file_read data 0 SIZEOF_EHDR) = true := by
    unfold ehdr_rejected
    have h16 : ((decode_ehdr (file_read data 0 64)).e_ident).take 7 =
        (file_read data 0 64).take 7 := by
      simp [decode_ehdr, List.take_take]
    simp only [SIZEOF_EHDR, SIZEOF_PHDR, ELF_MAGIC, h16, Bool.or_eq_true, bne_iff_ne, ne_eq,
      decide_eq_true_eq]
    tauto
  have hfail : load_elf KERN_BASE alloc file data =
      .failed { reads := [(0, 64)], pages := [], stack := false } := by
    unfold load_elf
    rw [if_pos hrej]
    rfl
  refine ⟨hfail, ?_⟩
  intro pml4_create filesys_open disk USER_STACK file_name m hopen hdisk
  unfold load load_env
  simp only [hopen, hdisk, hfail]
  split <;> rfl

/-- Instance of C13's theorem: an executable for machine 3 instead of `0x3E`. -/
theorem load_rejects_bad_header_witness :
    load_elf 0x8004000000 alloc_load_ok file_120 (elf_image 3 phdr_bss_4GiB) =
      .failed { reads := [(0, 64)], pages := [], stack := false } ∧
    load (load_env true (fun _ => some file_120) (fun _ => elf_image 3 phdr_bss_4GiB)
      0x8004000000 alloc_load_ok 0x47480000) [0x61, 0] (fun _ => 0) = none :=
  ⟨(load_rejects_bad_header 0x8004000000 alloc_load_ok file_120 (elf_image 3 phdr_bss_4GiB)
      (by decide)).1,
   (load_rejects_bad_header 0x8004000000 alloc_load_ok file_120 (elf_image 3 phdr_bss_4GiB)
      (by decide)).2 true (fun _ => some file_120) (fun _ => elf_image 3 phdr_bss_4GiB)
      0x47480000 [0x61, 0] (fun _ => 0) rfl rfl⟩

/-! ## Argument passing -/

theorem splitOnP_append_sep (p : Nat → Bool) (a b : List Nat) (x : Nat) (hx : p x = true) :
    (a ++ x :: b).splitOnP p = a.splitOnP p ++ b.splitOnP p := by
  induction a with
  | nil => simp [List.splitOnP_cons, hx]
  | cons y ys ih =>
    rw [List.cons_append, List.splitOnP_cons, List.splitOnP_cons, ih]
    split
    · rfl
    · cases h : List.splitOnP p ys with
      | nil => exact absurd h (List.splitOnP_ne_nil _ _)
      | cons hd tl => rfl

theorem tokens_nil : tokens [] = [] := by
  simp [tokens, List.splitOn]

theorem tokens_append_space (a b : List Nat) :
    tokens (a ++ SPACE :: b) = tokens a ++ tokens b := by
  unfold tokens List.splitOn
  rw [splitOnP_append_sep _ _ _ _ (by simp), List.filter_append]

theorem tokens_word (w : List Nat) (hne : w ≠ []) (hw : ∀ x ∈ w, x ≠ SPACE) :
    tokens w = [w] := by
  unfold tokens List.splitOn
  rw [List.splitOnP_eq_single]
  · cases w with
    | nil => exact absurd rfl hne
    | cons x xs => rfl
  · intro x hx
    simpa using hw x hx

theorem tokens_spaces (a sp : List Nat) (hsp : ∀ x ∈ sp, x = SPACE) :
    tokens (a ++ sp) = tokens a := by
  induction sp generalizing a with
  | nil => simp
  | cons x xs ih =>
    have hx : x = SPACE := hsp x (List.mem_cons_self _ _)
    subst hx
    rw [tokens_append_space]
    have := ih [] (fun y hy => hsp y (List.mem_cons_of_mem _ hy))
    simp only [List.nil_append] at this
    rw [this, tokens_nil, List.append_nil]

/-- Tokens of a line ending in a word followed by spaces. -/
theorem tokens_snoc_word (a w sp : List Nat) (ha : a = [] ∨ ∃ a1, a = a1 ++ [SPACE])
    (hne : w ≠ []) (hw : ∀ x ∈ w, x ≠ SPACE) (hsp : ∀ x ∈ sp, x = SPACE) :
    tokens (a ++ w ++ sp) = tokens a ++ [w] := by
  rw [tokens_spaces _ _ hsp]
  rcases ha with ha | ⟨a1, ha⟩
  · subst ha
    simp [tokens_nil, tokens_word w hne hw]
  · subst ha
    rw [List.append_assoc, List.singleton_append, tokens_append_space, tokens_word w hne hw]
    have := tokens_append_space a1 []
    rw [tokens_nil, List.append_nil] at this
    rw [this]

theorem tokens_no_space (s : List Nat) : ∀ t ∈ tokens s, t ≠ [] ∧ ∀ x ∈ t, x ≠ SPACE := by
  intro t ht
  unfold tokens at ht
  rw [List.mem_filter] at ht
  refine ⟨by simpa using ht.2, ?_⟩
  have h1 := ht.1
  clear ht
  unfold List.splitOn at h1
  induction s generalizing t with
  | nil => simp at h1; subst h1; simp
  | cons y ys ih =>
    rw [List.splitOnP_cons] at h1
    split at h1
    · rcases List.mem_cons.mp h1 with h | h
      · subst h; simp
      · exact ih t h
    · rename_i hy
      cases hsp : List.splitOnP (fun x => x == SPACE) ys with
      | nil => exact absurd hsp (List.splitOnP_ne_nil _ _)
      | cons hd tl =>
        rw [hsp] at h1 ih
        simp only [List.modifyHead] at h1
        rcases List.mem_cons.mp h1 with h | h
        · subst h
          intro x hx
          rcases List.mem_cons.mp hx with hx | hx
          · subst hx; simpa using hy
          · exact ih hd (List.mem_cons_self _ _) x hx
        · exact ih t (List.mem_cons_of_mem _ h)

/-- Decomposition of a line that starts with a word. -/
theorem split_last_word : ∀ (n : Nat) (P : List Nat), P.length = n → P ≠ [] →
    P.head? ≠ some SPACE →
    ∃ a w sp, P = a ++ w ++ sp ∧ (a = [] ∨ ∃ a1, a = a1 ++ [SPACE]) ∧ w ≠ [] ∧
      (∀ x ∈ w, x ≠ SPACE) ∧ (∀ x ∈ sp, x = SPACE) ∧ (a = [] ∨ a.head? ≠ some SPACE) := by
  intro n
  induction n with
  | zero => intro P h hne; simp at h; exact absurd h hne
  | succ n ih =>
    intro P hlen hne hhead
    rcases List.eq_nil_or_concat P with h | ⟨Q, c, h⟩
    · exact absurd h hne
    · subst h
      have hQlen : Q.length = n := by simpa using hlen
      by_cases hQ : Q = []
      · subst hQ
        have hc : c ≠ SPACE := by simpa using hhead
        exact ⟨[], [c], [], by simp, Or.inl rfl, by simp, by simpa using hc, by simp, Or.inl rfl⟩
      · have hQhead : Q.head? ≠ some SPACE := by
          cases Q with
          | nil => exact absurd rfl hQ
          | cons q qs => simpa using hhead
        obtain ⟨a, w, sp, hP, ha, hwne, hw, hsp, hah⟩ := ih Q hQlen hQ hQhead
        by_cases hc : c = SPACE
        · refine ⟨a, w, sp ++ [c], by rw [hP]; simp, ha, hwne, hw, ?_, hah⟩
          intro x hx
          rcases List.mem_append.mp hx with hx | hx
          · exact hsp x hx
          · simp at hx; rw [hx, hc]
        · by_cases hspn : sp = []
          · subst hspn
            refine ⟨a, w ++ [c], [], by rw [hP]; simp, ha, by simp, ?_, by simp, hah⟩
            intro x hx
            rcases List.mem_append.mp hx with hx | hx
            · exact hw x hx
            · simp at hx; rw [hx]; exact hc
          · refine ⟨Q, [c], [], by simp, Or.inr ?_, by simp, by simpa using hc, by simp,
              Or.inr hQhead⟩
            rcases List.eq_nil_or_concat sp with h | ⟨sp1, x, h⟩
            · exact absurd h hspn
            · have hx : x = SPACE := hsp x (by rw [h]; simp)
              refine ⟨a ++ w ++ sp1, ?_⟩
              rw [hP, h, hx]; simp

theorem eq_nil_or_snoc (l : List Nat) : l = [] ∨ ∃ l1 x, l = l1 ++ [x] := by
  rcases List.eq_nil_or_concat l with h | ⟨l1, x, h⟩
  · exact Or.inl h
  · exact Or.inr ⟨l1, x, by rw [h, List.concat_eq_append]⟩

theorem getD_mid (A B : List Nat) (c d : Nat) : (A ++ c :: B).getD A.length d = c := by
  induction A with
  | nil => rfl
  | cons a as ih => simpa using ih

theorem getD_app (A B : List Nat) (i d : Nat) : (A ++ B).getD (A.length + i) d = B.getD i d := by
  induction A with
  | nil => simp
  | cons a as ih =>
    have : (a :: as).length + i = (as.length + i) + 1 := by simp; omega
    rw [this]
    simpa using ih

theorem skip_spaces_spec (A : List Nat) (c : Nat) (hc : c ≠ SPACE) :
    ∀ (n : Nat) (sp B : List Nat), sp.length = n → (∀ x ∈ sp, x = SPACE) →
      skip_spaces (A ++ [c] ++ sp ++ B) (A.length + 1 + sp.length) = some (A.length + 1) := by
  intro n
  induction n with
  | zero =>
    intro sp B hn _
    have : sp = [] := List.length_eq_zero.mp hn
    subst this
    simp only [List.append_nil, List.length_nil, Nat.add_zero, skip_spaces]
    have : (A ++ [c] ++ B).getD A.length 0 = c := by
      rw [List.append_assoc]; exact getD_mid A B c 0
    rw [this, if_neg hc]
  | succ n ih =>
    intro sp B hn hsp
    rcases eq_nil_or_snoc sp with h | ⟨sp1, x, h⟩
    · subst h; simp at hn
    · subst h
      have hx : x = SPACE := hsp x (by simp)
      have hl : sp1.length = n := by simpa using hn
      have e1 : A.length + 1 + (sp1 ++ [x]).length = (A.length + 1 + sp1.length) + 1 := by
        simp; omega
      have e2 : A ++ [c] ++ (sp1 ++ [x]) ++ B = (A ++ [c] ++ sp1) ++ x :: B := by simp
      rw [e1, skip_spaces]
      have e3 : (A ++ [c] ++ (sp1 ++ [x]) ++ B).getD (A.length + 1 + sp1.length) 0 = x := by
        rw [e2]
        have := getD_mid (A ++ [c] ++ sp1) B x 0
        have e4 : (A ++ [c] ++ sp1).length = A.length + 1 + sp1.length := by simp; omega
        rw [e4] at this
        exact this
      rw [e3, if_pos hx, e2]
      have := ih sp1 (x :: B) hl (fun y hy => hsp y (by simp [hy]))
      simpa using this

theorem scan_word_spec (a : List Nat) (ha : a = [] ∨ ∃ a1, a = a1 ++ [SPACE]) :
    ∀ (n : Nat) (w B : List Nat) (len : Nat), w.length = n → (∀ x ∈ w, x ≠ SPACE) →
      scan_word (a ++ w ++ B) (a.length + w.length) len = (a.length, len + w.length) := by
  intro n
  induction n with
  | zero =>
    intro w B len hn _
    have : w = [] := List.length_eq_zero.mp hn
    subst this
    simp only [List.append_nil, List.length_nil, Nat.add_zero]
    rcases ha with ha | ⟨a1, ha⟩
    · subst ha; simp [scan_word]
    · subst ha
      have e : (a1 ++ [SPACE]).length = a1.length + 1 := by simp
      rw [e, scan_word]
      have : (a1 ++ [SPACE] ++ B).getD a1.length 0 = SPACE := by
        rw [List.append_assoc]; exact getD_mid a1 B SPACE 0
      rw [this]
      simp
  | succ n ih =>
    intro w B len hn hw
    rcases eq_nil_or_snoc w with h | ⟨w1, x, h⟩
    · subst h; simp at hn
    · subst h
      have hx : x ≠ SPACE := hw x (by simp)
      have hl : w1.length = n := by simpa using hn
      have e1 : a.length + (w1 ++ [x]).length = (a.length + w1.length) + 1 := by
        simp; omega
      have e2 : a ++ (w1 ++ [x]) ++ B = (a ++ w1) ++ x :: B := by simp
      rw [e1, scan_word]
      have e3 : (a ++ (w1 ++ [x]) ++ B).getD (a.length + w1.length) 0 = x := by
        rw [e2]
        have := getD_mid (a ++ w1) B x 0
        simpa using this
      rw [e3, if_pos hx, e2]
      have := ih w1 (x :: B) (len + 1) hl (fun y hy => hw y (by simp [hy]))
      rw [this]
      simp; omega

/-- One iteration of the scanning loops on a line that ends in a word and
spaces. -/
theorem scan_last_word (a w sp B : List Nat) (len : Nat)
    (ha : a = [] ∨ ∃ a1, a = a1 ++ [SPACE]) (hne : w ≠ [])
    (hw : ∀ x ∈ w, x ≠ SPACE) (hsp : ∀ x ∈ sp, x = SPACE) :
    skip_spaces (a ++ w ++ sp ++ B) ((a ++ w ++ sp).length) = some (a.length + w.length) ∧
    scan_word (a ++ w ++ sp ++ B) (a.length + w.length) len = (a.length, len + w.length) := by
  constructor
  · rcases eq_nil_or_snoc w with h | ⟨w1, c, h⟩
    · exact absurd h hne
    · subst h
      have hc : c ≠ SPACE := hw c (by simp)
      have := skip_spaces_spec (a ++ w1) c hc sp.length sp B rfl hsp
      have e : a ++ (w1 ++ [c]) ++ sp ++ B = a ++ w1 ++ [c] ++ sp ++ B := by simp
      rw [e]
      have e5 : (a ++ (w1 ++ [c]) ++ sp).length = (a ++ w1).length + 1 + sp.length := by
        simp; omega
      have e6 : a.length + (w1 ++ [c]).length = (a ++ w1).length + 1 := by simp; omega
      rw [e5, e6]
      exact this
  · have := scan_word_spec a ha w.length w (sp ++ B) len rfl hw
    simpa using this

theorem wsub_eq (a b : Nat) (hb : b ≤ a) (ha : a < U64) : wsub a b = a - b := by
  unfold wsub
  unfold U64 at *
  have : b % 2 ^ 64 = b := Nat.mod_eq_of_lt (by omega)
  rw [this]
  omega

theorem store64_other (m : Mem) (a v x : Nat) (h : x < a ∨ a + 8 ≤ x) :
    store64 m a v x = m x := by
  unfold store64
  rw [if_neg (by omega)]

theorem store64_at (m : Mem) (a v i : Nat) (h : i < 8) :
    store64 m a v (a + i) = v / 256 ^ i % 256 := by
  unfold store64
  rw [if_pos (by omega)]
  congr 3
  omega

theorem load64_store64 (m : Mem) (a v : Nat) (hv : v < U64) :
    load64 (store64 m a v) a = v := by
  unfold load64
  have h0 := store64_at m a v 0 (by omega)
  rw [Nat.add_zero] at h0
  rw [h0, store64_at m a v 1 (by omega), store64_at m a v 2 (by omega),
    store64_at m a v 3 (by omega), store64_at m a v 4 (by omega),
    store64_at m a v 5 (by omega), store64_at m a v 6 (by omega),
    store64_at m a v 7 (by omega)]
  unfold U64 at hv
  norm_num
  omega

theorem load64_congr (m m1 : Mem) (a : Nat) (h : ∀ x, a ≤ x → x < a + 8 → m1 x = m x) :
    load64 m1 a = load64 m a := by
  unfold load64
  rw [h a (by omega) (by omega), h (a + 1) (by omega) (by omega),
    h (a + 2) (by omega) (by omega), h (a + 3) (by omega) (by omega),
    h (a + 4) (by omega) (by omega), h (a + 5) (by omega) (by omega),
    h (a + 6) (by omega) (by omega), h (a + 7) (by omega) (by omega)]

theorem stack_bytes_append (T : List (List Nat)) (w : List Nat) :
    stack_bytes (T ++ [w]) = stack_bytes T + (w.length + 1) := by
  simp [stack_bytes]

theorem push_strings_zero (s : List Nat) (fuel rsp : Nat) (m : Mem) :
    push_strings s fuel 0 rsp m = some (rsp, m) := by
  cases fuel <;> rfl

theorem push_strings_succ (s : List Nat) (fuel k rsp : Nat) (m : Mem) (hk : 0 < k) :
    push_strings s (fuel + 1) k rsp m =
      match skip_spaces s k with
      | none => none
      | some k1 =>
        push_strings s fuel (scan_word s k1 0).1 (wsub rsp ((scan_word s k1 0).2 + 1))
          (strlcpy m (wsub rsp ((scan_word s k1 0).2 + 1)) (s.drop (scan_word s k1 0).1)
            ((scan_word s k1 0).2 + 1)) := by
  cases k with
  | zero => omega
  | succ k => rfl

theorem strlen_ge (w rest : List Nat) (hw : ∀ x ∈ w, x ≠ 0) : w.length ≤ strlen (w ++ rest) := by
  unfold strlen c_string
  induction w with
  | nil => simp
  | cons x xs ih =>
    have hx : x ≠ 0 := hw x (List.mem_cons_self _ _)
    have hxb : (x != 0) = true := by simpa using hx
    simp only [List.cons_append, List.takeWhile_cons, hxb, if_true, List.length_cons]
    have := ih (fun y hy => hw y (List.mem_cons_of_mem _ hy))
    omega

theorem strlcpy_word (m : Mem) (dst : Nat) (w rest : List Nat) (hw : ∀ x ∈ w, x ≠ 0) :
    holds_string (strlcpy m dst (w ++ rest) (w.length + 1)) dst w ∧
    ∀ a, a < dst ∨ dst + w.length < a → strlcpy m dst (w ++ rest) (w.length + 1) a = m a := by
  have hlen := strlen_ge w rest hw
  have hd : (if strlen (w ++ rest) < w.length + 1 - 1 then strlen (w ++ rest)
      else w.length + 1 - 1) = w.length := by
    rw [if_neg (by omega)]; omega
  unfold strlcpy
  rw [if_neg (by omega)]
  simp only [hd]
  refine ⟨⟨?_, ?_⟩, ?_⟩
  · intro j hj
    beta_reduce
    rw [if_pos (by omega)]
    have e : dst + j - dst = j := by omega
    rw [e]
    simp only [List.getD_eq_getElem?_getD]
    rw [List.getElem?_append_left hj]
  · beta_reduce
    rw [if_neg (by omega), if_pos rfl]
  · intro a ha
    rw [if_neg (by omega), if_neg (by omega)]

theorem holds_string_congr (m m1 : Mem) (a : Nat) (w : List Nat)
    (h : ∀ x, a ≤ x → x ≤ a + w.length → m1 x = m x) (hs : holds_string m a w) :
    holds_string m1 a w := by
  refine ⟨?_, ?_⟩
  · intro j hj
    rw [h (a + j) (by omega) (by omega)]
    exact hs.1 j hj
  · rw [h (a + w.length) (by omega) (by omega)]
    exact hs.2

theorem laid_out_congr (m m1 : Mem) :
    ∀ (R : List (List Nat)) (top : Nat), stack_bytes R ≤ top →
      (∀ x, top - stack_bytes R ≤ x → x < top → m1 x = m x) →
      laid_out m R top → laid_out m1 R top := by
  intro R
  induction R with
  | nil => intro top _ _ _; trivial
  | cons w R ih =>
    intro top hb h hl
    have hsb : stack_bytes (w :: R) = (w.length + 1) + stack_bytes R := by simp [stack_bytes]
    rw [hsb] at hb h
    refine ⟨holds_string_congr m m1 _ w ?_ hl.1, ih _ (by omega) ?_ hl.2⟩
    · intro x h1 h2
      exact h x (by omega) (by omega)
    · intro x h1 h2
      exact h x (by omega) (by omega)

theorem push_strings_spec : ∀ (fuel : Nat) (P B : List Nat) (rsp : Nat) (m : Mem),
    P.length ≤ fuel → (P = [] ∨ P.head? ≠ some SPACE) → (∀ x ∈ P ++ B, x ≠ 0) →
    stack_bytes (tokens P) ≤ rsp → rsp < U64 →
    ∃ m1, push_strings (P ++ B) fuel P.length rsp m =
        some (rsp - stack_bytes (tokens P), m1) ∧
      (∀ a, a < rsp - stack_bytes (tokens P) ∨ rsp ≤ a → m1 a = m a) ∧
      laid_out m1 (tokens P).reverse rsp := by
  intro fuel
  induction fuel with
  | zero =>
    intro P B rsp m hlen _ _ _ _
    have : P = [] := List.length_eq_zero.mp (by omega)
    subst this
    exact ⟨m, by simp [push_strings_zero, tokens_nil, stack_bytes], fun _ _ => rfl,
      by simp [tokens_nil, laid_out]⟩
  | succ fuel ih =>
    intro P B rsp m hlen hhead hnz hroom hrsp
    by_cases hP : P = []
    · subst hP
      exact ⟨m, by simp [push_strings_zero, tokens_nil, stack_bytes], fun _ _ => rfl,
        by simp [tokens_nil, laid_out]⟩
    · have hhead1 : P.head? ≠ some SPACE := by
        rcases hhead with h | h
        · exact absurd h hP
        · exact h
      obtain ⟨a, w, sp, hdec, ha, hwne, hw, hsp, hah⟩ :=
        split_last_word P.length P rfl hP hhead1
      have htok : tokens P = tokens a ++ [w] := by
        rw [hdec]; exact tokens_snoc_word a w sp ha hwne hw hsp
      have hscan := scan_last_word a w sp B 0 ha hwne hw hsp
      rw [← hdec] at hscan
      have hwl : 0 < w.length := List.length_pos.mpr hwne
      have hPl : P.length = a.length + w.length + sp.length := by rw [hdec]; simp; omega
      rw [htok, stack_bytes_append] at hroom ⊢
      rw [push_strings_succ _ _ _ _ _ (by omega), hscan.1]
      simp only [hscan.2, Nat.zero_add]
      rw [wsub_eq rsp (w.length + 1) (by omega) hrsp]
      have hdrop : (P ++ B).drop a.length = w ++ (sp ++ B) := by
        rw [hdec]; simp
      rw [hdrop]
      have hwz : ∀ x ∈ w, x ≠ 0 := by
        intro x hx
        apply hnz x
        rw [hdec]; simp [hx]
      obtain ⟨hstr, hfr⟩ := strlcpy_word m (rsp - (w.length + 1)) w (sp ++ B) hwz
      have hPB : P ++ B = a ++ (w ++ (sp ++ B)) := by rw [hdec]; simp
      rw [hPB]
      obtain ⟨m1, hrun, hframe, hlaid⟩ := ih a (w ++ (sp ++ B)) (rsp - (w.length + 1))
        (strlcpy m (rsp - (w.length + 1)) (w ++ (sp ++ B)) (w.length + 1))
        (by omega) hah (by rw [← hPB]; exact hnz) (by omega) (by omega)
      refine ⟨m1, ?_, ?_, ?_⟩
      · rw [hrun]
        congr 2
        omega
      · intro x hx
        rw [hframe x (by omega), hfr x (by omega)]
      · rw [List.reverse_append, List.reverse_singleton, List.singleton_append]
        refine ⟨holds_string_congr _ m1 _ w ?_ hstr, hlaid⟩
        intro x h1 h2
        exact hframe x (by omega)

theorem push_pointers_zero (s : List Nat) (rs fuel len rsp : Nat) (m : Mem) (argc argv : Nat) :
    push_pointers s rs fuel 0 len rsp m argc argv = some (rsp, m, argc, argv) := by
  cases fuel <;> rfl

theorem push_pointers_succ (s : List Nat) (rs fuel k len rsp : Nat) (m : Mem) (argc argv : Nat)
    (hk : 0 < k) :
    push_pointers s rs (fuel + 1) k len rsp m argc argv =
      match skip_spaces s k with
      | none => none
      | some k1 =>
        push_pointers s rs fuel (scan_word s k1 len).1 ((scan_word s k1 len).2 + 1)
          (wsub rsp 8)
          (store64 m (wsub rsp 8) (wsub rs ((scan_word s k1 len).2 + 1)))
          (argc + 1) (wsub rsp 8) := by
  cases k with
  | zero => omega
  | succ k => rfl

theorem push_pointers_spec (rs : Nat) (hrs : rs < U64) :
    ∀ (fuel : Nat) (P B : List Nat) (len rsp : Nat) (m : Mem) (argc argv : Nat),
    P.length ≤ fuel → (P = [] ∨ P.head? ≠ some SPACE) →
    8 * (tokens P).length ≤ rsp → rsp < U64 → len + stack_bytes (tokens P) ≤ rs →
    ∃ m1, push_pointers (P ++ B) rs fuel P.length len rsp m argc argv =
        some (rsp - 8 * (tokens P).length, m1, argc + (tokens P).length,
          if (tokens P).length = 0 then argv else rsp - 8 * (tokens P).length) ∧
      (∀ a, a < rsp - 8 * (tokens P).length ∨ rsp ≤ a → m1 a = m a) ∧
      pointers_at m1 rs (tokens P).reverse len rsp := by
  intro fuel
  induction fuel with
  | zero =>
    intro P B len rsp m argc argv hlen _ _ _ _
    have : P = [] := List.length_eq_zero.mp (by omega)
    subst this
    exact ⟨m, by simp [push_pointers_zero, tokens_nil], fun _ _ => rfl,
      by simp [tokens_nil, pointers_at]⟩
  | succ fuel ih =>
    intro P B len rsp m argc argv hlen hhead hroom hrsp hlenb
    by_cases hP : P = []
    · subst hP
      exact ⟨m, by simp [push_pointers_zero, tokens_nil], fun _ _ => rfl,
        by simp [tokens_nil, pointers_at]⟩
    · have hhead1 : P.head? ≠ some SPACE := by
        rcases hhead with h | h
        · exact absurd h hP
        · exact h
      obtain ⟨a, w, sp, hdec, ha, hwne, hw, hsp, hah⟩ :=
        split_last_word P.length P rfl hP hhead1
      have htok : tokens P = tokens a ++ [w] := by
        rw [hdec]; exact tokens_snoc_word a w sp ha hwne hw hsp
      have hscan := scan_last_word a w sp B len ha hwne hw hsp
      rw [← hdec] at hscan
      have hwl : 0 < w.length := List.length_pos.mpr hwne
      have hPl : P.length = a.length + w.length + sp.length := by rw [hdec]; simp; omega
      have hn : (tokens a ++ [w]).length = (tokens a).length + 1 := by simp
      rw [htok, stack_bytes_append] at hlenb
      rw [htok, hn] at hroom ⊢
      rw [push_pointers_succ _ _ _ _ _ _ _ _ _ (by omega), hscan.1]
      simp only [hscan.2]
      rw [wsub_eq rsp 8 (by omega) hrsp, wsub_eq rs (len + w.length + 1) (by omega) hrs]
      have hPB : P ++ B = a ++ (w ++ (sp ++ B)) := by rw [hdec]; simp
      rw [hPB]
      obtain ⟨m1, hrun, hframe, hptr⟩ := ih a (w ++ (sp ++ B)) (len + w.length + 1) (rsp - 8)
        (store64 m (rsp - 8) (rs - (len + w.length + 1))) (argc + 1) (rsp - 8)
        (by omega) hah (by omega) (by omega) (by omega)
      refine ⟨m1, ?_, ?_, ?_⟩
      · rw [hrun]
        have e1 : rsp - 8 - 8 * (tokens a).length = rsp - 8 * ((tokens a).length + 1) := by omega
        have e2 : argc + 1 + (tokens a).length = argc + ((tokens a).length + 1) := by omega
        have e3 : (if (tokens a).length = 0 then rsp - 8
            else rsp - 8 - 8 * (tokens a).length) = rsp - 8 * ((tokens a).length + 1) := by
          split <;> omega
        rw [e3, e1, e2]
        simp
      · intro x hx
        rw [hframe x (by omega), store64_other _ _ _ _ (by omega)]
      · rw [List.reverse_append, List.reverse_singleton, List.singleton_append]
        refine ⟨?_, hptr⟩
        rw [load64_congr _ m1 (rsp - 8) (fun x h1 h2 => hframe x (by omega))]
        have := load64_store64 m (rsp - 8) (rs - (len + w.length + 1)) (by omega)
        rw [this]
        omega

theorem laid_out_index (m : Mem) : ∀ (n : Nat) (T : List (List Nat)) (top : Nat),
    T.length = n → laid_out m T.reverse top →
    ∀ i w, T[i]? = some w → holds_string m (top - stack_bytes (T.drop i)) w := by
  intro n
  induction n with
  | zero =>
    intro T top hn _ i w hi
    have : T = [] := List.length_eq_zero.mp hn
    subst this
    simp at hi
  | succ n ih =>
    intro T top hn hl i w hi
    rcases List.eq_nil_or_concat T with h | ⟨T1, v, h⟩
    · subst h; simp at hn
    · rw [List.concat_eq_append] at h
      subst h
      have hT1 : T1.length = n := by simpa using hn
      rw [List.reverse_append, List.reverse_singleton, List.singleton_append] at hl
      by_cases hlt : i < T1.length
      · rw [List.getElem?_append_left hlt] at hi
        have := ih T1 (top - (v.length + 1)) hT1 hl.2 i w hi
        have hd : List.drop i (T1 ++ [v]) = List.drop i T1 ++ [v] := by
          rw [List.drop_append_of_le_length (by omega)]
        rw [hd, stack_bytes_append]
        have e : top - (stack_bytes (List.drop i T1) + (v.length + 1)) =
            top - (v.length + 1) - stack_bytes (List.drop i T1) := by omega
        rw [e]
        exact this
      · have hi2 : i = T1.length := by
          have := (List.getElem?_eq_some_iff.mp hi).1
          simp at this
          omega
        subst hi2
        simp at hi
        subst hi
        simp [stack_bytes]
        exact hl.1

theorem pointers_at_index (m : Mem) (rs : Nat) : ∀ (n : Nat) (T : List (List Nat)) (len top : Nat),
    T.length = n → 8 * n ≤ top → pointers_at m rs T.reverse len top →
    ∀ i w, T[i]? = some w →
      load64 m (top - 8 * n + 8 * i) = rs - (len + stack_bytes (T.drop i)) := by
  intro n
  induction n with
  | zero =>
    intro T len top hn _ _ i w hi
    have : T = [] := List.length_eq_zero.mp hn
    subst this
    simp at hi
  | succ n ih =>
    intro T len top hn htop hl i w hi
    rcases List.eq_nil_or_concat T with h | ⟨T1, v, h⟩
    · subst h; simp at hn
    · rw [List.concat_eq_append] at h
      subst h
      have hT1 : T1.length = n := by simpa using hn
      rw [List.reverse_append, List.reverse_singleton, List.singleton_append] at hl
      by_cases hlt : i < T1.length
      · rw [List.getElem?_append_left hlt] at hi
        have := ih T1 (len + (v.length + 1)) (top - 8) hT1 (by omega) hl.2 i w hi
        have hd : List.drop i (T1 ++ [v]) = List.drop i T1 ++ [v] := by
          rw [List.drop_append_of_le_length (by omega)]
        rw [hd, stack_bytes_append]
        have e1 : top - 8 * (n + 1) + 8 * i = top - 8 - 8 * n + 8 * i := by omega
        have e2 : rs - (len + (stack_bytes (List.drop i T1) + (v.length + 1))) =
            rs - (len + (v.length + 1) + stack_bytes (List.drop i T1)) := by omega
        rw [e1, e2]
        exact this
      · have hi2 : i = T1.length := by
          have := (List.getElem?_eq_some_iff.mp hi).1
          simp at this
          omega
        subst hi2
        simp at hi
        subst hi
        have e1 : top - 8 * (n + 1) + 8 * T1.length = top - 8 := by omega
        rw [e1]
        simp [stack_bytes]
        exact hl.1

theorem stack_bytes_filter_le (p : List Nat → Bool) (L : List (List Nat)) :
    stack_bytes (L.filter p) ≤ stack_bytes L := by
  induction L with
  | nil => simp
  | cons l L ih =>
    rw [List.filter_cons]
    split
    · simp only [stack_bytes, List.map_cons, List.sum_cons] at ih ⊢; omega
    · simp only [stack_bytes, List.map_cons, List.sum_cons] at ih ⊢; omega

theorem stack_bytes_splitOn (s : List Nat) :
    stack_bytes (s.splitOn SPACE) = s.length + 1 := by
  unfold List.splitOn
  induction s with
  | nil => simp [stack_bytes]
  | cons c s ih =>
    rw [List.splitOnP_cons]
    split
    · simp only [stack_bytes, List.map_cons, List.sum_cons, List.length_nil,
        List.length_cons] at ih ⊢
      omega
    · cases h : List.splitOnP (fun x => x == SPACE) s with
      | nil => exact absurd h (List.splitOnP_ne_nil _ _)
      | cons hd tl =>
        rw [h] at ih
        simp only [List.modifyHead, stack_bytes, List.map_cons, List.sum_cons,
          List.length_cons] at ih ⊢
        omega

theorem stack_bytes_tokens_le (s : List Nat) : stack_bytes (tokens s) ≤ s.length + 1 := by
  have := stack_bytes_filter_le (fun t => !t.isEmpty) (s.splitOn SPACE)
  rw [stack_bytes_splitOn] at this
  exact this

theorem length_le_stack_bytes (T : List (List Nat)) : T.length ≤ stack_bytes T := by
  induction T with
  | nil => simp
  | cons w T ih =>
    simp only [stack_bytes, List.map_cons, List.sum_cons, List.length_cons] at ih ⊢
    omega

theorem pointers_at_congr (m m1 : Mem) (rs : Nat) :
    ∀ (R : List (List Nat)) (len top : Nat), 8 * R.length ≤ top →
      (∀ x, top - 8 * R.length ≤ x → x < top → m1 x = m x) →
      pointers_at m rs R len top → pointers_at m1 rs R len top := by
  intro R
  induction R with
  | nil => intro len top _ _ _; trivial
  | cons w R ih =>
    intro len top hb h hl
    simp only [List.length_cons] at hb h
    refine ⟨?_, ih _ _ (by omega) ?_ hl.2⟩
    · rw [load64_congr m m1 (top - 8) (fun x h1 h2 => h x (by omega) (by omega))]
      exact hl.1
    · intro x h1 h2
      exact h x (by omega) (by omega)

theorem build_stack_spec (s : List Nat) (rip rsp : Nat) (m : Mem)
    (hhead : s = [] ∨ s.head? ≠ some SPACE) (hnz : ∀ x ∈ s, x ≠ 0)
    (hrsp : rsp < U64) (hroom : 9 * s.length + 32 ≤ rsp) :
    ∃ m5, build_stack s rip rsp m =
        some ({ rip := rip, rsp := argv_base s rsp - 8, rdi := (tokens s).length,
                rsi := if (tokens s).length = 0 then 0 else argv_base s rsp }, m5) ∧
      argv_end s rsp % 8 = 0 ∧
      8 * (tokens s).length + 8 ≤ argv_end s rsp ∧
      load64 m5 (argv_end s rsp) = 0 ∧
      load64 m5 (argv_base s rsp - 8) = 0 ∧
      ∀ i w, (tokens s)[i]? = some w →
        load64 m5 (argv_base s rsp + 8 * i) = rsp - stack_bytes ((tokens s).drop i) ∧
        holds_string m5 (rsp - stack_bytes ((tokens s).drop i)) w := by
  have hS := stack_bytes_tokens_le s
  have hN := length_le_stack_bytes (tokens s)
  obtain ⟨m1, hrun1, hframe1, hlaid1⟩ := push_strings_spec s.length s [] rsp m (le_refl _) hhead
    (by simpa using hnz) (by omega) hrsp
  rw [List.append_nil] at hrun1
  have h8 : (strings_base s rsp - strings_base s rsp % 8) % 8 = 0 := by omega
  have hge : 16 + 8 * (tokens s).length ≤ strings_base s rsp - strings_base s rsp % 8 := by
    unfold strings_base; omega
  have hsb : strings_base s rsp ≤ rsp := by unfold strings_base; omega
  have hae : argv_end s rsp = strings_base s rsp - strings_base s rsp % 8 - 8 := rfl
  have hab : argv_base s rsp = argv_end s rsp - 8 * (tokens s).length := rfl
  have hsd : strings_base s rsp = rsp - stack_bytes (tokens s) := rfl
  obtain ⟨m4, hrun2, hframe2, hptr2⟩ := push_pointers_spec rsp hrsp s.length s [] 0
    (argv_end s rsp) (store64 m1 (argv_end s rsp) 0) 0 0 (le_refl _) hhead
    (by omega) (by omega) (by omega)
  rw [List.append_nil] at hrun2
  refine ⟨store64 m4 (argv_base s rsp - 8) 0, ?_, ?_, ?_, ?_, ?_, ?_⟩
  · unfold build_stack
    simp only [hrun1]
    have e1 : wsub (rsp - stack_bytes (tokens s)) ((rsp - stack_bytes (tokens s)) % 8) =
        strings_base s rsp - strings_base s rsp % 8 := by
      unfold strings_base
      rw [wsub_eq _ _ (Nat.mod_le _ _) (by omega)]
    have e2 : wsub (strings_base s rsp - strings_base s rsp % 8) 8 = argv_end s rsp := by
      rw [wsub_eq _ _ (by omega) (by omega), hae]
    rw [e1, e2, hrun2]
    simp only [Nat.zero_add]
    have e3 : wsub (argv_end s rsp - 8 * (tokens s).length) 8 = argv_base s rsp - 8 := by
      rw [wsub_eq _ _ (by omega) (by omega), hab]
    rw [e3]
    rfl
  · omega
  · omega
  · rw [load64_congr m4 _ (argv_end s rsp)
      (fun x h1 h2 => store64_other _ _ _ _ (by omega))]
    rw [load64_congr _ m4 (argv_end s rsp) (fun x h1 h2 => hframe2 x (by omega))]
    exact load64_store64 _ _ _ (by unfold U64; positivity)
  · exact load64_store64 _ _ _ (by unfold U64; positivity)
  · intro i w hi
    have hilt : i < (tokens s).length := (List.getElem?_eq_some_iff.mp hi).1
    have hdrop : stack_bytes ((tokens s).drop i) ≤ stack_bytes (tokens s) := by
      have : tokens s = (tokens s).take i ++ (tokens s).drop i := (List.take_append_drop i _).symm
      have h2 : stack_bytes (tokens s) =
          stack_bytes ((tokens s).take i) + stack_bytes ((tokens s).drop i) := by
        conv_lhs => rw [this]
        simp [stack_bytes]
      omega
    constructor
    · have hp := pointers_at_index m4 rsp (tokens s).length (tokens s) 0 (argv_end s rsp) rfl
        (by omega) hptr2 i w hi
      rw [Nat.zero_add] at hp
      rw [← hp]
      apply load64_congr
      intro x h1 h2
      exact store64_other _ _ _ _ (by omega)
    · have hl := laid_out_index m1 (tokens s).length (tokens s) rsp rfl hlaid1 i w hi
      refine holds_string_congr m1 _ _ w ?_ hl
      intro x h1 h2
      rw [store64_other _ _ _ _ (by omega)]
      rw [hframe2 x (by omega)]
      rw [store64_other _ _ _ _ (by omega)]

theorem read_c_string_spec (m : Mem) : ∀ (w : List Nat) (a fuel : Nat),
    holds_string m a w → (∀ x ∈ w, x ≠ 0) → w.length < fuel →
    read_c_string m fuel a = some w := by
  intro w
  induction w with
  | nil =>
    intro a fuel h _ hf
    cases fuel with
    | zero => omega
    | succ fuel =>
      have := h.2
      simp only [List.length_nil, Nat.add_zero] at this
      simp [read_c_string, this]
  | cons x xs ih =>
    intro a fuel h hz hf
    cases fuel with
    | zero => omega
    | succ fuel =>
      have hx : m a = x := by
        have := h.1 0 (by simp)
        simpa using this
      have hx0 : x ≠ 0 := hz x (List.mem_cons_self _ _)
      have hrest : holds_string m (a + 1) xs := by
        refine ⟨?_, ?_⟩
        · intro j hj
          have := h.1 (j + 1) (by simp; omega)
          have e : a + (j + 1) = a + 1 + j := by omega
          rw [e] at this
          simpa using this
        · have := h.2
          have e : a + (x :: xs).length = a + 1 + xs.length := by simp; omega
          rw [e] at this
          exact this
      have := ih (a + 1) fuel hrest (fun y hy => hz y (List.mem_cons_of_mem _ hy))
        (by simp at hf; omega)
      simp [read_c_string, hx, hx0, this]

theorem c_string_no_nul (buf : List Nat) : ∀ x ∈ c_string buf, x ≠ 0 := by
  intro x hx
  unfold c_string at hx
  have := List.mem_takeWhile_imp hx
  simpa using this

theorem tokens_subset (s : List Nat) : ∀ t ∈ tokens s, ∀ x ∈ t, x ∈ s := by
  intro t ht x hx
  unfold tokens at ht
  have h1 := (List.mem_filter.mp ht).1
  clear ht
  unfold List.splitOn at h1
  induction s generalizing t with
  | nil => simp at h1; subst h1; simp at hx
  | cons y ys ih =>
    rw [List.splitOnP_cons] at h1
    split at h1
    · rcases List.mem_cons.mp h1 with h | h
      · subst h; simp at hx
      · exact List.mem_cons_of_mem _ (ih t hx h)
    · cases hsp : List.splitOnP (fun x => x == SPACE) ys with
      | nil => exact absurd hsp (List.splitOnP_ne_nil _ _)
      | cons hd tl =>
        rw [hsp] at h1 ih
        simp only [List.modifyHead] at h1
        rcases List.mem_cons.mp h1 with h | h
        · subst h
          rcases List.mem_cons.mp hx with hx | hx
          · subst hx; simp
          · exact List.mem_cons_of_mem _ (ih hd hx (List.mem_cons_self _ _))
        · exact List.mem_cons_of_mem _ (ih t hx (List.mem_cons_of_mem _ h))

theorem tokens_rejoin (s : List Nat) : tokens (rejoin (tokens s)) = tokens s := by
  by_cases hT : tokens s = []
  · rw [hT]
    simp [rejoin, List.intercalate, tokens_nil]
  · have hns := tokens_no_space s
    unfold rejoin
    have h1 : ([SPACE].intercalate (tokens s)).splitOn SPACE = tokens s :=
      List.splitOn_intercalate _ SPACE (fun l hl hmem => (hns l hl).2 SPACE hmem rfl) hT
    conv_lhs => rw [tokens, h1]
    rw [List.filter_eq_self]
    intro t ht
    have := (hns t ht).1
    cases t with
    | nil => exact absurd rfl this
    | cons _ _ => rfl

theorem takeWhile_head (p : Nat → Bool) (s : List Nat) (h : s.takeWhile p ≠ []) :
    ∃ x rest, s = x :: rest ∧ p x = true := by
  cases s with
  | nil => simp at h
  | cons x rest =>
    refine ⟨x, rest, rfl, ?_⟩
    by_contra hp
    simp [List.takeWhile_cons, hp] at h

/-- What `load` leaves when the environment lets it through. -/
theorem load_spec (env : LoadEnv) (file_name : List Nat) (mem : Mem) (file : File)
    (e_entry : Nat)
    (hstack : env.USER_STACK < U64)
    (hroom : 9 * (c_string file_name).length + 32 ≤ env.USER_STACK)
    (hempty : env.filesys_open [] = none)
    (hpml4 : env.pml4_create = true)
    (hopen : env.filesys_open ((c_string file_name).takeWhile (fun c => c != SPACE)) = some file)
    (himage : env.load_image file = some e_entry) :
    0 < (tokens (c_string file_name)).length ∧
    ∃ m5, load env file_name mem =
        some ({ rip := e_entry, rsp := argv_base (c_string file_name) env.USER_STACK - 8,
                rdi := (tokens (c_string file_name)).length,
                rsi := argv_base (c_string file_name) env.USER_STACK }, m5) ∧
      argv_end (c_string file_name) env.USER_STACK % 8 = 0 ∧
      8 * (tokens (c_string file_name)).length + 8 ≤ argv_end (c_string file_name) env.USER_STACK ∧
      load64 m5 (argv_end (c_string file_name) env.USER_STACK) = 0 ∧
      load64 m5 (argv_base (c_string file_name) env.USER_STACK - 8) = 0 ∧
      ∀ i w, (tokens (c_string file_name))[i]? = some w →
        load64 m5 (argv_base (c_string file_name) env.USER_STACK + 8 * i) =
          env.USER_STACK - stack_bytes ((tokens (c_string file_name)).drop i) ∧
        holds_string m5
          (env.USER_STACK - stack_bytes ((tokens (c_string file_name)).drop i)) w := by
  have hname : (c_string file_name).takeWhile (fun c => c != SPACE) ≠ [] := by
    intro h
    rw [h, hempty] at hopen
    cases hopen
  obtain ⟨x, rest, hs, hx⟩ := takeWhile_head _ _ hname
  have hxs : x ≠ SPACE := by simpa using hx
  have hhead : c_string file_name = [] ∨ (c_string file_name).head? ≠ some SPACE := by
    right
    rw [hs]
    simpa using hxs
  have hpos : 0 < (tokens (c_string file_name)).length := by
    obtain ⟨a, w, sp, hdec, ha, hwne, hw, hsp, _⟩ :=
      split_last_word _ (c_string file_name) rfl (by rw [hs]; simp) (by rw [hs]; simpa using hxs)
    have := tokens_snoc_word a w sp ha hwne hw hsp
    rw [← hdec] at this
    rw [this]
    simp
  obtain ⟨m5, h1, h2, h3, h4, h5, h6⟩ := build_stack_spec (c_string file_name) e_entry
    env.USER_STACK mem hhead (c_string_no_nul file_name) hstack hroom
  refine ⟨hpos, m5, ?_, h2, h3, h4, h5, h6⟩
  unfold load
  simp only [hpml4, hopen, himage, Bool.not_true, Bool.false_eq_true, if_false]
  rw [h1, if_neg (by omega)]

theorem mem_stack_bytes (T : List (List Nat)) (w : List Nat) (h : w ∈ T) :
    w.length + 1 ≤ stack_bytes T := by
  induction T with
  | nil => simp at h
  | cons v T ih =>
    simp only [stack_bytes, List.map_cons, List.sum_cons] at ih ⊢
    rcases List.mem_cons.mp h with h | h
    · subst h; omega
    · have := ih h; omega

/-- C1: when `load` reaches the stack construction (the page table is created,
the file named by the first token opens, the image loads), it succeeds and
leaves registers and memory in which `rdi` (argc) is the number of
space-separated tokens of the command line, and for every `i < argc` the
NUL-terminated string that `argv[i]` points at is the `i`-th token, left to
right; re-joining these strings with single spaces gives a line with the same
token sequence.  Assumed of the environment: no file has the empty name (so
the command line begins with the program name and no scan leaves the buffer),
and `USER_STACK` is a 64-bit address far enough from zero for the pushes.  User
memory is a flat byte store. -/
theorem load_argv_tokens (env : LoadEnv) (file_name : List Nat) (mem : Mem) (file : File)
    (e_entry : Nat)
    (hstack : env.USER_STACK < U64)
    (hroom : 9 * (c_string file_name).length + 32 ≤ env.USER_STACK)
    (hempty : env.filesys_open [] = none)
    (hpml4 : env.pml4_create = true)
    (hopen : env.filesys_open ((c_string file_name).takeWhile (fun c => c != SPACE)) = some file)
    (himage : env.load_image file = some e_entry) :
    ∃ fr m, load env file_name mem = some (fr, m) ∧
      fr.rdi = (tokens (c_string file_name)).length ∧
      argv_strings m fr ((c_string file_name).length + 1) =
        (tokens (c_string file_name)).map some ∧
      tokens (rejoin (tokens (c_string file_name))) = tokens (c_string file_name) := by
  obtain ⟨hpos, m5, h1, -, -, -, -, h6⟩ :=
    load_spec env file_name mem file e_entry hstack hroom hempty hpml4 hopen himage
  refine ⟨_, m5, h1, rfl, ?_, tokens_rejoin _⟩
  apply List.ext_getElem
  · simp [argv_strings]
  · intro i hi1 hi2
    have hi : i < (tokens (c_string file_name)).length := by simpa using hi2
    have hget : (tokens (c_string file_name))[i]? = some (tokens (c_string file_name))[i] :=
      List.getElem?_eq_getElem hi
    obtain ⟨hp, hs⟩ := h6 i _ hget
    have hmem : (tokens (c_string file_name))[i] ∈ tokens (c_string file_name) :=
      List.getElem_mem hi
    have hz : ∀ x ∈ (tokens (c_string file_name))[i], x ≠ 0 := fun x hx =>
      c_string_no_nul file_name x (tokens_subset _ _ hmem x hx)
    have hlen := mem_stack_bytes _ _ hmem
    have hS := stack_bytes_tokens_le (c_string file_name)
    simp only [argv_strings, List.getElem_map, List.getElem_range]
    rw [hp]
    exact read_c_string_spec m5 _ _ _ hs hz (by omega)

/-- Instance of C1's theorem: the command line `echo  hi ` yields argc 2 and the
strings `echo` and `hi`. -/
theorem load_argv_tokens_witness :
    ∃ fr m, load env_echo [101, 99, 104, 111, 32, 32, 104, 105, 32] (fun _ => 0) = some (fr, m) ∧
      fr.rdi = 2 ∧
      argv_strings m fr 10 = [some [101, 99, 104, 111], some [104, 105]] := by
  obtain ⟨fr, m, h1, h2, h3, -⟩ :=
    load_argv_tokens env_echo [101, 99, 104, 111, 32, 32, 104, 105, 32] (fun _ => 0) file_echo
      0x400000 (by decide) (by decide) (by decide) (by decide) (by decide) (by decide)
  exact ⟨fr, m, h1, h2.trans (by decide), h3.trans (by decide)⟩

/-- C2: under the same conditions as C1, after the stack construction the slot
`argv[argc]`, just above the `argc` argument pointers, is null; every pointer
slot `argv[i]`, `i <= argc`, and the final stack pointer are multiples of 8; the
final stack pointer addresses a zero return-address slot; `rdi = argc >= 1`,
`rsi` is the address of `argv[0]`, the slot directly above the return-address
slot, and `rip` is the entry point. -/
theorem load_stack_layout (env : LoadEnv) (file_name : List Nat) (mem : Mem) (file : File)
    (e_entry : Nat)
    (hstack : env.USER_STACK < U64)
    (hroom : 9 * (c_string file_name).length + 32 ≤ env.USER_STACK)
    (hempty : env.filesys_open [] = none)
    (hpml4 : env.pml4_create = true)
    (hopen : env.filesys_open ((c_string file_name).takeWhile (fun c => c != SPACE)) = some file)
    (himage : env.load_image file = some e_entry) :
    ∃ fr m, load env file_name mem = some (fr, m) ∧
      fr.rdi = (tokens (c_string file_name)).length ∧ 0 < fr.rdi ∧
      fr.rsi = fr.rsp + 8 ∧
      load64 m (fr.rsi + 8 * fr.rdi) = 0 ∧
      load64 m fr.rsp = 0 ∧
      fr.rsp % 8 = 0 ∧
      (∀ i, i ≤ fr.rdi → (fr.rsi + 8 * i) % 8 = 0) ∧
      fr.rip = e_entry := by
  obtain ⟨hpos, m5, h1, h2, h3, h4, h5, -⟩ :=
    load_spec env file_name mem file e_entry hstack hroom hempty hpml4 hopen himage
  have hab : argv_base (c_string file_name) env.USER_STACK =
      argv_end (c_string file_name) env.USER_STACK - 8 * (tokens (c_string file_name)).length :=
    rfl
  refine ⟨_, m5, h1, rfl, hpos, ?_, ?_, h5, ?_, ?_, rfl⟩
  · simp only; omega
  · have e : argv_base (c_string file_name) env.USER_STACK +
        8 * (tokens (c_string file_name)).length = argv_end (c_string file_name) env.USER_STACK := by
      omega
    simp only [e]
    exact h4
  · simp only; omega
  · intro i _
    simp only; omega

/-- Instance of C2's theorem on the command line `echo  hi `. -/
theorem load_stack_layout_witness :
    ∃ fr m, load env_echo [101, 99, 104, 111, 32, 32, 104, 105, 32] (fun _ => 0) = some (fr, m) ∧
      fr.rdi = 2 ∧ fr.rsi = fr.rsp + 8 ∧ load64 m (fr.rsi + 8 * fr.rdi) = 0 ∧
      load64 m fr.rsp = 0 ∧ fr.rsp % 8 = 0 := by
  obtain ⟨fr, m, h1, h2, -, h3, h4, h5, h6, -, -⟩ :=
    load_stack_layout env_echo [101, 99, 104, 111, 32, 32, 104, 105, 32] (fun _ => 0) file_echo
      0x400000 (by decide) (by decide) (by decide) (by decide) (by decide) (by decide)
  exact ⟨fr, m, h1, h2.trans (by decide), h3, h4, h5, h6⟩

/-! ## Wait and exit -/

theorem get_update (threads : List Thread) (tid : Int) (f : Thread → Thread)
    (hf : ∀ t, (f t).tid = t.tid) :
    thread_get_by_id (update_thread threads tid f) tid = (thread_get_by_id threads tid).map f := by
  unfold thread_get_by_id update_thread
  induction threads with
  | nil => rfl
  | cons t ts ih =>
    simp only [List.map_cons, List.find?_cons]
    by_cases h : (t.tid == tid) = true
    · have h2 : ((f t).tid == tid) = true := by rw [hf]; exact h
      rw [if_pos h]
      simp only [h, h2, Option.map_some']
    · have hb : (t.tid == tid) = false := by simpa using h
      rw [if_neg h]
      simp only [hb]
      exact ih

theorem get_filter (threads : List Thread) (tid : Int) :
    thread_get_by_id (threads.filter (fun t => t.tid != tid)) tid = none := by
  unfold thread_get_by_id
  simp [List.find?_eq_none]

theorem parent_events_append (l : List Event) (e : Event) :
    parent_events (l ++ [e]) = parent_events l ++ parent_events [e] := by
  simp [parent_events]

theorem log_split (log l1 l2 : List Event) (e d : Event)
    (h : log ++ [e] = l1 ++ d :: l2) :
    (l2 = [] ∧ e = d ∧ l1 = log) ∨ (∃ l3, log = l1 ++ d :: l3) := by
  rcases List.eq_nil_or_concat l2 with h2 | ⟨l3, x, h2⟩
  · subst h2
    left
    have := List.append_inj' h (by simp)
    simp at this
    exact ⟨rfl, this.2, this.1.symm⟩
  · subst h2
    right
    refine ⟨l3, ?_⟩
    have h' : log ++ [e] = (l1 ++ d :: l3) ++ [x] := by simpa using h
    exact (List.append_inj' h' (by simp)).1

theorem wait_inv_parent (cur tid status : Int) (t0 : Thread) (c c1 : Cfg)
    (h : WaitInv cur tid status t0 c) (hs : process_wait_step cur tid c = some c1) :
    WaitInv cur tid status t0 c1 := by
  obtain ⟨threads, ppc, cpc, log⟩ := c
  obtain ⟨hchild, halive, hup, hret, hord, hreap, htrace, hfirst, hlogged⟩ := h
  simp only at hchild halive hup hret hord hreap htrace hfirst hlogged
  cases ppc <;> cases cpc <;>
    simp only [process_wait_step, hchild, child_at, link_at, downed, upped, notified,
      TID_ERROR, ne_eq, not_true_eq_false, if_false, if_true, Option.some.injEq,
      reduceCtorEq, not_false_eq_true, true_implies, imp_false] at hs hord hreap <;>
    first
    | omega
    | exact absurd rfl halive
    | (subst hs
       refine ⟨?_, ?_, ?_, ?_, ?_, ?_, ?_, ?_, ?_⟩
       · simp [get_update, hchild, child_at, link_at, downed, upped, notified, TID_ERROR]
       · simp
       · simp
       · simp
         try (first | exact hup _ rfl | exact hret _ rfl)
       · simp [downed, notified]
       · simp [upped]
       · first
           | exact htrace
           | (show parent_events (_ ++ [_]) = _
              rw [parent_events_append, htrace]; rfl)
       · first
           | exact hfirst
           | (intro l1 l2 hl
              rcases log_split _ _ _ _ _ hl with ⟨-, he, h1⟩ | ⟨l3, h3⟩
              · cases he <;> (subst h1; exact hlogged rfl)
              · exact hfirst _ _ h3)
       · first
           | exact hlogged
           | (intro hn; exact List.mem_append_left _ (hlogged hn)))

theorem wait_inv_child (cur tid status : Int) (t0 : Thread) (c c1 : Cfg)
    (h : WaitInv cur tid status t0 c) (hs : process_exit_step tid status c = some c1) :
    WaitInv cur tid status t0 c1 := by
  obtain ⟨threads, ppc, cpc, log⟩ := c
  obtain ⟨hchild, halive, hup, hret, hord, hreap, htrace, hfirst, hlogged⟩ := h
  simp only at hchild halive hup hret hord hreap htrace hfirst hlogged
  rcases Bool.eq_false_or_eq_true t0.is_user with hu | hu <;>
  cases ppc <;> cases cpc <;>
    simp only [process_exit_step, hchild, hu, Bool.false_eq_true, child_at, link_at, downed, upped, notified,
      TID_ERROR, ne_eq, not_true_eq_false, if_false, if_true, Option.some.injEq,
      reduceCtorEq, not_false_eq_true, true_implies, imp_false] at hs hord hreap <;>
    first
    | omega
    | exact absurd rfl halive
    | (subst hs
       refine ⟨?_, ?_, ?_, ?_, ?_, ?_, ?_, ?_, ?_⟩
       · simp [get_update, get_filter, hchild, child_at, link_at, downed, upped, notified,
           TID_ERROR, hu]
       · simp
       · simp
       · simp
         try (first | exact hup _ rfl | exact hret _ rfl)
       · simp [downed, notified]
       · simp [upped]
       · first
           | exact htrace
           | (show parent_events (_ ++ [_]) = _
              rw [parent_events_append, htrace]; rfl)
       · first
           | exact hfirst
           | (intro l1 l2 hl
              rcases log_split _ _ _ _ _ hl with ⟨-, he, h1⟩ | ⟨l3, h3⟩
              · cases he
              · exact hfirst _ _ h3)
       · first
           | exact hlogged
           | (intro hn; exact List.mem_append_left _ (hlogged hn))
           | (intro _; simp))

theorem get_tid (threads : List Thread) (tid : Int) (t : Thread)
    (h : thread_get_by_id threads tid = some t) : t.tid = tid := by
  unfold thread_get_by_id at h
  have := List.find?_some h
  simpa using this

theorem wait_inv_start (cur tid status : Int) (t0 : Thread) (c0 : Cfg)
    (hppc : c0.ppc = .entry) (hcpc : c0.cpc = .running) (hlog : c0.log = [])
    (hchild : thread_get_by_id c0.threads tid = some t0)
    (hlink : t0.p_tid = cur) (hwait : t0.wait_sema = 0) (hreap : t0.reap_sema = 0) :
    WaitInv cur tid status t0 c0 := by
  have htid := get_tid _ _ _ hchild
  obtain ⟨threads, ppc, cpc, log⟩ := c0
  simp only at hppc hcpc hlog hchild
  subst hppc hcpc hlog
  refine ⟨?_, ?_, ?_, ?_, ?_, ?_, ?_, ?_, ?_⟩
  · rw [hchild]
    obtain ⟨a, b, c, d, e, f⟩ := t0
    simp only at htid hlink hwait hreap
    subst htid hlink hwait hreap
    rfl
  · simp
  · simp
  · simp
  · simp [downed, notified]
  · simp
  · rfl
  · intro l1 l2 h
    simp at h
  · simp [notified]

theorem wait_inv_reachable (cur tid status : Int) (t0 : Thread) (c0 c : Cfg)
    (h0 : WaitInv cur tid status t0 c0) (hr : Reachable cur tid status c0 c) :
    WaitInv cur tid status t0 c := by
  induction hr with
  | start => exact h0
  | next _ hs ih =>
    cases hs with
    | parent hp => exact wait_inv_parent _ _ _ _ _ _ ih hp
    | child hc => exact wait_inv_child _ _ _ _ _ _ ih hc

theorem reachable_trans (cur tid status : Int) (c0 c c1 : Cfg)
    (h1 : Reachable cur tid status c0 c) (h2 : Reachable cur tid status c c1) :
    Reachable cur tid status c0 c1 := by
  induction h2 with
  | start => exact h1
  | next _ hs ih => exact Reachable.next ih hs

theorem run_schedule_reachable (cur tid status : Int) :
    ∀ (sched : List Bool) (c c1 : Cfg), run_schedule cur tid status sched c = some c1 →
      Reachable cur tid status c c1 := by
  intro sched
  induction sched with
  | nil =>
    intro c c1 h
    simp [run_schedule] at h
    subst h
    exact Reachable.start
  | cons b rest ih =>
    intro c c1 h
    cases b
    · simp only [run_schedule] at h
      cases hstep : process_exit_step tid status c with
      | none => rw [hstep] at h; cases h
      | some c2 =>
        rw [hstep] at h
        exact reachable_trans _ _ _ _ _ _ (Reachable.next Reachable.start (Step.child hstep))
          (ih _ _ h)
    · simp only [run_schedule] at h
      cases hstep : process_wait_step cur tid c with
      | none => rw [hstep] at h; cases h
      | some c2 =>
        rw [hstep] at h
        exact reachable_trans _ _ _ _ _ _ (Reachable.next Reachable.start (Step.parent hstep))
          (ih _ _ h)

theorem cfg_waited_reachable : Reachable 1 3 7 cfg_start cfg_waited :=
  run_schedule_reachable 1 3 7
    [true, true, false, false, false, false, false, true, true, true, false] cfg_start cfg_waited
    (by decide)

/-- C3: `process_wait (id)` returns -1 at once, with the thread table and the
log of semaphore operations unchanged, whenever `id` names no thread or a
thread whose parent link differs from the caller's id (first part, for every
caller, id and configuration); and after a first successful wait by `cur` on
its child `tid` has returned, in every configuration the system can then be
in, a second `process_wait (tid)` by `cur` returns -1 at once and changes
nothing (second part).  Thread ids of running threads are never `TID_ERROR`. -/
theorem process_wait_rejects (cur tid status : Int) (t0 : Thread) (c0 c : Cfg)
    (hcur : cur ≠ TID_ERROR)
    (hppc : c0.ppc = .entry) (hcpc : c0.cpc = .running) (hlog : c0.log = [])
    (hchild : thread_get_by_id c0.threads tid = some t0)
    (hlink : t0.p_tid = cur) (hwait : t0.wait_sema = 0) (hreap : t0.reap_sema = 0)
    (hreach : Reachable cur tid status c0 c) :
    (∀ (who id : Int) (k : Cfg),
      (thread_get_by_id k.threads id = none ∨
        ∃ t, thread_get_by_id k.threads id = some t ∧ t.p_tid ≠ who) →
      process_wait who id k = .returned (-1) { k with ppc := .returned (-1) }) ∧
    (∀ v, c.ppc = .returned v →
      process_wait cur tid c = .returned (-1) { c with ppc := .returned (-1) }) := by
  have first : ∀ (who id : Int) (k : Cfg),
      (thread_get_by_id k.threads id = none ∨
        ∃ t, thread_get_by_id k.threads id = some t ∧ t.p_tid ≠ who) →
      process_wait who id k = .returned (-1) { k with ppc := .returned (-1) } := by
    intro who id k h
    rcases h with h | ⟨t, h, hne⟩
    · simp [process_wait, process_wait_run, process_wait_step, h]
    · simp [process_wait, process_wait_run, process_wait_step, h, hne]
  refine ⟨first, ?_⟩
  intro v hv
  apply first
  have hinv := wait_inv_reachable cur tid status t0 c0 c
    (wait_inv_start cur tid status t0 c0 hppc hcpc hlog hchild hlink hwait hreap) hreach
  have hc := hinv.child
  rw [hv] at hc
  cases hcp : c.cpc with
  | gone => left; rw [hc, hcp]; rfl
  | _ =>
    right
    rw [hcp] at hc
    exact ⟨_, hc, by simpa [link_at] using fun h => hcur h.symm⟩

/-- Instance of C3's theorem: waiting on an id that names no thread, and waiting
a second time on child 3 after it was reaped. -/
theorem process_wait_rejects_witness :
    process_wait 1 5 cfg_start = .returned (-1) { cfg_start with ppc := .returned (-1) } ∧
    process_wait 1 3 cfg_waited = .returned (-1) { cfg_waited with ppc := .returned (-1) } :=
  ⟨(process_wait_rejects 1 3 7 child_3 cfg_start cfg_waited (by decide) rfl rfl rfl rfl rfl rfl rfl
      cfg_waited_reachable).1 1 5 cfg_start (Or.inl (by decide)),
   (process_wait_rejects 1 3 7 child_3 cfg_start cfg_waited (by decide) rfl rfl rfl rfl rfl rfl rfl
      cfg_waited_reachable).2 7 rfl⟩

/-! ## Order of exit -/

theorem mmap_overlap_nil (vm : Vm) (h : vm.spt = []) (addr : Nat) :
    ∀ n i, mmap_overlap vm addr n i = false := by
  intro n
  induction n with
  | zero => intro i; rfl
  | succ n ih =>
    intro i
    simp [mmap_overlap, spt_find_page, h, ih]

theorem mmap_overlap_true (vm : Vm) (addr : Nat) :
    ∀ n i j, i ≤ j → j < i + n → (spt_find_page vm ((addr + PGSIZE * j) % U64)).isSome = true →
      mmap_overlap vm addr n i = true := by
  intro n
  induction n with
  | zero => intro i j h1 h2; omega
  | succ n ih =>
    intro i j h1 h2 h3
    unfold mmap_overlap
    by_cases hij : i = j
    · subst hij; simp [h3]
    · split
      · rfl
      · exact ih (i + 1) j (by omega) (by omega) h3

theorem to_int32_small (x : Nat) (h : x < 2 ^ 31) : to_int32 x = (x : Int) := by
  unfold to_int32 U32
  have : x % 2 ^ 32 = x := Nat.mod_eq_of_lt (by omega)
  rw [this, if_pos h]

/-- Overlap is rejected without side effects whenever the page count fits an
`int`: if some covered page `addr + i * PGSIZE`, `i < ceil (length / PGSIZE)`,
has an entry, `do_mmap` returns NULL and the state is unchanged. -/
theorem do_mmap_overlap_rejected (vm : Vm) (alloc : Alloc) (addr length : Nat) (writable : Bool)
    (file : Option File) (offset : Int) (i : Nat)
    (hsmall : (length - 1) / PGSIZE + 1 < 2 ^ 31)
    (hi : i < (length - 1) / PGSIZE + 1)
    (hp : (spt_find_page vm ((addr + PGSIZE * i) % U64)).isSome = true) :
    do_mmap vm alloc addr length writable file offset = .ret none vm := by
  unfold do_mmap
  cases file with
  | none => rfl
  | some f =>
    simp only
    split
    · rfl
    · rw [to_int32_small _ hsmall]
      have : mmap_overlap vm addr ((((length - 1) / PGSIZE + 1 : Nat) : Int)).toNat 0 = true := by
        rw [Int.toNat_ofNat]
        exact mmap_overlap_true vm addr _ 0 i (by omega) (by omega) hp
      rw [if_pos this]

/-- C5, the code at the failing input: with a page already registered at
`0x10000000`, `do_mmap (0x10000000, 2^43, ...)` computes `pg_cnt = -2^31` in
its `int`, so the overlap loop checks nothing; it returns NULL only because
registering the first page fails, with the Mapping Record inserted and the
file re-opened. -/
theorem do_mmap_overlap_unchecked_8TiB :
    do_mmap vm_busy alloc_ok 0x10000000 (2 ^ 43) true (some file_4k) 0 =
      .ret none { vm_busy with
        mmap_hash := [{ addr := 0x10000000, pg_cnt := -2147483648, file := file_4k }],
        reopened := [file_4k] } := by
  decide

/-- C6: `do_mmap` returns NULL and leaves the state (supplemental page table,
mapping table, open handles, file contents) unchanged whenever `file` is null,
`addr` is null, `addr` or `offset` is not page-aligned, `length` is zero, or
`offset` is beyond the end of the file. -/
theorem do_mmap_rejects_bad_arguments (vm : Vm) (alloc : Alloc) (addr length : Nat)
    (writable : Bool) (file : Option File) (offset : Int)
    (h : file = none ∨ addr = 0 ∨ addr % PGSIZE ≠ 0 ∨ offset % (PGSIZE : Int) ≠ 0 ∨ length = 0 ∨
      ∃ f, file = some f ∧ offset > (f.length : Int)) :
    do_mmap vm alloc addr length writable file offset = .ret none vm := by
  unfold do_mmap
  cases file with
  | none => rfl
  | some f =>
    simp only
    rw [if_pos]
    rcases h with h | h | h | h | h | ⟨g, hg, h⟩
    · cases h
    · exact Or.inl h
    · exact Or.inr (Or.inl h)
    · exact Or.inr (Or.inr (Or.inl h))
    · exact Or.inr (Or.inr (Or.inr (Or.inl h)))
    · cases hg
      exact Or.inr (Or.inr (Or.inr (Or.inr h)))

/-- Instance of C6's theorem: an unaligned address, and an offset past the end
of a 4096-byte file. -/
theorem do_mmap_rejects_bad_arguments_witness :
    do_mmap vm_busy alloc_ok 0x20000800 4096 true (some file_4k) 0 = .ret none vm_busy ∧
    do_mmap vm_busy alloc_ok 0x20000000 4096 true (some file_4k) 8192 = .ret none vm_busy :=
  ⟨do_mmap_rejects_bad_arguments vm_busy alloc_ok 0x20000800 4096 true (some file_4k) 0
      (Or.inr (Or.inr (Or.inl (by decide)))),
   do_mmap_rejects_bad_arguments vm_busy alloc_ok 0x20000000 4096 true (some file_4k) 8192
      (Or.inr (Or.inr (Or.inr (Or.inr (Or.inr ⟨file_4k, rfl, by decide⟩)))))⟩

/-- C7, the code at the failing input: `do_mmap (0x10000000, 2^32, ..., offset =
file_length)` succeeds having registered no page (both `uint32_t` counters
are 0) while the Mapping Record says `pg_cnt = 2^20`; the following
`do_munmap (0x10000000)` dereferences the NULL that `spt_find_page` returns. -/
theorem do_munmap_faults_after_4GiB_mmap :
    do_mmap vm_empty alloc_ok 0x10000000 (2 ^ 32) true (some file_4k) 4096 =
      .ret (some 0x10000000) { vm_empty with
        mmap_hash := [{ addr := 0x10000000, pg_cnt := 1048576, file := file_4k }],
        reopened := [file_4k] } ∧
    do_munmap { vm_empty with
        mmap_hash := [{ addr := 0x10000000, pg_cnt := 1048576, file := file_4k }],
        reopened := [file_4k] } (fun _ => false) 0x10000000 = .fault := by
  constructor
  · unfold do_mmap
    simp only [mmap_overlap_nil vm_empty rfl]
    decide
  · decide

theorem vm_alloc_keeps (vm vm1 : Vm) (ok : Bool) (type : VmType) (upage : Nat) (writable : Bool)
    (aux : UninitPageArgs)
    (h : vm_alloc_page_with_initializer vm ok type upage writable aux = some vm1) :
    vm1.mmap_hash = vm.mmap_hash ∧ vm1.reopened = vm.reopened ∧ vm1.written = vm.written ∧
    ∃ p, vm1.spt = p :: vm.spt ∧ p.va = upage ∧ p.aux = some aux ∧ p.frame = none := by
  unfold vm_alloc_page_with_initializer at h
  split at h
  · cases h
  · split at h
    · cases h
    · cases h
      exact ⟨rfl, rfl, rfl, _, rfl, rfl, rfl, rfl⟩

theorem mmap_pages_keeps (alloc : Alloc) (addr : Nat) (writable : Bool) :
    ∀ (fuel k : Nat) (vm : Vm) (cur_pg : Nat) (offset : Int) (read_bytes zero_bytes : Nat)
      (res : Option Nat) (vm1 : Vm),
      mmap_pages alloc addr writable fuel k vm cur_pg offset read_bytes zero_bytes = .ret res vm1 →
      vm1.mmap_hash = vm.mmap_hash ∧ vm1.reopened = vm.reopened ∧ vm1.written = vm.written ∧
      ∃ pages, vm1.spt = pages ++ vm.spt ∧ ∀ p ∈ pages, p.frame = none ∧
        ∃ u, p.aux = some u ∧ u.addr = addr := by
  intro fuel
  induction fuel with
  | zero =>
    intro k vm cur_pg offset r z res vm1 h
    unfold mmap_pages at h
    split at h
    · cases h
    · cases h
      exact ⟨rfl, rfl, rfl, [], rfl, by simp⟩
  | succ fuel ih =>
    intro k vm cur_pg offset r z res vm1 h
    unfold mmap_pages at h
    split at h
    · simp only at h
      split at h
      · cases h
      · split at h
        · cases h
          exact ⟨rfl, rfl, rfl, [], rfl, by simp⟩
        · rename_i vm2 hv
          obtain ⟨a1, a2, a3, p, a4, a5, a6, a7⟩ := vm_alloc_keeps _ _ _ _ _ _ _ hv
          obtain ⟨b1, b2, b3, pages, b4, b5⟩ := ih _ _ _ _ _ _ _ _ h
          refine ⟨b1.trans a1, b2.trans a2, b3.trans a3, pages ++ [p], ?_, ?_⟩
          · rw [b4, a4]; simp
          · intro q hq
            rw [List.mem_append] at hq
            rcases hq with hq | hq
            · exact b5 q hq
            · simp at hq
              subst hq
              exact ⟨a7, _, a6, rfl⟩
    · cases h
      exact ⟨rfl, rfl, rfl, [], rfl, by simp⟩

theorem mmap_pages_ends (alloc : Alloc) (addr : Nat) (writable : Bool) :
    ∀ (fuel k : Nat) (vm : Vm) (cur_pg : Nat) (offset : Int) (read_bytes zero_bytes : Nat),
      (read_bytes + zero_bytes) % PGSIZE = 0 → (read_bytes + zero_bytes) / PGSIZE ≤ fuel →
      read_bytes < U32 → zero_bytes < U32 →
      mmap_pages alloc addr writable fuel k vm cur_pg offset read_bytes zero_bytes ≠ .diverge := by
  intro fuel
  induction fuel with
  | zero =>
    intro k vm cur_pg offset r z h1 h2 h3 h4
    unfold mmap_pages
    unfold PGSIZE at h1 h2
    have : ¬ (r > 0 ∨ z > 0) := by omega
    rw [if_neg this]
    simp
  | succ fuel ih =>
    intro k vm cur_pg offset r z h1 h2 h3 h4
    unfold mmap_pages
    split
    · simp only
      split
      · simp
      · split
        · simp
        · apply ih
          · unfold PGSIZE U32 at *
            split <;> omega
          · unfold PGSIZE U32 at *
            split <;> omega
          · exact Nat.mod_lt _ (by unfold U32; positivity)
          · exact Nat.mod_lt _ (by unfold U32; positivity)
    · simp

theorem pg_round_up_mod (n : Nat) : pg_round_up n % PGSIZE = 0 := by
  unfold pg_round_up
  exact Nat.mul_mod_left _ _

/-- The registration loop of `do_mmap` ends: the function returns or faults. -/
theorem do_mmap_ends (vm : Vm) (alloc : Alloc) (addr length : Nat) (writable : Bool)
    (file : Option File) (offset : Int) :
    do_mmap vm alloc addr length writable file offset ≠ .diverge := by
  unfold do_mmap
  cases file with
  | none => simp
  | some f =>
    simp only
    split
    · simp
    · split
      · simp
      · split
        · simp
        · apply mmap_pages_ends
          · have h := pg_round_up_mod length
            generalize pg_round_up length = pu at h
            generalize (if length < (((f.length : Int) - offset) % (U64 : Int)).toNat then length
              else (((f.length : Int) - offset) % (U64 : Int)).toNat) = rb
            unfold PGSIZE U32 U64 at *
            omega
          · omega
          · exact Nat.mod_lt _ (by unfold U32; positivity)
          · exact Nat.mod_lt _ (by unfold U32; positivity)

/-- C9, the code at the failing input: `do_mmap (0x10000000, 8192, ...)` of a
4096-byte file on empty tables, where registering the second page fails.  The
call returns NULL and the tables differ from their state before the call: the
first page, the Mapping Record (counting two pages) and the re-opened handle
remain.  A `do_munmap (0x10000000)` then finds that record and dereferences
the NULL that `spt_find_page` returns for the second page. -/
theorem do_mmap_failure_not_unwound :
    do_mmap vm_empty alloc_second_page_fails 0x10000000 8192 true (some file_4k) 0 =
      .ret none vm_half_mapped ∧
    vm_half_mapped.spt ≠ vm_empty.spt ∧ vm_half_mapped.mmap_hash ≠ vm_empty.mmap_hash ∧
    vm_half_mapped.reopened ≠ vm_empty.reopened ∧
    (hash_find vm_half_mapped.mmap_hash 0x10000000).isSome = true ∧
    do_munmap vm_half_mapped (fun _ => false) 0x10000000 = .fault := by
  decide

/-- The write-back step on a resolved file-backed page (it has a frame) whose
Mapping Record is in the table of the current thread, and whose `file_page`
was filled by `file_backed_initializer` from the arguments `upargs` registered
for it.  `file_backed_write_back` leaves the file alone when the page is dirty
neither in the hardware table nor in the frame's retained entry, and otherwise
issues exactly one write: the first `upargs.page_read_bytes` bytes of the frame
at offset `upargs.ofs`.  `file_backed_swap_out` is that step on the record's
file, and the page loop of `do_munmap` runs it on a resolved page it finds. -/
theorem write_back_iff_dirty (vm : Vm) (pml4_is_dirty : Nat → Bool) (page fresh resolved : Page)
    (frame : Frame) (upargs : UninitPageArgs) (me : MmapElem)
    (hreg : fresh.aux = some upargs)
    (hinit : file_backed_initializer fresh = some resolved)
    (hfile : page.file = resolved.file)
    (hframe : page.frame = some frame)
    (hme : hash_find vm.mmap_hash page.file.addr = some me) :
    (file_backed_write_back vm pml4_is_dirty page (some me.file) =
      some (if pml4_is_dirty page.va || frame.kpte_dirty then
          { vm with written := vm.written ++
            [{ file := me.file, ofs := upargs.ofs,
               bytes := frame.kva.take upargs.page_read_bytes }] }
        else vm)) ∧
    file_backed_swap_out vm pml4_is_dirty page =
      file_backed_write_back vm pml4_is_dirty page (some me.file) ∧
    (∀ (addr n i : Nat), spt_find_page vm ((addr + PGSIZE * i) % U64) = some page →
      munmap_pages pml4_is_dirty me addr (n + 1) i vm =
        (file_backed_write_back vm pml4_is_dirty page (some me.file)).bind
          (fun vm1 => munmap_pages pml4_is_dirty me addr n (i + 1) (spt_remove_page vm1 page))) ∧
    (∀ vm1, file_backed_write_back vm pml4_is_dirty page (some me.file) = some vm1 →
      (vm1.written = vm.written ↔ (pml4_is_dirty page.va || frame.kpte_dirty) = false)) := by
  have hf : page.file.ofs = upargs.ofs ∧ page.file.page_read_bytes = upargs.page_read_bytes := by
    unfold file_backed_initializer at hinit
    rw [hreg] at hinit
    simp only [Option.some.injEq] at hinit
    rw [hfile, ← hinit]
    exact ⟨rfl, rfl⟩
  have hwb : file_backed_write_back vm pml4_is_dirty page (some me.file) =
      some (if pml4_is_dirty page.va || frame.kpte_dirty then
          { vm with written := vm.written ++
            [{ file := me.file, ofs := upargs.ofs,
               bytes := frame.kva.take upargs.page_read_bytes }] }
        else vm) := by
    unfold file_backed_write_back
    rw [hframe]
    simp only [hf.1, hf.2]
    split <;> rfl
  refine ⟨hwb, ?_, ?_, ?_⟩
  · unfold file_backed_swap_out get_file_from_hash
    rw [hme]
    rfl
  · intro addr n i hfind
    rw [munmap_pages, hfind]
    simp only [hframe, Option.isSome_some, if_true]
    cases file_backed_write_back vm pml4_is_dirty page (some me.file) <;> rfl
  · intro vm1 h1
    rw [hwb] at h1
    simp only [Option.some.injEq] at h1
    subst h1
    cases hd : (pml4_is_dirty page.va || frame.kpte_dirty)
    · simp
    · simp

/-- A page dirty in the frame's entry only, registered with 3 bytes at offset
8192, is written back as those 3 bytes at 8192. -/
theorem write_back_iff_dirty_witness :
    file_backed_write_back vm_one_mapping (fun _ => false) page_resolved (some file_4k) =
      some { vm_one_mapping with written := [{ file := file_4k, ofs := 8192, bytes := [7, 8, 9] }] } :=
  (write_back_iff_dirty vm_one_mapping (fun _ => false) page_resolved page_fresh
    { page_resolved with frame := none }
    { kva := [7, 8, 9, 0, 0], kpte_dirty := true }
    { addr := 0x10000000, ofs := 8192, page_read_bytes := 3, page_zero_bytes := 4093 }
    { addr := 0x10000000, pg_cnt := 1, file := file_4k } rfl rfl rfl rfl rfl).1

theorem find_cons_ne (vm : Vm) (p : Page) (va : Nat) (h : p.va ≠ va) :
    spt_find_page { vm with spt := p :: vm.spt } va = spt_find_page vm va := by
  unfold spt_find_page
  simp only [List.find?_cons]
  have : (p.va == va) = false := by simpa using h
  rw [this]

theorem mmap_pages_registers (alloc : Alloc) (addr : Nat) (writable : Bool) :
    ∀ (n fuel k : Nat) (vm : Vm) (cur_pg : Nat) (offset : Int) (read_bytes zero_bytes : Nat),
      n ≤ fuel → read_bytes + zero_bytes = PGSIZE * n → read_bytes < U32 → zero_bytes < U32 →
      cur_pg < U64 → PGSIZE * n < U64 →
      (∀ j, j < n → alloc.upargs (k + j) = true ∧ alloc.page (k + j) = true) →
      (∀ j, j < n → spt_find_page vm ((cur_pg + PGSIZE * j) % U64) = none) →
      mmap_pages alloc addr writable fuel k vm cur_pg offset read_bytes zero_bytes =
        .ret (some addr)
          { vm with spt := mmap_registered addr writable n cur_pg offset read_bytes ++ vm.spt } := by
  intro n
  induction n with
  | zero =>
    intro fuel k vm cur_pg offset r z _ hsum _ _ _ _ _ _
    have hr : ¬ (r > 0 ∨ z > 0) := by omega
    cases fuel <;> simp [mmap_pages, hr, mmap_registered]
  | succ n ih =>
    intro fuel k vm cur_pg offset r z hfuel hsum hr hz hcur hn halloc hfree
    obtain ⟨fuel, rfl⟩ : ∃ f, fuel = f + 1 := ⟨fuel - 1, by omega⟩
    have hpos : r > 0 ∨ z > 0 := by unfold PGSIZE at hsum; omega
    have h0 := halloc 0 (by omega)
    have hf0 := hfree 0 (by omega)
    simp only [Nat.mul_zero, Nat.add_zero, Nat.mod_eq_of_lt hcur] at h0 hf0
    have hprb : (if r < PGSIZE then r else PGSIZE) = min r PGSIZE := by
      unfold PGSIZE; split <;> omega
    rw [mmap_pages, if_pos hpos]
    simp only [h0.1, h0.2, hprb, Bool.not_true, Bool.false_eq_true, if_false,
      vm_alloc_page_with_initializer, hf0, Option.isSome_none]
    have hr1 : (r + U32 - min r PGSIZE) % U32 = r - min r PGSIZE := by
      unfold U32 PGSIZE at *; omega
    have hz1 : (z + U32 - (PGSIZE - min r PGSIZE)) % U32 = z - (PGSIZE - min r PGSIZE) := by
      unfold U32 PGSIZE at *; omega
    rw [hr1, hz1]
    rw [ih fuel (k + 1) _ ((cur_pg + PGSIZE) % U64) (to_off_t (offset + PGSIZE)) (r - min r PGSIZE)
      (z - (PGSIZE - min r PGSIZE)) (by omega) (by unfold PGSIZE at *; omega) (by omega)
      (by omega) (Nat.mod_lt _ (by unfold U64; positivity)) (by unfold PGSIZE at *; omega)]
    · simp [mmap_registered, mmap_page]
    · intro j hj
      have := halloc (j + 1) (by omega)
      rw [show k + 1 + j = k + (j + 1) by omega]
      exact this
    · intro j hj
      have e : ((cur_pg + PGSIZE) % U64 + PGSIZE * j) % U64 = (cur_pg + PGSIZE * (j + 1)) % U64 := by
        rw [Nat.mod_add_mod]
        congr 1
        ring
      rw [e, find_cons_ne]
      · exact hfree (j + 1) (by omega)
      · show cur_pg ≠ (cur_pg + PGSIZE * (j + 1)) % U64
        unfold PGSIZE U64 at *
        omega

theorem mmap_overlap_false (vm : Vm) (addr : Nat) :
    ∀ n i, mmap_overlap vm addr n i = false →
      ∀ j, i ≤ j → j < i + n → spt_find_page vm ((addr + PGSIZE * j) % U64) = none := by
  intro n
  induction n with
  | zero => intro i _ j h1 h2; omega
  | succ n ih =>
    intro i h j h1 h2
    unfold mmap_overlap at h
    split at h
    · cases h
    · rename_i hnone
      by_cases hij : j = i
      · subst hij
        simpa using hnone
      · exact ih (i + 1) h j (by omega) (by omega)

/-- A `do_mmap` of at most `2^32 - PGSIZE` bytes whose checks pass and whose
allocations succeed returns `addr`, having registered one page per covered
page, inserted the Mapping Record and re-opened the file. -/
theorem do_mmap_registers (vm : Vm) (alloc : Alloc) (addr length : Nat) (writable : Bool)
    (f : File) (offset : Int)
    (hargs : ¬ (addr = 0 ∨ addr % PGSIZE ≠ 0 ∨ offset % (PGSIZE : Int) ≠ 0 ∨ length = 0 ∨
      offset > (f.length : Int)))
    (hsmall : length ≤ U32 - PGSIZE) (haddr : addr < U64)
    (hfree : mmap_overlap vm addr (page_count length) 0 = false)
    (hme : alloc.me = true)
    (halloc : ∀ k, alloc.upargs k = true ∧ alloc.page k = true) :
    do_mmap vm alloc addr length writable (some f) offset =
      .ret (some addr) (mmap_done vm addr length writable f offset) := by
  have hlen : 0 < length := by
    rcases Nat.eq_zero_or_pos length with h | h
    · exact absurd (Or.inr (Or.inr (Or.inr (Or.inl h)))) hargs
    · exact h
  have hcnt : page_count length < 2 ^ 31 := by
    unfold page_count U32 PGSIZE at *; omega
  have hpg : to_int32 ((length - 1) / PGSIZE + 1) = ((page_count length : Nat) : Int) :=
    to_int32_small _ hcnt
  have hup : pg_round_up length = PGSIZE * page_count length := by
    unfold pg_round_up page_count U64 U32 PGSIZE at *; omega
  unfold do_mmap
  simp only [if_neg hargs, hpg, Int.toNat_ofNat, hfree, hme, Bool.not_true, Bool.false_eq_true,
    if_false]
  have hrb : (if length < (((f.length : Int) - offset) % (U64 : Int)).toNat then length
      else (((f.length : Int) - offset) % (U64 : Int)).toNat) = mmap_read_bytes length f offset := by
    unfold mmap_read_bytes
    split <;> omega
  rw [hrb, hup]
  have hle : mmap_read_bytes length f offset ≤ length := Nat.min_le_left _ _
  have hmod : mmap_read_bytes length f offset % U32 = mmap_read_bytes length f offset :=
    Nat.mod_eq_of_lt (by unfold U32 PGSIZE at *; omega)
  have hcl : length ≤ PGSIZE * page_count length := by
    unfold page_count PGSIZE; omega
  have hcu : PGSIZE * page_count length < U32 := by
    unfold page_count U32 PGSIZE at *; omega
  have hz : (PGSIZE * page_count length + U64 - mmap_read_bytes length f offset) % U64 % U32 =
      PGSIZE * page_count length - mmap_read_bytes length f offset := by
    unfold U64 U32 at *; omega
  rw [hmod, hz]
  rw [mmap_pages_registers alloc addr writable (page_count length) _ 0 _ addr offset
    (mmap_read_bytes length f offset)
    (PGSIZE * page_count length - mmap_read_bytes length f offset)
    (by
      have : mmap_read_bytes length f offset +
          (PGSIZE * page_count length - mmap_read_bytes length f offset) =
          PGSIZE * page_count length := by omega
      rw [this, Nat.mul_div_cancel_left _ (by unfold PGSIZE; omega)]
      omega)
    (by omega) (by unfold U32 PGSIZE at *; omega) (by omega) haddr
    (by unfold U64 U32 at *; omega)
    (fun j _ => by simpa using halloc j)
    (fun j hj => by
      have := mmap_overlap_false vm addr _ 0 hfree j (by omega) (by omega)
      simpa [spt_find_page] using this)]
  rfl

theorem write_back_keeps (vm vm1 : Vm) (d : Nat → Bool) (page : Page) (file : Option File)
    (h : file_backed_write_back vm d page file = some vm1) :
    vm1.spt = vm.spt ∧ vm1.mmap_hash = vm.mmap_hash ∧ vm1.reopened = vm.reopened ∧
    ∃ ws, vm1.written = vm.written ++ ws ∧ (page.frame = none → ws = []) := by
  unfold file_backed_write_back at h
  split at h
  · cases h
  · rename_i fr hfr
    simp only at h
    split at h
    · split at h
      · cases h
      · cases h
        exact ⟨rfl, rfl, rfl, _, rfl, fun hn => by rw [hn] at hfr; cases hfr⟩
    · cases h
      exact ⟨rfl, rfl, rfl, [], by simp, fun _ => rfl⟩

theorem find_filter_ne (l : List Page) (a b : Nat) (h : a ≠ b) :
    (l.filter (fun p => p.va != a)).find? (fun p => p.va == b) = l.find? (fun p => p.va == b) := by
  induction l with
  | nil => rfl
  | cons p l ih =>
    by_cases hp : p.va = a
    · have h1 : (p.va != a) = false := by simp [hp]
      have h2 : (p.va == b) = false := by simp [hp, h]
      rw [List.filter_cons_of_neg (by simp [h1]), List.find?_cons, h2]
      exact ih
    · have h1 : (p.va != a) = true := by simpa using hp
      simp only [List.filter_cons, h1, if_true, List.find?_cons, ih]

theorem mmap_va_ne (addr i j : Nat) (hi : PGSIZE * i < U64)
    (hj : PGSIZE * j < U64) (hij : i ≠ j) :
    (addr + PGSIZE * i) % U64 ≠ (addr + PGSIZE * j) % U64 := by
  unfold PGSIZE U64 at *
  omega

theorem munmap_pages_spec (d : Nat → Bool) (me : MmapElem) (addr : Nat) :
    ∀ (n i : Nat) (vm : Vm), PGSIZE * (i + n) < U64 →
      (∀ j, i ≤ j → j < i + n → (spt_find_page vm ((addr + PGSIZE * j) % U64)).isSome = true) →
      ∃ ws, munmap_pages d me addr n i vm =
          some { vm with spt := unmapped addr n i vm.spt, written := vm.written ++ ws } ∧
        ((∀ p ∈ vm.spt, (∃ j, i ≤ j ∧ j < i + n ∧ p.va = (addr + PGSIZE * j) % U64) →
          p.frame = none) → ws = []) := by
  intro n
  induction n with
  | zero =>
    intro i vm _ _
    exact ⟨[], by simp [munmap_pages, unmapped], fun _ => rfl⟩
  | succ n ih =>
    intro i vm hb hfound
    have h0 := hfound i (le_refl _) (by omega)
    obtain ⟨page, hpage⟩ := Option.isSome_iff_exists.mp h0
    have hva : page.va = (addr + PGSIZE * i) % U64 := by
      unfold spt_find_page at hpage
      have := List.find?_some hpage
      simpa using this
    have hmem : page ∈ vm.spt := by
      unfold spt_find_page at hpage
      exact List.mem_of_find?_eq_some hpage
    rw [munmap_pages, hpage]
    simp only
    have hwb : ∃ vm1, (if page.frame.isSome = true then
          file_backed_write_back vm d page (some me.file) else some vm) = some vm1 ∧
        vm1.spt = vm.spt ∧ vm1.mmap_hash = vm.mmap_hash ∧ vm1.reopened = vm.reopened ∧
        ∃ ws, vm1.written = vm.written ++ ws ∧ (page.frame = none → ws = []) := by
      cases hfr : page.frame with
      | none => exact ⟨vm, by simp, rfl, rfl, rfl, [], by simp, fun _ => rfl⟩
      | some fr =>
        simp only [Option.isSome_some, if_true]
        cases hw : file_backed_write_back vm d page (some me.file) with
        | none =>
          unfold file_backed_write_back at hw
          rw [hfr] at hw
          simp only at hw
          split at hw <;> cases hw
        | some vm1 =>
          have := write_back_keeps vm vm1 d page (some me.file) hw
          rw [hfr] at this
          exact ⟨vm1, rfl, this⟩
    obtain ⟨vm1, hstep, hs1, hs2, hs3, ws1, hs4, hs5⟩ := hwb
    rw [hstep]
    simp only
    have hnext : ∀ j, i + 1 ≤ j → j < i + 1 + n →
        (spt_find_page (spt_remove_page vm1 page) ((addr + PGSIZE * j) % U64)).isSome = true := by
      intro j h1 h2
      unfold spt_find_page spt_remove_page
      simp only
      rw [hs1, hva, find_filter_ne _ _ _
        (mmap_va_ne addr i j (by unfold PGSIZE at *; omega)
          (by unfold PGSIZE at *; omega) (by omega))]
      exact hfound j (by omega) (by omega)
    obtain ⟨ws2, hrun, hws2⟩ := ih (i + 1) (spt_remove_page vm1 page)
      (by rw [show i + 1 + n = i + (n + 1) by omega]; exact hb) hnext
    refine ⟨ws1 ++ ws2, ?_, ?_⟩
    · rw [hrun]
      simp only [spt_remove_page, unmapped, hs1, hs2, hs3, hs4, hva, List.append_assoc]
    · intro hall
      have h1 := hs5 (hall page hmem ⟨i, le_refl _, by omega, hva⟩)
      have h2 := hws2 (by
        intro p hp hj
        simp only [spt_remove_page, hs1] at hp
        obtain ⟨j, hj1, hj2, hj3⟩ := hj
        exact hall p (List.mem_of_mem_filter hp) ⟨j, by omega, by omega, hj3⟩)
      rw [h1, h2]
      rfl

theorem unmapped_append (addr : Nat) : ∀ (n i : Nat) (l1 l2 : List Page),
    unmapped addr n i (l1 ++ l2) = unmapped addr n i l1 ++ unmapped addr n i l2 := by
  intro n
  induction n with
  | zero => intro i l1 l2; rfl
  | succ n ih => intro i l1 l2; simp only [unmapped, List.filter_append, ih]

theorem unmapped_keeps (addr : Nat) : ∀ (n i : Nat) (l : List Page),
    (∀ p ∈ l, ∀ j, i ≤ j → j < i + n → p.va ≠ (addr + PGSIZE * j) % U64) →
    unmapped addr n i l = l := by
  intro n
  induction n with
  | zero => intro i l _; rfl
  | succ n ih =>
    intro i l h
    have hf : l.filter (fun p => p.va != (addr + PGSIZE * i) % U64) = l := by
      rw [List.filter_eq_self]
      intro p hp
      simpa using h p hp i (le_refl _) (by omega)
    rw [unmapped, hf]
    exact ih (i + 1) l (fun p hp j h1 h2 => h p hp j (by omega) (by omega))

theorem unmapped_sub (addr : Nat) : ∀ (n i : Nat) (l : List Page) (p : Page),
    p ∈ unmapped addr n i l → p ∈ l ∧ ∀ j, i ≤ j → j < i + n → p.va ≠ (addr + PGSIZE * j) % U64 := by
  intro n
  induction n with
  | zero => intro i l p hp; exact ⟨hp, fun j h1 h2 => by omega⟩
  | succ n ih =>
    intro i l p hp
    rw [unmapped] at hp
    obtain ⟨h1, h2⟩ := ih (i + 1) _ p hp
    have h3 := List.mem_filter.mp h1
    refine ⟨h3.1, ?_⟩
    intro j hj1 hj2
    by_cases hji : j = i
    · subst hji; simpa using h3.2
    · exact h2 j (by omega) (by omega)

theorem mmap_registered_va (addr : Nat) (writable : Bool) : ∀ (n cur_pg : Nat) (ofs : Int)
    (r : Nat) (p : Page), cur_pg < U64 → p ∈ mmap_registered addr writable n cur_pg ofs r →
    p.frame = none ∧ ∃ j, j < n ∧ p.va = (cur_pg + PGSIZE * j) % U64 := by
  intro n
  induction n with
  | zero => intro cur_pg ofs r p _ hp; simp [mmap_registered] at hp
  | succ n ih =>
    intro cur_pg ofs r p hcur hp
    rw [mmap_registered, List.mem_append] at hp
    rcases hp with hp | hp
    · obtain ⟨h1, j, hj, h2⟩ := ih _ _ _ p (Nat.mod_lt _ (by unfold U64; positivity)) hp
      refine ⟨h1, j + 1, by omega, ?_⟩
      rw [h2, Nat.mod_add_mod]
      congr 1
      ring
    · simp only [List.mem_singleton] at hp
      subst hp
      refine ⟨rfl, 0, by omega, ?_⟩
      simp only [mmap_page, Nat.mul_zero, Nat.add_zero]
      exact (Nat.mod_eq_of_lt hcur).symm

theorem unmapped_find (addr : Nat) (n : Nat) (l : List Page) (j : Nat) (hj : j < n) :
    (unmapped addr n 0 l).find? (fun p => p.va == (addr + PGSIZE * j) % U64) = none := by
  rw [List.find?_eq_none]
  intro p hp
  have := (unmapped_sub addr n 0 l p hp).2 j (by omega) (by omega)
  simpa using this

theorem hash_find_delete (h : List MmapElem) (addr : Nat) :
    hash_find (hash_delete h addr) addr = none := by
  unfold hash_find hash_delete
  rw [List.find?_eq_none]
  intro e he
  have := (List.mem_filter.mp he).2
  simpa using this

theorem hash_delete_fresh (h : List MmapElem) (addr : Nat) (hnew : hash_find h addr = none) :
    hash_delete h addr = h := by
  unfold hash_find at hnew
  unfold hash_delete
  rw [List.filter_eq_self]
  intro e he
  have := List.find?_eq_none.mp hnew e he
  simpa using this

theorem to_off_t_add (a b : Int) : to_off_t (to_off_t a + b) = to_off_t (a + b) := by
  unfold to_off_t
  omega

theorem to_off_t_small (a : Int) (h1 : -2 ^ 31 ≤ a) (h2 : a < 2 ^ 31) : to_off_t a = a := by
  unfold to_off_t
  omega

/-- The `j`-th page that `do_mmap` registers: its address, file offset and
read/zero split. -/
theorem mmap_registered_has (addr : Nat) (writable : Bool) : ∀ (n cur_pg : Nat) (ofs : Int)
    (r j : Nat), cur_pg < U64 → j < n →
    mmap_page addr writable ((cur_pg + PGSIZE * j) % U64)
      (if j = 0 then ofs else to_off_t (ofs + PGSIZE * j))
      (min (r - PGSIZE * j) PGSIZE) ∈ mmap_registered addr writable n cur_pg ofs r := by
  intro n
  induction n with
  | zero => intro cur_pg ofs r j _ hj; omega
  | succ n ih =>
    intro cur_pg ofs r j hcur hj
    rw [mmap_registered, List.mem_append]
    cases j with
    | zero =>
      right
      simp [Nat.mod_eq_of_lt hcur]
    | succ j =>
      left
      have := ih ((cur_pg + PGSIZE) % U64) (to_off_t (ofs + PGSIZE)) (r - min r PGSIZE) j
        (Nat.mod_lt _ (by unfold U64; positivity)) (by omega)
      have e1 : ((cur_pg + PGSIZE) % U64 + PGSIZE * j) % U64 =
          (cur_pg + PGSIZE * (j + 1)) % U64 := by
        rw [Nat.mod_add_mod]
        congr 1
        ring
      have e2 : (if j = 0 then to_off_t (ofs + (PGSIZE : Int))
            else to_off_t (to_off_t (ofs + (PGSIZE : Int)) + (PGSIZE : Int) * (j : Int))) =
          to_off_t (ofs + (PGSIZE : Int) * ((j + 1 : Nat) : Int)) := by
        split
        · rename_i h0
          subst h0
          simp
        · rw [to_off_t_add]
          congr 1
          push_cast
          ring
      have e3 : min (r - min r PGSIZE - PGSIZE * j) PGSIZE =
          min (r - PGSIZE * (j + 1)) PGSIZE := by
        unfold PGSIZE; omega
      rw [e1, e2, e3] at this
      rw [if_neg (by omega)]
      exact this

/-- With the record of a mapping in the table and every page of it registered,
`do_munmap` returns, having removed exactly those pages and the record and
closed the record's handle. -/
theorem do_munmap_removes (vm : Vm) (d : Nat → Bool) (addr : Nat) (me : MmapElem)
    (hrec : hash_find vm.mmap_hash addr = some me)
    (hsize : PGSIZE * me.pg_cnt.toNat < U64)
    (hpages : ∀ j, j < me.pg_cnt.toNat →
      (spt_find_page vm ((addr + PGSIZE * j) % U64)).isSome = true) :
    ∃ ws, do_munmap vm d addr =
        .done { spt := unmapped addr me.pg_cnt.toNat 0 vm.spt,
                mmap_hash := hash_delete vm.mmap_hash addr,
                reopened := vm.reopened.erase me.file,
                written := vm.written ++ ws } ∧
      ((∀ p ∈ vm.spt, (∃ j, j < me.pg_cnt.toNat ∧ p.va = (addr + PGSIZE * j) % U64) →
        p.frame = none) → ws = []) := by
  obtain ⟨ws, hrun, hws⟩ := munmap_pages_spec d me addr me.pg_cnt.toNat 0 vm
    (by simpa using hsize) (fun j _ hj => hpages j (by omega))
  refine ⟨ws, ?_, ?_⟩
  · unfold do_munmap
    rw [hrec]
    simp only [hrun]
  · intro h
    apply hws
    intro p hp hj
    obtain ⟨j, _, hj2, hj3⟩ := hj
    exact h p hp ⟨j, by omega, hj3⟩

theorem mmap_overlap_of_none (vm : Vm) (addr : Nat) :
    ∀ n i, (∀ j, i ≤ j → j < i + n → spt_find_page vm ((addr + PGSIZE * j) % U64) = none) →
      mmap_overlap vm addr n i = false := by
  intro n
  induction n with
  | zero => intro i _; rfl
  | succ n ih =>
    intro i h
    rw [mmap_overlap, h i (le_refl _) (by omega)]
    simp only [Option.isSome_none, Bool.false_eq_true, if_false]
    exact ih (i + 1) (fun j h1 h2 => h j (by omega) (by omega))

/-- The statement of C7 where the byte counters of `do_mmap` do not wrap
(`length <= 2^32 - PGSIZE`) and no record keyed by `addr` was left behind: the
call succeeds; `do_munmap (addr)` right after it restores the state exactly;
in any later state that still has the record and the pages, `do_munmap (addr)`
leaves no page of the range and no record; and the same `do_mmap` then succeeds
again. -/
theorem do_mmap_munmap_roundtrip (vm : Vm) (alloc : Alloc) (d : Nat → Bool) (addr length : Nat)
    (writable : Bool) (f : File) (offset : Int)
    (hargs : ¬ (addr = 0 ∨ addr % PGSIZE ≠ 0 ∨ offset % (PGSIZE : Int) ≠ 0 ∨ length = 0 ∨
      offset > (f.length : Int)))
    (hsmall : length ≤ U32 - PGSIZE) (haddr : addr < U64)
    (hfree : mmap_overlap vm addr (page_count length) 0 = false)
    (hnew : hash_find vm.mmap_hash addr = none)
    (hme : alloc.me = true)
    (halloc : ∀ k, alloc.upargs k = true ∧ alloc.page k = true) :
    do_mmap vm alloc addr length writable (some f) offset =
      .ret (some addr) (mmap_done vm addr length writable f offset) ∧
    do_munmap (mmap_done vm addr length writable f offset) d addr = .done vm ∧
    ∀ later : Vm,
      hash_find later.mmap_hash addr =
        some { addr := addr, pg_cnt := (page_count length : Nat), file := file_reopen f } →
      (∀ j, j < page_count length →
        (spt_find_page later ((addr + PGSIZE * j) % U64)).isSome = true) →
      ∃ after, do_munmap later d addr = .done after ∧
        (∀ j, j < page_count length →
          spt_find_page after ((addr + PGSIZE * j) % U64) = none) ∧
        hash_find after.mmap_hash addr = none ∧
        do_mmap after alloc addr length writable (some f) offset =
          .ret (some addr) (mmap_done after addr length writable f offset) := by
  have hcnt : PGSIZE * page_count length < U64 := by
    unfold page_count U64 U32 PGSIZE at *; omega
  have hlater : ∀ later : Vm,
      hash_find later.mmap_hash addr =
        some { addr := addr, pg_cnt := (page_count length : Nat), file := file_reopen f } →
      (∀ j, j < page_count length →
        (spt_find_page later ((addr + PGSIZE * j) % U64)).isSome = true) →
      ∃ ws, do_munmap later d addr =
          .done { spt := unmapped addr (page_count length) 0 later.spt,
                  mmap_hash := hash_delete later.mmap_hash addr,
                  reopened := later.reopened.erase (file_reopen f),
                  written := later.written ++ ws } ∧
        ((∀ p ∈ later.spt, (∃ j, j < page_count length ∧ p.va = (addr + PGSIZE * j) % U64) →
          p.frame = none) → ws = []) := by
    intro later hrec hpages
    have := do_munmap_removes later d addr _ hrec (by simpa using hcnt)
      (by simpa using hpages)
    simpa using this
  refine ⟨do_mmap_registers vm alloc addr length writable f offset hargs hsmall haddr hfree hme
    halloc, ?_, ?_⟩
  · have hins : hash_insert vm.mmap_hash
        { addr := addr, pg_cnt := (page_count length : Nat), file := file_reopen f } =
        { addr := addr, pg_cnt := (page_count length : Nat), file := file_reopen f } ::
          vm.mmap_hash := by
      unfold hash_insert
      simp only [hnew, Option.isSome_none, Bool.false_eq_true, if_false]
    have hold := mmap_overlap_false vm addr _ 0 hfree
    obtain ⟨ws, hrun, hws⟩ := hlater (mmap_done vm addr length writable f offset)
      (by simp [mmap_done, hins, hash_find])
      (by
        intro j hj
        unfold spt_find_page
        rw [List.find?_isSome]
        refine ⟨_, List.mem_append_left _ (mmap_registered_has addr writable _ addr offset
          (mmap_read_bytes length f offset) j haddr hj), ?_⟩
        simp [mmap_page])
    rw [hrun]
    have hreg : unmapped addr (page_count length) 0
        (mmap_registered addr writable (page_count length) addr offset
          (mmap_read_bytes length f offset)) = [] := by
      rw [List.eq_nil_iff_forall_not_mem]
      intro p hp
      obtain ⟨h1, h2⟩ := unmapped_sub addr _ 0 _ p hp
      obtain ⟨-, j, hj, hva⟩ := mmap_registered_va addr writable _ _ _ _ p haddr h1
      exact h2 j (by omega) (by omega) hva
    have hkeep : unmapped addr (page_count length) 0 vm.spt = vm.spt := by
      apply unmapped_keeps
      intro p hp j _ hj hva
      have hnone := hold j (by omega) (by omega)
      unfold spt_find_page at hnone
      have := List.find?_eq_none.mp hnone p hp
      simp [hva] at this
    have hws0 : ws = [] := by
      apply hws
      intro p hp hj
      simp only [mmap_done, List.mem_append] at hp
      rcases hp with hp | hp
      · exact (mmap_registered_va addr writable _ _ _ _ p haddr hp).1
      · exfalso
        obtain ⟨j, hj1, hva⟩ := hj
        have hnone := hold j (by omega) (by omega)
        unfold spt_find_page at hnone
        have := List.find?_eq_none.mp hnone p hp
        simp [hva] at this
    have hdel : hash_delete
        ((⟨addr, (page_count length : Nat), file_reopen f⟩ : MmapElem) :: vm.mmap_hash) addr =
        vm.mmap_hash := by
      have := hash_delete_fresh vm.mmap_hash addr hnew
      unfold hash_delete at this ⊢
      rw [List.filter_cons_of_neg (by simp), this]
    simp only [mmap_done, hins, unmapped_append, hreg, hkeep, hws0, hdel, List.nil_append,
      List.append_nil, List.erase_cons_head]
  · intro later hrec hpages
    obtain ⟨ws, hrun, -⟩ := hlater later hrec hpages
    refine ⟨_, hrun, ?_, hash_find_delete _ _, ?_⟩
    · intro j hj
      exact unmapped_find addr _ _ j hj
    · apply do_mmap_registers _ alloc addr length writable f offset hargs hsmall haddr _ hme halloc
      apply mmap_overlap_of_none
      intro j _ hj
      exact unmapped_find addr _ _ j (by omega)

theorem mmap_pages_fails_at (alloc : Alloc) (addr : Nat) (writable : Bool) :
    ∀ (k n fuel i : Nat) (vm : Vm) (cur_pg : Nat) (offset : Int) (read_bytes zero_bytes : Nat),
      k < n → n ≤ fuel → read_bytes + zero_bytes = PGSIZE * n → read_bytes < U32 →
      zero_bytes < U32 → cur_pg < U64 → PGSIZE * n < U64 →
      (∀ j, j < k → alloc.upargs (i + j) = true ∧ alloc.page (i + j) = true) →
      alloc.upargs (i + k) = true → alloc.page (i + k) = false →
      (∀ j, j < k → spt_find_page vm ((cur_pg + PGSIZE * j) % U64) = none) →
      mmap_pages alloc addr writable fuel i vm cur_pg offset read_bytes zero_bytes =
        .ret none
          { vm with spt := mmap_registered addr writable k cur_pg offset read_bytes ++ vm.spt } := by
  intro k
  induction k with
  | zero =>
    intro n fuel i vm cur_pg offset r z hk hfuel hsum hr hz hcur hn _ hu hp _
    obtain ⟨fuel, rfl⟩ : ∃ f, fuel = f + 1 := ⟨fuel - 1, by omega⟩
    have hpos : r > 0 ∨ z > 0 := by unfold PGSIZE at hsum; omega
    rw [Nat.add_zero] at hu hp
    rw [mmap_pages, if_pos hpos]
    have hnone : ∀ aux, vm_alloc_page_with_initializer vm (alloc.page i) .VM_FILE cur_pg writable
        aux = none := by
      intro aux
      unfold vm_alloc_page_with_initializer
      rw [hp]
      split <;> rfl
    simp only [hu, Bool.not_true, Bool.false_eq_true, if_false, hnone]
    simp [mmap_registered]
  | succ k ih =>
    intro n fuel i vm cur_pg offset r z hk hfuel hsum hr hz hcur hn halloc hu hp hfree
    obtain ⟨fuel, rfl⟩ : ∃ f, fuel = f + 1 := ⟨fuel - 1, by omega⟩
    obtain ⟨n, rfl⟩ : ∃ m, n = m + 1 := ⟨n - 1, by omega⟩
    have hpos : r > 0 ∨ z > 0 := by unfold PGSIZE at hsum; omega
    have h0 := halloc 0 (by omega)
    have hf0 := hfree 0 (by omega)
    simp only [Nat.mul_zero, Nat.add_zero, Nat.mod_eq_of_lt hcur] at h0 hf0
    have hprb : (if r < PGSIZE then r else PGSIZE) = min r PGSIZE := by
      unfold PGSIZE; split <;> omega
    rw [mmap_pages, if_pos hpos]
    simp only [h0.1, h0.2, hprb, Bool.not_true, Bool.false_eq_true, if_false,
      vm_alloc_page_with_initializer, hf0, Option.isSome_none]
    have hr1 : (r + U32 - min r PGSIZE) % U32 = r - min r PGSIZE := by
      unfold U32 PGSIZE at *; omega
    have hz1 : (z + U32 - (PGSIZE - min r PGSIZE)) % U32 = z - (PGSIZE - min r PGSIZE) := by
      unfold U32 PGSIZE at *; omega
    rw [hr1, hz1]
    rw [ih n fuel (i + 1) _ ((cur_pg + PGSIZE) % U64) (to_off_t (offset + PGSIZE)) (r - min r PGSIZE)
      (z - (PGSIZE - min r PGSIZE)) (by omega) (by omega) (by unfold PGSIZE at *; omega)
      (by omega) (by omega) (Nat.mod_lt _ (by unfold U64; positivity))
      (by unfold PGSIZE at *; omega)]
    · simp [mmap_registered, mmap_page]
    · intro j hj
      have := halloc (j + 1) (by omega)
      rw [show i + 1 + j = i + (j + 1) by omega]
      exact this
    · rw [show i + 1 + k = i + (k + 1) by omega]; exact hu
    · rw [show i + 1 + k = i + (k + 1) by omega]; exact hp
    · intro j hj
      have e : ((cur_pg + PGSIZE) % U64 + PGSIZE * j) % U64 = (cur_pg + PGSIZE * (j + 1)) % U64 := by
        rw [Nat.mod_add_mod]
        congr 1
        ring
      rw [e, find_cons_ne]
      · exact hfree (j + 1) (by omega)
      · show cur_pg ≠ (cur_pg + PGSIZE * (j + 1)) % U64
        unfold PGSIZE U64 at *
        omega

/-- A `do_mmap` of at most `2^32 - PGSIZE` bytes whose page `k` is the first
whose registration fails returns NULL with the first `k` pages registered, the
Mapping Record inserted and the file re-opened. -/
theorem do_mmap_fails_at (vm : Vm) (alloc : Alloc) (addr length : Nat) (writable : Bool)
    (f : File) (offset : Int) (k : Nat)
    (hargs : ¬ (addr = 0 ∨ addr % PGSIZE ≠ 0 ∨ offset % (PGSIZE : Int) ≠ 0 ∨ length = 0 ∨
      offset > (f.length : Int)))
    (hsmall : length ≤ U32 - PGSIZE) (haddr : addr < U64)
    (hfree : mmap_overlap vm addr (page_count length) 0 = false)
    (hme : alloc.me = true)
    (hk : k < page_count length)
    (hbefore : ∀ j, j < k → alloc.upargs j = true ∧ alloc.page j = true)
    (hupargs : alloc.upargs k = true) (hpage : alloc.page k = false) :
    do_mmap vm alloc addr length writable (some f) offset =
      .ret none
        { vm with
          spt := mmap_registered addr writable k addr offset (mmap_read_bytes length f offset) ++
            vm.spt,
          mmap_hash := hash_insert vm.mmap_hash
            { addr := addr, pg_cnt := (page_count length : Nat), file := file_reopen f },
          reopened := file_reopen f :: vm.reopened } := by
  have hlen : 0 < length := by
    rcases Nat.eq_zero_or_pos length with h | h
    · exact absurd (Or.inr (Or.inr (Or.inr (Or.inl h)))) hargs
    · exact h
  have hcnt : page_count length < 2 ^ 31 := by
    unfold page_count U32 PGSIZE at *; omega
  have hpg : to_int32 ((length - 1) / PGSIZE + 1) = ((page_count length : Nat) : Int) :=
    to_int32_small _ hcnt
  have hup : pg_round_up length = PGSIZE * page_count length := by
    unfold pg_round_up page_count U64 U32 PGSIZE at *; omega
  unfold do_mmap
  simp only [if_neg hargs, hpg, Int.toNat_ofNat, hfree, hme, Bool.not_true, Bool.false_eq_true,
    if_false]
  have hrb : (if length < (((f.length : Int) - offset) % (U64 : Int)).toNat then length
      else (((f.length : Int) - offset) % (U64 : Int)).toNat) = mmap_read_bytes length f offset := by
    unfold mmap_read_bytes
    split <;> omega
  rw [hrb, hup]
  have hle : mmap_read_bytes length f offset ≤ length := Nat.min_le_left _ _
  have hmod : mmap_read_bytes length f offset % U32 = mmap_read_bytes length f offset :=
    Nat.mod_eq_of_lt (by unfold U32 PGSIZE at *; omega)
  have hcl : length ≤ PGSIZE * page_count length := by
    unfold page_count PGSIZE; omega
  have hcu : PGSIZE * page_count length < U32 := by
    unfold page_count U32 PGSIZE at *; omega
  have hz : (PGSIZE * page_count length + U64 - mmap_read_bytes length f offset) % U64 % U32 =
      PGSIZE * page_count length - mmap_read_bytes length f offset := by
    unfold U64 U32 at *; omega
  rw [hmod, hz]
  rw [mmap_pages_fails_at alloc addr writable k (page_count length) _ 0 _ addr offset
    (mmap_read_bytes length f offset)
    (PGSIZE * page_count length - mmap_read_bytes length f offset) hk
    (by
      have : mmap_read_bytes length f offset +
          (PGSIZE * page_count length - mmap_read_bytes length f offset) =
          PGSIZE * page_count length := by omega
      rw [this, Nat.mul_div_cancel_left _ (by unfold PGSIZE; omega)]
      omega)
    (by omega) (by unfold U32 PGSIZE at *; omega) (by omega) haddr
    (by unfold U64 U32 at *; omega)
    (fun j hj => by simpa using hbefore j hj)
    (by simpa using hupargs) (by simpa using hpage)
    (fun j hj => by
      have := mmap_overlap_false vm addr _ 0 hfree j (by omega) (by omega)
      simpa [spt_find_page] using this)]

/-- What a failed page registration leaves behind: when `do_mmap` returns NULL
after its argument and overlap checks passed and the record was allocated,
the Mapping Record it inserted is in the mapping table, the re-opened handle
is still open, the pages registered before the failure are still in the
supplemental page table in front of the old entries, and nothing was written
to a file (first part).  And it does return NULL: for a length of at most
`2^32 - PGSIZE` bytes, if page `k` is the first whose registration fails, the
call returns NULL in the state that has exactly the first `k` pages, the
record and the handle added (second part). -/
theorem do_mmap_failure_keeps_record (vm : Vm) (alloc : Alloc) (addr length : Nat)
    (writable : Bool) (f : File) (offset : Int)
    (hargs : ¬ (addr = 0 ∨ addr % PGSIZE ≠ 0 ∨ offset % (PGSIZE : Int) ≠ 0 ∨ length = 0 ∨
      offset > (f.length : Int)))
    (hfree : mmap_overlap vm addr (to_int32 ((length - 1) / PGSIZE + 1)).toNat 0 = false)
    (hme : alloc.me = true) :
    (∀ vm1 : Vm, do_mmap vm alloc addr length writable (some f) offset = .ret none vm1 →
      vm1.mmap_hash = hash_insert vm.mmap_hash
        { addr := addr, pg_cnt := to_int32 ((length - 1) / PGSIZE + 1),
          file := file_reopen f } ∧
      (hash_find vm1.mmap_hash addr).isSome = true ∧
      vm1.reopened = file_reopen f :: vm.reopened ∧
      vm1.written = vm.written ∧
      ∃ pages, vm1.spt = pages ++ vm.spt ∧
        ∀ p ∈ pages, p.frame = none ∧ ∃ u, p.aux = some u ∧ u.addr = addr) ∧
    (∀ k : Nat, length ≤ U32 - PGSIZE → addr < U64 → k < page_count length →
      (∀ j, j < k → alloc.upargs j = true ∧ alloc.page j = true) →
      alloc.upargs k = true → alloc.page k = false →
      do_mmap vm alloc addr length writable (some f) offset =
        .ret none
          { vm with
            spt := mmap_registered addr writable k addr offset
              (mmap_read_bytes length f offset) ++ vm.spt,
            mmap_hash := hash_insert vm.mmap_hash
              { addr := addr, pg_cnt := (page_count length : Nat), file := file_reopen f },
            reopened := file_reopen f :: vm.reopened }) := by
  constructor
  · intro vm1 hfail
    unfold do_mmap at hfail
    simp only [if_neg hargs, hfree, hme] at hfail
    obtain ⟨h1, h2, h3, h4⟩ := mmap_pages_keeps _ _ _ _ _ _ _ _ _ _ _ _ hfail
    refine ⟨h1, ?_, h2, h3, h4⟩
    rw [h1]
    unfold hash_insert
    split
    · assumption
    · simp [hash_find]
  · intro k hsmall haddr hk hbefore hupargs hpage
    have hlen : 0 < length := by
      rcases Nat.eq_zero_or_pos length with h | h
      · exact absurd (Or.inr (Or.inr (Or.inr (Or.inl h)))) hargs
      · exact h
    have hcnt : page_count length < 2 ^ 31 := by
      unfold page_count U32 PGSIZE at *; omega
    have hpg : to_int32 ((length - 1) / PGSIZE + 1) = ((page_count length : Nat) : Int) :=
      to_int32_small _ hcnt
    rw [hpg, Int.toNat_ofNat] at hfree
    exact do_mmap_fails_at vm alloc addr length writable f offset k hargs hsmall haddr hfree hme
      hk hbefore hupargs hpage

/-- The second page of a two-page mapping fails to register: the call returns
NULL with the first page, the record and the handle left behind. -/
theorem do_mmap_failure_keeps_record_witness :
    (vm_half_mapped.mmap_hash = hash_insert vm_empty.mmap_hash
      { addr := 0x10000000, pg_cnt := to_int32 ((8192 - 1) / PGSIZE + 1),
        file := file_reopen file_4k } ∧
    (hash_find vm_half_mapped.mmap_hash 0x10000000).isSome = true ∧
    vm_half_mapped.reopened = file_reopen file_4k :: vm_empty.reopened ∧
    vm_half_mapped.written = vm_empty.written ∧
    ∃ pages, vm_half_mapped.spt = pages ++ vm_empty.spt ∧
      ∀ p ∈ pages, p.frame = none ∧ ∃ u, p.aux = some u ∧ u.addr = 0x10000000) ∧
    do_mmap vm_empty alloc_second_page_fails 0x10000000 8192 true (some file_4k) 0 =
      .ret none
        { vm_empty with
          spt := mmap_registered 0x10000000 true 1 0x10000000 0
            (mmap_read_bytes 8192 file_4k 0) ++ vm_empty.spt,
          mmap_hash := hash_insert vm_empty.mmap_hash
            { addr := 0x10000000, pg_cnt := (page_count 8192 : Nat),
              file := file_reopen file_4k },
          reopened := file_reopen file_4k :: vm_empty.reopened } :=
  ⟨(do_mmap_failure_keeps_record vm_empty alloc_second_page_fails 0x10000000 8192 true file_4k 0
      (by decide) (by decide) (by decide)).1 vm_half_mapped (by decide),
   (do_mmap_failure_keeps_record vm_empty alloc_second_page_fails 0x10000000 8192 true file_4k 0
      (by decide) (by decide) (by decide)).2 1 (by decide) (by decide) (by decide) (by decide)
      (by decide) (by decide)⟩

theorem hash_find_insert_ne (h : List MmapElem) (me : MmapElem) (a : Nat) (hne : me.addr ≠ a) :
    hash_find (hash_insert h me) a = hash_find h a := by
  unfold hash_insert
  split
  · rfl
  · unfold hash_find
    rw [List.find?_cons]
    have : (me.addr == a) = false := by simpa using hne
    rw [this]

theorem do_mmap_success (vm vm1 : Vm) (alloc : Alloc) (addr length : Nat) (writable : Bool)
    (f : File) (offset : Int) (r : Nat)
    (h : do_mmap vm alloc addr length writable (some f) offset = .ret (some r) vm1) :
    mmap_overlap vm addr (to_int32 ((length - 1) / PGSIZE + 1)).toNat 0 = false ∧
    vm1.mmap_hash = hash_insert vm.mmap_hash
      { addr := addr, pg_cnt := to_int32 ((length - 1) / PGSIZE + 1), file := file_reopen f } := by
  unfold do_mmap at h
  simp only at h
  split at h
  · cases h
  · split at h
    · cases h
    · rename_i hov
      split at h
      · cases h
      · obtain ⟨h1, -, -, -⟩ := mmap_pages_keeps _ _ _ _ _ _ _ _ _ _ _ _ h
        exact ⟨by simpa using hov, h1⟩

/-- The PANIC of `do_munmap (addr)` is reached exactly when no Mapping Record is
keyed by `addr`, and then the state is unchanged.  Where every record in the
table has its base page registered, the address of page `j > 0` of a mapping
just made by `do_mmap` has no record, so `do_munmap` of it panics; and after
`do_munmap (addr)` has returned, a second `do_munmap (addr)` panics. -/
theorem do_munmap_panics_iff (vm : Vm) (d : Nat → Bool) (addr : Nat) :
    ((∃ vm1, do_munmap vm d addr = .panic vm1) ↔ hash_find vm.mmap_hash addr = none) ∧
    (∀ vm1, do_munmap vm d addr = .panic vm1 → vm1 = vm) ∧
    (∀ (alloc : Alloc) (length : Nat) (writable : Bool) (f : File) (offset : Int) (vm1 : Vm)
      (j : Nat), records_live vm →
      do_mmap vm alloc addr length writable (some f) offset = .ret (some addr) vm1 →
      0 < j → (j : Int) < to_int32 ((length - 1) / PGSIZE + 1) → addr + PGSIZE * j < U64 →
      do_munmap vm1 d (addr + PGSIZE * j) = .panic vm1) ∧
    (∀ vm1, do_munmap vm d addr = .done vm1 → do_munmap vm1 d addr = .panic vm1) := by
  refine ⟨?_, ?_, ?_, ?_⟩
  · unfold do_munmap
    cases hf : hash_find vm.mmap_hash addr with
    | none => simp
    | some me =>
      simp only [reduceCtorEq, iff_false, not_exists]
      intro vm1
      split <;> simp
  · intro vm1
    unfold do_munmap
    cases hf : hash_find vm.mmap_hash addr with
    | none =>
      intro h
      cases h
      rfl
    | some me =>
      simp only
      split <;> simp
  · intro alloc length writable f offset vm1 j hlive hmap hj0 hj hb
    obtain ⟨hov, hrec⟩ := do_mmap_success vm vm1 alloc addr length writable f offset addr hmap
    have hfree := mmap_overlap_false vm addr _ 0 hov j (by omega) (by omega)
    rw [Nat.mod_eq_of_lt hb] at hfree
    have hnone : hash_find vm1.mmap_hash (addr + PGSIZE * j) = none := by
      rw [hrec, hash_find_insert_ne _ _ _ (by
        show addr ≠ addr + PGSIZE * j
        unfold PGSIZE
        omega)]
      cases hf : hash_find vm.mmap_hash (addr + PGSIZE * j) with
      | none => rfl
      | some me =>
        have hmem : me ∈ vm.mmap_hash := List.mem_of_find?_eq_some hf
        have haddr : me.addr = addr + PGSIZE * j := by
          have := List.find?_some hf
          simpa using this
        have := hlive me hmem
        rw [haddr, hfree] at this
        cases this
    unfold do_munmap
    rw [hnone]
  · intro vm1 h
    unfold do_munmap at h
    cases hf : hash_find vm.mmap_hash addr with
    | none =>
      rw [hf] at h
      cases h
    | some me =>
      rw [hf] at h
      simp only at h
      split at h
      · cases h
      · cases h
        unfold do_munmap
        simp only [hash_find_delete]

/-- The second page of a two-page mapping made on empty tables, and a base that
has been unmapped. -/
theorem do_munmap_panics_iff_witness :
    do_munmap vm_two_pages (fun _ => false) 0x10001000 = .panic vm_two_pages ∧
    do_munmap vm_empty (fun _ => false) 0x10000000 = .panic vm_empty :=
  ⟨(do_munmap_panics_iff vm_empty (fun _ => false) 0x10000000).2.2.1 alloc_ok 8192 true file_4k 0
      vm_two_pages 1 (fun _ h => nomatch h) (by decide) (by decide) (by decide) (by decide),
   (do_munmap_panics_iff vm_two_pages (fun _ => false) 0x10000000).2.2.2 vm_empty (by decide)⟩

/-- C17, the code at the failing input: `do_mmap (0x10000000, 2^32 + 4096, ...)`
of a 4096-byte file passes its checks and returns the address with one page
registered, because `zero_bytes = 2^32` is 0 in its `uint32_t`, while the
Mapping Record counts `2^20 + 1` pages; the page at `addr + PGSIZE` does not
exist and `do_munmap` dereferences the NULL that `spt_find_page` returns for
it. -/
theorem do_mmap_registers_one_page_of_4GiB :
    do_mmap vm_empty alloc_ok 0x10000000 (2 ^ 32 + 4096) true (some file_4k) 0 =
      .ret (some 0x10000000) vm_one_of_many ∧
    vm_one_of_many.spt.length = 1 ∧
    hash_find vm_one_of_many.mmap_hash 0x10000000 =
      some { addr := 0x10000000, pg_cnt := 1048577, file := file_4k } ∧
    spt_find_page vm_one_of_many (0x10000000 + PGSIZE * 1) = none ∧
    do_munmap vm_one_of_many (fun _ => false) 0x10000000 = .fault := by
  refine ⟨?_, by decide, by decide, by decide, by decide⟩
  unfold do_mmap
  simp only [mmap_overlap_nil vm_empty rfl]
  decide

theorem mmap_registered_length (addr : Nat) (writable : Bool) :
    ∀ (n cur_pg : Nat) (ofs : Int) (r : Nat),
      (mmap_registered addr writable n cur_pg ofs r).length = n := by
  intro n
  induction n with
  | zero => intro _ _ _; rfl
  | succ n ih => intro cur_pg ofs r; simp [mmap_registered, ih]

/-- A `do_mmap` of at most `2^32 - PGSIZE` bytes whose checks pass and whose
allocations succeed registers as many pages as the Mapping Record counts, and
page `i` is at `addr + i * PGSIZE` with file offset `offset + i * PGSIZE` (as an
`off_t`) and the read/zero split of the remaining bytes. -/
theorem do_mmap_pages_match (vm : Vm) (alloc : Alloc) (addr length : Nat) (writable : Bool)
    (f : File) (offset : Int)
    (hargs : ¬ (addr = 0 ∨ addr % PGSIZE ≠ 0 ∨ offset % (PGSIZE : Int) ≠ 0 ∨ length = 0 ∨
      offset > (f.length : Int)))
    (hsmall : length ≤ U32 - PGSIZE) (haddr : addr < U64)
    (hfree : mmap_overlap vm addr (page_count length) 0 = false)
    (hme : alloc.me = true)
    (halloc : ∀ k, alloc.upargs k = true ∧ alloc.page k = true) :
    do_mmap vm alloc addr length writable (some f) offset =
      .ret (some addr) (mmap_done vm addr length writable f offset) ∧
    (mmap_done vm addr length writable f offset).spt.length =
      page_count length + vm.spt.length ∧
    ∀ i, i < page_count length →
      mmap_page addr writable ((addr + PGSIZE * i) % U64)
        (if i = 0 then offset else to_off_t (offset + PGSIZE * i))
        (min (mmap_read_bytes length f offset - PGSIZE * i) PGSIZE) ∈
          (mmap_done vm addr length writable f offset).spt := by
  refine ⟨do_mmap_registers vm alloc addr length writable f offset hargs hsmall haddr hfree hme
    halloc, ?_, ?_⟩
  · simp [mmap_done, mmap_registered_length]
  · intro i hi
    exact List.mem_append_left _ (mmap_registered_has addr writable _ addr offset _ i haddr hi)

theorem munmap_writes_filter (d : Nat → Bool) (file : File) (addr : Nat) (spt : List Page)
    (k : Nat) : ∀ (n i : Nat), k < i → PGSIZE * (i + n) < U64 →
      munmap_writes d file addr (spt.filter (fun p => p.va != (addr + PGSIZE * k) % U64)) n i =
        munmap_writes d file addr spt n i := by
  intro n
  induction n with
  | zero => intro i _ _; rfl
  | succ n ih =>
    intro i hk hb
    rw [munmap_writes, munmap_writes, ih (i + 1) (by omega) (by
      rw [show i + 1 + n = i + (n + 1) by omega]; exact hb)]
    rw [find_filter_ne _ _ _ (mmap_va_ne addr k i (by unfold PGSIZE at *; omega)
      (by unfold PGSIZE at *; omega) (by omega))]

theorem write_back_some (vm : Vm) (d : Nat → Bool) (page : Page) (file : File) :
    (if page.frame.isSome = true then file_backed_write_back vm d page (some file)
      else some vm) =
      some { vm with written := vm.written ++ page_write d file page } := by
  unfold file_backed_write_back page_write
  cases hfr : page.frame with
  | none => simp
  | some fr =>
    simp only [Option.isSome_some, if_true]
    split <;> simp

theorem munmap_pages_writes (d : Nat → Bool) (me : MmapElem) (addr : Nat) :
    ∀ (n i : Nat) (vm : Vm), PGSIZE * (i + n) < U64 →
      (∀ j, i ≤ j → j < i + n → (spt_find_page vm ((addr + PGSIZE * j) % U64)).isSome = true) →
      munmap_pages d me addr n i vm =
        some { vm with spt := unmapped addr n i vm.spt,
                       written := vm.written ++ munmap_writes d me.file addr vm.spt n i } := by
  intro n
  induction n with
  | zero =>
    intro i vm _ _
    simp [munmap_pages, unmapped, munmap_writes]
  | succ n ih =>
    intro i vm hb hfound
    have h0 := hfound i (le_refl _) (by omega)
    obtain ⟨page, hpage⟩ := Option.isSome_iff_exists.mp h0
    have hva : page.va = (addr + PGSIZE * i) % U64 := by
      unfold spt_find_page at hpage
      have := List.find?_some hpage
      simpa using this
    have hfind : vm.spt.find? (fun p => p.va == (addr + PGSIZE * i) % U64) = some page := hpage
    rw [munmap_pages, hpage]
    simp only
    rw [write_back_some]
    simp only
    have hnext : ∀ j, i + 1 ≤ j → j < i + 1 + n →
        (spt_find_page (spt_remove_page
          { vm with written := vm.written ++ page_write d me.file page } page)
          ((addr + PGSIZE * j) % U64)).isSome = true := by
      intro j h1 h2
      unfold spt_find_page spt_remove_page
      simp only
      rw [hva, find_filter_ne _ _ _
        (mmap_va_ne addr i j (by unfold PGSIZE at *; omega)
          (by unfold PGSIZE at *; omega) (by omega))]
      exact hfound j (by omega) (by omega)
    rw [ih (i + 1) _ (by rw [show i + 1 + n = i + (n + 1) by omega]; exact hb) hnext]
    simp only [spt_remove_page, unmapped, munmap_writes, hfind, hva, List.append_assoc]
    rw [munmap_writes_filter d me.file addr vm.spt i n (i + 1) (by omega)
      (by rw [show i + 1 + n = i + (n + 1) by omega]; exact hb)]

theorem munmap_writes_mem (d : Nat → Bool) (file : File) (addr : Nat) (spt : List Page)
    (w : FileWrite) : ∀ (n i : Nat),
      (w ∈ munmap_writes d file addr spt n i ↔
        ∃ j p fr, i ≤ j ∧ j < i + n ∧
          spt.find? (fun q => q.va == (addr + PGSIZE * j) % U64) = some p ∧
          p.frame = some fr ∧ (d p.va || fr.kpte_dirty) = true ∧
          w = { file := file, ofs := p.file.ofs,
                bytes := fr.kva.take p.file.page_read_bytes }) := by
  intro n
  induction n with
  | zero =>
    intro i
    simp only [munmap_writes, List.not_mem_nil, false_iff]
    rintro ⟨j, _, _, h1, h2, -⟩
    omega
  | succ n ih =>
    intro i
    rw [munmap_writes, List.mem_append, ih (i + 1)]
    constructor
    · rintro (h | ⟨j, p, fr, h1, h2, h3⟩)
      · cases hf : spt.find? (fun q => q.va == (addr + PGSIZE * i) % U64) with
        | none => simp [hf] at h
        | some p =>
          simp only [hf, page_write] at h
          cases hfr : p.frame with
          | none => simp [hfr] at h
          | some fr =>
            simp only [hfr] at h
            split at h
            · rename_i hd
              simp only [List.mem_singleton] at h
              exact ⟨i, p, fr, le_refl _, by omega, hf, hfr, hd, h⟩
            · simp at h
      · exact ⟨j, p, fr, by omega, by omega, h3⟩
    · rintro ⟨j, p, fr, h1, h2, hf, hfr, hd, hw⟩
      by_cases hj : j = i
      · subst hj
        left
        simp [hf, page_write, hfr, hd, hw]
      · right
        exact ⟨j, p, fr, by omega, by omega, hf, hfr, hd, hw⟩

/-- On unmap, the pages of a mapping whose record is in the table and whose
pages are all registered are written back exactly when they have a frame and
are dirty in the hardware table or in the frame's retained entry: `do_munmap`
returns, and what it has added to the writes is, in page order, one write per
such page, of the first `page_read_bytes` bytes of its frame at its file
offset, to the file of the record. -/
theorem do_munmap_writes_back (vm : Vm) (d : Nat → Bool) (addr : Nat) (me : MmapElem)
    (hrec : hash_find vm.mmap_hash addr = some me)
    (hsize : PGSIZE * me.pg_cnt.toNat < U64)
    (hpages : ∀ j, j < me.pg_cnt.toNat →
      (spt_find_page vm ((addr + PGSIZE * j) % U64)).isSome = true) :
    do_munmap vm d addr =
      .done { spt := unmapped addr me.pg_cnt.toNat 0 vm.spt,
              mmap_hash := hash_delete vm.mmap_hash addr,
              reopened := vm.reopened.erase me.file,
              written := vm.written ++
                munmap_writes d me.file addr vm.spt me.pg_cnt.toNat 0 } ∧
    ∀ w, w ∈ munmap_writes d me.file addr vm.spt me.pg_cnt.toNat 0 ↔
      ∃ j p fr, j < me.pg_cnt.toNat ∧ spt_find_page vm ((addr + PGSIZE * j) % U64) = some p ∧
        p.frame = some fr ∧ (d p.va || fr.kpte_dirty) = true ∧
        w = { file := me.file, ofs := p.file.ofs,
              bytes := fr.kva.take p.file.page_read_bytes } := by
  constructor
  · unfold do_munmap
    rw [hrec]
    simp only
    rw [munmap_pages_writes d me addr me.pg_cnt.toNat 0 vm (by simpa using hsize)
      (fun j _ hj => hpages j (by omega))]
  · intro w
    rw [munmap_writes_mem]
    constructor
    · rintro ⟨j, p, fr, -, h2, h3⟩
      exact ⟨j, p, fr, by omega, h3⟩
    · rintro ⟨j, p, fr, h2, h3⟩
      exact ⟨j, p, fr, by omega, by omega, h3⟩

/-- C8, the code at the failing input: `do_mmap (0x10000000, 4096, ...)` fails on
its page and leaves its one-page record; `do_mmap (0x10000000, 8192, ...)` of
the same 4099-byte file then succeeds, its own record not being inserted
because the key is taken.  The user stores to the second page, which is
thereby resolved and dirty in the hardware table.  `do_munmap (0x10000000)`
returns having removed one page and the record; the second page is still
registered, resolved and dirty.  `file_backed_swap_out` of that page gets NULL
from `get_file_from_hash` and passes it to `file_seek`: no write is made,
where the write-back step with the file in hand writes the 3 registered bytes
at offset 4096. -/
theorem swap_out_dirty_page_not_written :
    do_mmap vm_empty alloc_none 0x10000000 4096 true (some file_4099) 0 =
      .ret none vm_stale_base ∧
    do_mmap vm_stale_base alloc_ok 0x10000000 8192 true (some file_4099) 0 =
      .ret (some 0x10000000) vm_remapped ∧
    resolve_page page_second frame_second = some page_second_resolved ∧
    do_munmap vm_second_resident dirty_second 0x10000000 = .done vm_second_orphaned ∧
    spt_find_page vm_second_orphaned 0x10001000 = some page_second_resolved ∧
    (dirty_second page_second_resolved.va || frame_second.kpte_dirty) = true ∧
    file_backed_swap_out vm_second_orphaned dirty_second page_second_resolved = none ∧
    file_backed_write_back vm_second_orphaned dirty_second page_second_resolved
        (some file_4099) =
      some { vm_second_orphaned with
        written := [{ file := file_4099, ofs := 4096, bytes := [7, 8, 9] }] } := by
  refine ⟨by decide, by decide, rfl, rfl, rfl, rfl, rfl, rfl⟩

/-- C16, the code at the failing input: `do_mmap (0x10001000, 4096, ...)` fails
on its page and leaves its record; `do_mmap (0x10000000, 8192, ...)` then
succeeds, so that 0x10001000 is inside a live mapping and is not its base.
`do_munmap (0x10001000)` finds the record of the failed call: it does not
panic, it removes the second page of the live mapping and returns.  The
following `do_munmap (0x10000000)`, of a base whose record is in the table,
dereferences the NULL that `spt_find_page` returns for the removed page. -/
theorem do_munmap_inner_address_not_fatal :
    do_mmap vm_empty alloc_none 0x10001000 4096 true (some file_4k) 0 =
      .ret none vm_stale_inner ∧
    do_mmap vm_stale_inner alloc_ok 0x10000000 8192 true (some file_4k) 0 =
      .ret (some 0x10000000) vm_over_stale ∧
    hash_find vm_over_stale.mmap_hash 0x10000000 =
      some { addr := 0x10000000, pg_cnt := 2, file := file_4k } ∧
    (spt_find_page vm_over_stale 0x10001000).isSome = true ∧
    do_munmap vm_over_stale (fun _ => false) 0x10001000 = .done vm_inner_gone ∧
    (∀ vm1, do_munmap vm_over_stale (fun _ => false) 0x10001000 ≠ .panic vm1) ∧
    (hash_find vm_inner_gone.mmap_hash 0x10000000).isSome = true ∧
    do_munmap vm_inner_gone (fun _ => false) 0x10000000 = .fault := by
  refine ⟨by decide, by decide, by decide, by decide, by decide, ?_, by decide, by decide⟩
  intro vm1 h
  rw [show do_munmap vm_over_stale (fun _ => false) 0x10001000 = .done vm_inner_gone by decide] at h
  cases h

end Pintos
